import Mathlib

/-!
Verification of the display-scale adjustment tool
(`user_scripts/hypr/adjust_scale.py`).

Shallow embedding.  The script computes with IEEE binary64 doubles; the
model represents every float by its exact rational value and performs
each arithmetic operation the way the hardware does: the exact result,
rounded to 53 significant bits, round-to-nearest, ties-to-even
(`b64ofPos`/`toB64` below).  Subnormals and overflow are not modelled:
every quantity the script ever computes (pixel counts up to a few
thousand divided by scales in [0.5, 3], tolerances 0.01 and 1e-6) lies
far inside the normal range.  Two operations in the script need no
rounding step and are modelled exactly: comparisons (exact on doubles),
and the subtraction `lw - round(lw)` (exact by Sterbenz's lemma when
`round(lw) ≥ 1`, trivially when `round(lw) = 0`).  Python's `round` is
banker's rounding; it differs from round-half-up only when the
fractional part is exactly 1/2, where both candidate distances are 1/2
and the `> 0.01` test is unaffected, so `fracDist` rounds half up.
-/

/-- Round `a/b` (`b > 0`) to the nearest integer, ties to even: the IEEE
rounding of a scaled significand. -/
def rne (a b : ℕ) : ℕ :=
  if 2 * (a % b) < b then a / b
  else if b < 2 * (a % b) then a / b + 1
  else if (a / b) % 2 = 0 then a / b else a / b + 1

/-- Fuel-driven ⌊log₂⌋ (fuel `n` suffices for input `n`). -/
def natLog2F : ℕ → ℕ → ℕ
  | 0, _ => 0
  | f + 1, n => if n ≤ 1 then 0 else natLog2F f (n / 2) + 1

def natLog2 (n : ℕ) : ℕ := natLog2F n n

/-- ⌊log₂ (n/d)⌋ for `n, d ≥ 1`. -/
def b64exp (n d : ℕ) : ℤ :=
  if d ≤ n then (natLog2 (n / d) : ℤ)
  else -((natLog2 ((d + n - 1) / n - 1) : ℤ) + 1)

/-- The binary64 double nearest to `n/d` (`n, d ≥ 1`): significand of 53
bits obtained by `rne`, scaled back.  (A carry into 2⁵³ needs no
renormalisation: the value is already exact.) -/
def b64ofPos (n d : ℕ) : ℚ :=
  if 52 ≤ b64exp n d then
    mkRat ((rne n (d * 2 ^ (b64exp n d - 52).toNat) : ℤ) *
      2 ^ (b64exp n d - 52).toNat) 1
  else
    mkRat (rne (n * 2 ^ (52 - b64exp n d).toNat) d)
      (2 ^ (52 - b64exp n d).toNat)

/-- Round an exact rational to binary64. -/
def toB64 (q : ℚ) : ℚ :=
  if q.num = 0 then 0
  else if 0 < q.num then b64ofPos q.num.natAbs q.den
  else -b64ofPos q.num.natAbs q.den

/-- Exact rational quotient, sum and difference computed on the numerator
and denominator fields (so that concrete values reduce in the kernel). -/
def qdiv (a b : ℚ) : ℚ :=
  if 0 ≤ b.num then mkRat (a.num * b.den) (a.den * b.num.natAbs)
  else mkRat (-(a.num * b.den)) (a.den * b.num.natAbs)

def qadd (a b : ℚ) : ℚ := mkRat (a.num * b.den + b.num * a.den) (a.den * b.den)

def qsub (a b : ℚ) : ℚ := mkRat (a.num * b.den - b.num * a.den) (a.den * b.den)

/-- IEEE binary64 division, addition and subtraction: exact result, then
one rounding. -/
def fdiv (a b : ℚ) : ℚ := toB64 (qdiv a b)

def fadd (a b : ℚ) : ℚ := toB64 (qadd a b)

def fsub (a b : ℚ) : ℚ := toB64 (qsub a b)

/-- `round` (half up) on the numerator/denominator fields; agrees with
Python's banker's `round` except at exact halves, which the 0.01 filter
treats identically. -/
def roundQ (q : ℚ) : ℤ := (2 * q.num + (q.den : ℤ)) / ((2 * q.den : ℕ) : ℤ)

/-- `abs(x - round(x))` of a double `x` — the float subtraction is exact
(Sterbenz), so this is the mathematical distance. -/
def fracDist (q : ℚ) : ℚ := mkRat ((q.num - roundQ q * (q.den : ℤ)).natAbs : ℤ) q.den

/-- The doubles written `0.01` and `0.000001` in the script. -/
def D001 : ℚ := b64ofPos 1 100

def D1em6 : ℚ := b64ofPos 1 1000000

/-- `MIN_LOGICAL_WIDTH` from the script (integers are exact doubles). -/
def MIN_LOGICAL_WIDTH : ℚ := 640

/-- `MIN_LOGICAL_HEIGHT` from the script. -/
def MIN_LOGICAL_HEIGHT : ℚ := 360

/-- `SCALE_STEPS` from the script: each decimal literal denotes the
nearest double, e.g. `0.6` is `b64ofPos 6 10 = 5404319552844595/2⁵³`. -/
def SCALE_STEPS : List ℚ :=
  [b64ofPos 1 2, b64ofPos 6 10, b64ofPos 75 100, b64ofPos 8 10,
   b64ofPos 9 10, b64ofPos 1 1, b64ofPos 10625 10000, b64ofPos 11 10,
   b64ofPos 1125 1000, b64ofPos 115 100, b64ofPos 12 10, b64ofPos 125 100,
   b64ofPos 133 100, b64ofPos 14 10, b64ofPos 15 10, b64ofPos 16 10,
   b64ofPos 167 100, b64ofPos 175 100, b64ofPos 18 10, b64ofPos 188 100,
   b64ofPos 2 1, b64ofPos 225 100, b64ofPos 24 10, b64ofPos 25 10,
   b64ofPos 267 100, b64ofPos 28 10, b64ofPos 3 1]

/-- The body of the `for s in SCALE_STEPS` loop in `compute_next_scale`
(lines 81-87): a step is kept unless a `continue` fires.  Divisions are
binary64 divisions; the comparisons against the integer minimums and the
double `0.01` are exact. -/
def keepsStep (phys_w phys_h : ℕ) (s : ℚ) : Bool :=
  if fdiv (phys_w : ℚ) s < MIN_LOGICAL_WIDTH ∨
      fdiv (phys_h : ℚ) s < MIN_LOGICAL_HEIGHT then false
  else if D001 < fracDist (fdiv (phys_w : ℚ) s) ∨
      D001 < fracDist (fdiv (phys_h : ℚ) s) then false
  else true

/-- `valid_scales` as built by `compute_next_scale` (lines 79-90),
including the `[1.0]` fallback when the filter keeps nothing. -/
def valid_scales (phys_w phys_h : ℕ) : List ℚ :=
  if (SCALE_STEPS.filter (keepsStep phys_w phys_h)).isEmpty then [1]
  else SCALE_STEPS.filter (keepsStep phys_w phys_h)

/-- Python's `min` over a possibly-empty list: `None` when empty. -/
def listMin : List ℚ → Option ℚ
  | [] => none
  | x :: xs => some (xs.foldl min x)

/-- Python's `max` over a possibly-empty list: `None` when empty. -/
def listMax : List ℚ → Option ℚ
  | [] => none
  | x :: xs => some (xs.foldl max x)

/-- `compute_next_scale` (lines 77-99).  The direction argument is the
CLI string, `"+"` for increase, anything else taking the `else` branch
exactly as in the script; `current + 0.000001` and `current - 0.000001`
are binary64 additions of the double `1e-6`. -/
def compute_next_scale (current : ℚ) (direction : String) (phys_w phys_h : ℕ) :
    Option ℚ :=
  if direction = "+" then
    listMin ((valid_scales phys_w phys_h).filter (fun s => fadd current D1em6 < s))
  else
    listMax ((valid_scales phys_w phys_h).filter (fun s => s < fsub current D1em6))

/-- The admissibility condition as the original claim words it, read in
exact real arithmetic: logical dimensions at least the minimums and each
within 0.01 of an integer.  (The program computes in binary64, which is
what the counterexamples below exhibit.) -/
def specAdmissible (phys_w phys_h : ℕ) (s : ℚ) : Prop :=
  640 ≤ (phys_w : ℚ) / s ∧ 360 ≤ (phys_h : ℚ) / s ∧
  (∃ n : ℤ, |(phys_w : ℚ) / s - n| ≤ 0.01) ∧
  (∃ n : ℤ, |(phys_h : ℚ) / s - n| ≤ 0.01)

/-- The admissibility condition the program actually enforces: the same
predicates over the binary64 quotients and the double constant 0.01. -/
def specAdmissibleB64 (phys_w phys_h : ℕ) (s : ℚ) : Prop :=
  640 ≤ fdiv (phys_w : ℚ) s ∧ 360 ≤ fdiv (phys_h : ℚ) s ∧
  (∃ n : ℤ, |fdiv (phys_w : ℚ) s - n| ≤ D001) ∧
  (∃ n : ℤ, |fdiv (phys_h : ℚ) s - n| ≤ D001)

section ResolverLemmas

lemma compute_next_scale_plus (current : ℚ) (w h : ℕ) :
    compute_next_scale current "+" w h =
      listMin ((valid_scales w h).filter (fun s => fadd current D1em6 < s)) := by
  simp [compute_next_scale]

lemma compute_next_scale_minus (current : ℚ) (w h : ℕ) :
    compute_next_scale current "-" w h =
      listMax ((valid_scales w h).filter (fun s => s < fsub current D1em6)) := by
  simp [compute_next_scale]

section FloatLemmas

lemma natLog2F_spec : ∀ (f n : ℕ), 1 ≤ n → n ≤ f →
    2 ^ natLog2F f n ≤ n ∧ n < 2 ^ (natLog2F f n + 1) := by
  intro f
  induction f with
  | zero => intro n h1 h2; omega
  | succ f ih =>
    intro n h1 h2
    by_cases hn : n ≤ 1
    · have hn1 : n = 1 := by omega
      subst hn1
      simp [natLog2F]
    · have h2' : n / 2 ≤ f := by omega
      have h1' : 1 ≤ n / 2 := by omega
      obtain ⟨hlo, hhi⟩ := ih (n / 2) h1' h2'
      have hstep : natLog2F (f + 1) n = natLog2F f (n / 2) + 1 := by
        simp only [natLog2F, if_neg hn]
      rw [hstep]
      constructor
      · calc 2 ^ (natLog2F f (n / 2) + 1) = 2 ^ natLog2F f (n / 2) * 2 := by
              rw [pow_succ]
          _ ≤ (n / 2) * 2 := Nat.mul_le_mul_right 2 hlo
          _ ≤ n := by omega
      · have hA : n < (n / 2) * 2 + 2 := by omega
        have hB : ((n / 2) + 1) * 2 ≤ 2 ^ (natLog2F f (n / 2) + 1) * 2 :=
          Nat.mul_le_mul_right 2 (by omega)
        calc n < (n / 2) * 2 + 2 := hA
          _ = ((n / 2) + 1) * 2 := by ring
          _ ≤ 2 ^ (natLog2F f (n / 2) + 1) * 2 := hB
          _ = 2 ^ (natLog2F f (n / 2) + 1 + 1) := (pow_succ 2 _).symm

lemma natLog2_spec (n : ℕ) (h : 1 ≤ n) :
    2 ^ natLog2 n ≤ n ∧ n < 2 ^ (natLog2 n + 1) :=
  natLog2F_spec n n h (le_refl n)

lemma rne_le (a b : ℕ) : 2 * b * rne a b ≤ 2 * a + b := by
  have hmod := Nat.div_add_mod a b
  unfold rne
  by_cases h1 : 2 * (a % b) < b
  · rw [if_pos h1]
    calc 2 * b * (a / b) = 2 * (b * (a / b)) := by ring
      _ ≤ 2 * a := by omega
      _ ≤ 2 * a + b := by omega
  · rw [if_neg h1]
    have hkey : 2 * b * (a / b + 1) ≤ 2 * a + b := by
      have hexp : 2 * b * (a / b + 1) = 2 * (b * (a / b)) + 2 * b := by ring
      omega
    by_cases h2 : b < 2 * (a % b)
    · rw [if_pos h2]; exact hkey
    · rw [if_neg h2]
      by_cases h3 : (a / b) % 2 = 0
      · rw [if_pos h3]
        calc 2 * b * (a / b) = 2 * (b * (a / b)) := by ring
          _ ≤ 2 * a := by omega
          _ ≤ 2 * a + b := by omega
      · rw [if_neg h3]; exact hkey

lemma b64exp_branch_pos (n d : ℕ) (he : 0 ≤ b64exp n d) : d ≤ n := by
  by_contra hdn
  unfold b64exp at he
  rw [if_neg hdn] at he
  omega

lemma b64exp_lower_high (n d : ℕ) (hd : 0 < d)
    (he : 52 ≤ b64exp n d) :
    2 ^ (b64exp n d - 52).toNat * 2 ^ 52 * d ≤ n := by
  have hdn : d ≤ n := b64exp_branch_pos n d (by omega)
  have hnd1 : 1 ≤ n / d := (Nat.one_le_div_iff hd).mpr hdn
  have hspec := natLog2_spec (n / d) hnd1
  have heval : b64exp n d = (natLog2 (n / d) : ℤ) := by
    unfold b64exp
    rw [if_pos hdn]
  rw [heval] at he ⊢
  have hL : 52 ≤ natLog2 (n / d) := by exact_mod_cast he
  have htn : ((natLog2 (n / d) : ℤ) - 52).toNat = natLog2 (n / d) - 52 := by
    omega
  rw [htn]
  have hpow : 2 ^ (natLog2 (n / d) - 52) * 2 ^ 52 = 2 ^ natLog2 (n / d) := by
    rw [← pow_add]
    congr 1
    omega
  rw [hpow]
  have := (Nat.le_div_iff_mul_le hd).mp hspec.1
  exact this

lemma b64exp_lower_low (n d : ℕ) (hn : 0 < n) (hd : 0 < d)
    (he : b64exp n d < 52) :
    2 ^ 52 * d ≤ n * 2 ^ (52 - b64exp n d).toNat := by
  by_cases hdn : d ≤ n
  · have hnd1 : 1 ≤ n / d := (Nat.one_le_div_iff hd).mpr hdn
    have hspec := natLog2_spec (n / d) hnd1
    have heval : b64exp n d = (natLog2 (n / d) : ℤ) := by
      unfold b64exp
      rw [if_pos hdn]
    rw [heval] at he ⊢
    have hL : natLog2 (n / d) < 52 := by exact_mod_cast he
    have htn : ((52 : ℤ) - (natLog2 (n / d) : ℤ)).toNat = 52 - natLog2 (n / d) := by
      omega
    rw [htn]
    have hbase : 2 ^ natLog2 (n / d) * d ≤ n :=
      (Nat.le_div_iff_mul_le hd).mp hspec.1
    calc 2 ^ 52 * d = 2 ^ (52 - natLog2 (n / d)) * (2 ^ natLog2 (n / d) * d) := by
          rw [← Nat.mul_assoc, ← pow_add]
          congr 2
          omega
      _ ≤ 2 ^ (52 - natLog2 (n / d)) * n :=
          Nat.mul_le_mul_left _ hbase
      _ = n * 2 ^ (52 - natLog2 (n / d)) := by ring
  · -- n < d : e = -(natLog2 (t - 1) + 1) with t = ceil(d / n)
    have hnd : n < d := by omega
    have heval : b64exp n d =
        -((natLog2 ((d + n - 1) / n - 1) : ℤ) + 1) := by
      unfold b64exp
      rw [if_neg hdn]
    have ht2 : 2 ≤ (d + n - 1) / n := by
      rw [Nat.le_div_iff_mul_le hn]
      omega
    have hspec := natLog2_spec ((d + n - 1) / n - 1) (by omega)
    have hceil : d ≤ n * ((d + n - 1) / n) := by
      have h1 := Nat.div_add_mod (d + n - 1) n
      have h2 := Nat.mod_lt (d + n - 1) hn
      omega
    have htle : (d + n - 1) / n ≤ 2 ^ (natLog2 ((d + n - 1) / n - 1) + 1) := by
      omega
    rw [heval]
    have htn : ((52 : ℤ) - -((natLog2 ((d + n - 1) / n - 1) : ℤ) + 1)).toNat =
        53 + natLog2 ((d + n - 1) / n - 1) := by
      omega
    rw [htn]
    calc 2 ^ 52 * d ≤ 2 ^ 52 * (n * ((d + n - 1) / n)) :=
          Nat.mul_le_mul_left _ hceil
      _ ≤ 2 ^ 52 * (n * 2 ^ (natLog2 ((d + n - 1) / n - 1) + 1)) :=
          Nat.mul_le_mul_left _ (Nat.mul_le_mul_left _ htle)
      _ = n * 2 ^ (53 + natLog2 ((d + n - 1) / n - 1)) := by
          rw [pow_add]
          ring

end FloatLemmas

section FloatLemmasQ

lemma rne_le_q (a b : ℕ) (hb : 0 < b) :
    (rne a b : ℚ) ≤ (a : ℚ) / b + 1 / 2 := by
  have h := rne_le a b
  have hbq : (0 : ℚ) < b := by exact_mod_cast hb
  have hq : (2 * b * rne a b : ℕ) ≤ ((2 * a + b : ℕ) : ℚ) := by
    exact_mod_cast h
  push_cast at hq
  rw [div_add_div _ _ (ne_of_gt hbq) (two_ne_zero), le_div_iff₀ (by positivity)]
  nlinarith

lemma b64ofPos_le (n d : ℕ) (hn : 0 < n) (hd : 0 < d) :
    b64ofPos n d ≤ (n : ℚ) / d + (n : ℚ) / d / 2 ^ 53 := by
  have hndq : (0 : ℚ) < (n : ℚ) / d := by positivity
  unfold b64ofPos
  by_cases he : 52 ≤ b64exp n d
  · rw [if_pos he]
    have hD : 0 < d * 2 ^ (b64exp n d - 52).toNat := by positivity
    have hr := rne_le_q n _ hD
    have hlow := b64exp_lower_high n d hd he
    have hlowq : (2 : ℚ) ^ (b64exp n d - 52).toNat * 2 ^ 52 * d ≤ n := by
      exact_mod_cast hlow
    rw [Rat.mkRat_eq_div]
    push_cast
    rw [div_one]
    have hdq : (0 : ℚ) < (d : ℚ) := by exact_mod_cast hd
    have hkq : (0 : ℚ) < (2 : ℚ) ^ (b64exp n d - 52).toNat := by positivity
    have step1 : (rne n (d * 2 ^ (b64exp n d - 52).toNat) : ℚ) *
        2 ^ (b64exp n d - 52).toNat ≤
        ((n : ℚ) / (d * 2 ^ (b64exp n d - 52).toNat) + 1 / 2) *
          2 ^ (b64exp n d - 52).toNat := by
      apply mul_le_mul_of_nonneg_right _ (le_of_lt hkq)
      exact_mod_cast hr
    have step2 : ((n : ℚ) / (d * 2 ^ (b64exp n d - 52).toNat) + 1 / 2) *
        2 ^ (b64exp n d - 52).toNat =
        (n : ℚ) / d + 2 ^ (b64exp n d - 52).toNat / 2 := by
      field_simp
      ring
    have step3 : (2 : ℚ) ^ (b64exp n d - 52).toNat / 2 ≤ (n : ℚ) / d / 2 ^ 53 := by
      rw [div_le_div_iff₀ (by norm_num) (by positivity)]
      rw [div_mul_eq_mul_div, le_div_iff₀ hdq]
      nlinarith
    calc (rne n (d * 2 ^ (b64exp n d - 52).toNat) : ℚ) *
        2 ^ (b64exp n d - 52).toNat ≤ _ := step1
      _ = (n : ℚ) / d + 2 ^ (b64exp n d - 52).toNat / 2 := step2
      _ ≤ (n : ℚ) / d + (n : ℚ) / d / 2 ^ 53 := by linarith
  · rw [if_neg he]
    have hr := rne_le_q (n * 2 ^ (52 - b64exp n d).toNat) d hd
    have hlow := b64exp_lower_low n d hn hd (by omega)
    have hlowq : (2 : ℚ) ^ 52 * d ≤ (n : ℚ) * 2 ^ (52 - b64exp n d).toNat := by
      exact_mod_cast hlow
    rw [Rat.mkRat_eq_div]
    push_cast
    have hdq : (0 : ℚ) < (d : ℚ) := by exact_mod_cast hd
    have hkq : (0 : ℚ) < (2 : ℚ) ^ (52 - b64exp n d).toNat := by positivity
    rw [div_le_iff₀ hkq]
    have step2 : ((n : ℚ) / d + (n : ℚ) / d / 2 ^ 53) *
        2 ^ (52 - b64exp n d).toNat =
        (n : ℚ) * 2 ^ (52 - b64exp n d).toNat / d +
          (n : ℚ) / d / 2 ^ 53 * 2 ^ (52 - b64exp n d).toNat := by
      ring
    rw [step2]
    have step3 : (1 : ℚ) / 2 ≤ (n : ℚ) / d / 2 ^ 53 * 2 ^ (52 - b64exp n d).toNat := by
      rw [div_div, div_mul_eq_mul_div, le_div_iff₀ (by positivity)]
      nlinarith
    have hcast : (rne (n * 2 ^ (52 - b64exp n d).toNat) d : ℚ) ≤
        (n : ℚ) * 2 ^ (52 - b64exp n d).toNat / d + 1 / 2 := by
      have := hr
      push_cast at this
      exact this
    linarith

lemma qadd_eq (a b : ℚ) : qadd a b = a + b := by
  unfold qadd
  rw [Rat.mkRat_eq_div]
  have hda : ((a.den : ℚ)) ≠ 0 := by
    exact_mod_cast a.den_nz
  have hdb : ((b.den : ℚ)) ≠ 0 := by
    exact_mod_cast b.den_nz
  conv_rhs => rw [← Rat.num_div_den a, ← Rat.num_div_den b]
  rw [div_add_div _ _ hda hdb]
  push_cast
  ring_nf

lemma qsub_eq (a b : ℚ) : qsub a b = a - b := by
  unfold qsub
  rw [Rat.mkRat_eq_div]
  have hda : ((a.den : ℚ)) ≠ 0 := by
    exact_mod_cast a.den_nz
  have hdb : ((b.den : ℚ)) ≠ 0 := by
    exact_mod_cast b.den_nz
  conv_rhs => rw [← Rat.num_div_den a, ← Rat.num_div_den b]
  rw [div_sub_div _ _ hda hdb]
  push_cast
  ring_nf

lemma qdiv_eq (a b : ℚ) (hb : b ≠ 0) : qdiv a b = a / b := by
  unfold qdiv
  have hda : ((a.den : ℚ)) ≠ 0 := by
    exact_mod_cast a.den_nz
  have hdb : ((b.den : ℚ)) ≠ 0 := by
    exact_mod_cast b.den_nz
  have hbn : b.num ≠ 0 := Rat.num_ne_zero.mpr hb
  have hbnq : ((b.num : ℚ)) ≠ 0 := by exact_mod_cast hbn
  by_cases hs : 0 ≤ b.num
  · rw [if_pos hs, Rat.mkRat_eq_div]
    conv_rhs => rw [← Rat.num_div_den a, ← Rat.num_div_den b]
    rw [div_div_div_comm]
    push_cast
    have habs : ((b.num.natAbs : ℚ)) = (b.num : ℚ) := by
      rw [Int.cast_natAbs]
      exact_mod_cast abs_of_nonneg hs
    rw [habs]
    field_simp
    left
    ring
  · rw [if_neg hs, Rat.mkRat_eq_div]
    conv_rhs => rw [← Rat.num_div_den a, ← Rat.num_div_den b]
    rw [div_div_div_comm]
    push_cast
    have habs : ((b.num.natAbs : ℚ)) = -(b.num : ℚ) := by
      rw [Int.cast_natAbs]
      exact_mod_cast abs_of_nonpos (le_of_lt (lt_of_not_ge hs))
    rw [habs]
    field_simp
    left
    ring

end FloatLemmasQ

lemma toB64_le (q : ℚ) (hq : 0 ≤ q) : toB64 q ≤ q + q / 2 ^ 53 := by
  unfold toB64
  by_cases h0 : q.num = 0
  · rw [if_pos h0]
    have hq0 : q = 0 := Rat.num_eq_zero.mp h0
    rw [hq0]
    norm_num
  · rw [if_neg h0]
    have hpos : 0 < q.num := lt_of_le_of_ne (Rat.num_nonneg.mpr hq) (Ne.symm h0)
    rw [if_pos hpos]
    have hval : ((q.num.natAbs : ℚ)) / q.den = q := by
      have habs : ((q.num.natAbs : ℚ)) = (q.num : ℚ) := by
        rw [Int.cast_natAbs]
        exact_mod_cast abs_of_nonneg (le_of_lt hpos)
      rw [habs, Rat.num_div_den]
    have hb := b64ofPos_le q.num.natAbs q.den (Int.natAbs_pos.mpr h0) q.pos
    rw [hval] at hb
    exact hb

lemma roundQ_eq (q : ℚ) : roundQ q = round q := by
  rw [round_eq]
  unfold roundQ
  rw [← Rat.floor_intCast_div_natCast (2 * q.num + (q.den : ℤ)) (2 * q.den)]
  congr 1
  have hd : ((q.den : ℚ)) ≠ 0 := by exact_mod_cast q.den_nz
  have hnum : (q.num : ℚ) = q * q.den :=
    (div_eq_iff hd).mp (Rat.num_div_den q)
  push_cast
  field_simp
  linarith [hnum]

lemma fracDist_eq (q : ℚ) : fracDist q = |q - (round q : ℚ)| := by
  unfold fracDist
  rw [Rat.mkRat_eq_div]
  have hd : (0 : ℚ) < (q.den : ℚ) := by exact_mod_cast q.pos
  have hdne : ((q.den : ℚ)) ≠ 0 := ne_of_gt hd
  have hnum : (q.num : ℚ) = q * q.den :=
    (div_eq_iff hdne).mp (Rat.num_div_den q)
  push_cast
  rw [← abs_of_pos hd, ← abs_div]
  congr 1
  rw [roundQ_eq]
  field_simp
  linarith [hnum]

lemma D001_eq : D001 = (5764607523034235 : ℚ) / 576460752303423488 := by
  have h : D001 = mkRat 5764607523034235 576460752303423488 := by decide
  rw [h, Rat.mkRat_eq_div]
  norm_num

lemma D001_pos : 0 < D001 := by
  rw [D001_eq]
  norm_num

lemma D001_lt_half : D001 < 1 / 2 := by
  rw [D001_eq]
  norm_num

/-- Being within `c` of some integer (for `c < 1/2`) is the same as being
within `c` of the nearest integer, which is what the code tests. -/
lemma abs_sub_round_le_iff (c x : ℚ) (hc : c < 1 / 2) :
    (∃ n : ℤ, |x - n| ≤ c) ↔ |x - (round x : ℚ)| ≤ c := by
  constructor
  · rintro ⟨n, hn⟩
    have habs := abs_le.mp hn
    have hround : round x = n := by
      rw [round_eq, Int.floor_eq_iff]
      constructor
      · linarith [habs.1]
      · linarith [habs.2]
    rw [hround]
    exact hn
  · intro hx
    exact ⟨round x, hx⟩

lemma keepsStep_iff (w h : ℕ) (s : ℚ) :
    keepsStep w h s = true ↔ specAdmissibleB64 w h s := by
  unfold keepsStep specAdmissibleB64 MIN_LOGICAL_WIDTH MIN_LOGICAL_HEIGHT
  constructor
  · intro hk
    by_cases h1 : fdiv (w : ℚ) s < 640 ∨ fdiv (h : ℚ) s < 360
    · simp [h1] at hk
    · by_cases h2 : D001 < fracDist (fdiv (w : ℚ) s) ∨
          D001 < fracDist (fdiv (h : ℚ) s)
      · simp [h1, h2] at hk
      · push_neg at h1 h2
        rw [fracDist_eq, fracDist_eq] at h2
        exact ⟨h1.1, h1.2,
          (abs_sub_round_le_iff D001 _ D001_lt_half).mpr h2.1,
          (abs_sub_round_le_iff D001 _ D001_lt_half).mpr h2.2⟩
  · rintro ⟨hw, hh, hwi, hhi⟩
    have hwi' := (abs_sub_round_le_iff D001 _ D001_lt_half).mp hwi
    have hhi' := (abs_sub_round_le_iff D001 _ D001_lt_half).mp hhi
    have h1 : ¬(fdiv (w : ℚ) s < 640 ∨ fdiv (h : ℚ) s < 360) := by
      push_neg
      exact ⟨hw, hh⟩
    have h2 : ¬(D001 < fracDist (fdiv (w : ℚ) s) ∨
        D001 < fracDist (fdiv (h : ℚ) s)) := by
      push_neg
      rw [fracDist_eq, fracDist_eq]
      exact ⟨hwi', hhi'⟩
    simp [h1, h2]


lemma foldl_min_mem (xs : List ℚ) (x : ℚ) : xs.foldl min x = x ∨ xs.foldl min x ∈ xs := by
  induction xs generalizing x with
  | nil => left; rfl
  | cons y ys ih =>
    rcases ih (min x y) with h | h
    · rcases min_cases x y with ⟨he, _⟩ | ⟨he, _⟩
      · left; rw [List.foldl_cons, h, he]
      · right; rw [List.foldl_cons, h, he]; exact List.mem_cons_self y ys
    · right; exact List.mem_cons_of_mem y h

lemma foldl_min_le (xs : List ℚ) (x : ℚ) :
    xs.foldl min x ≤ x ∧ ∀ a ∈ xs, xs.foldl min x ≤ a := by
  induction xs generalizing x with
  | nil => exact ⟨le_refl x, by simp⟩
  | cons y ys ih =>
    obtain ⟨h1, h2⟩ := ih (min x y)
    refine ⟨by simpa using le_trans h1 (min_le_left x y), ?_⟩
    intro a ha
    rcases List.mem_cons.mp ha with rfl | ha
    · simpa using le_trans h1 (min_le_right x a)
    · simpa using h2 a ha

lemma listMin_eq_some_iff (l : List ℚ) (m : ℚ) :
    listMin l = some m ↔ m ∈ l ∧ ∀ a ∈ l, m ≤ a := by
  cases l with
  | nil => simp [listMin]
  | cons x xs =>
    constructor
    · intro heq
      have hm : xs.foldl min x = m := by simpa [listMin] using heq
      constructor
      · rcases foldl_min_mem xs x with h | h
        · rw [← hm, h]; exact List.mem_cons_self x xs
        · rw [← hm]; exact List.mem_cons_of_mem x h
      · intro a ha
        rw [← hm]
        rcases List.mem_cons.mp ha with rfl | ha
        · exact (foldl_min_le xs a).1
        · exact (foldl_min_le xs x).2 a ha
    · rintro ⟨hmem, hle⟩
      have h1 : xs.foldl min x ≤ m := by
        rcases List.mem_cons.mp hmem with rfl | hm
        · exact (foldl_min_le xs m).1
        · exact (foldl_min_le xs x).2 m hm
      have h2 : m ≤ xs.foldl min x := by
        rcases foldl_min_mem xs x with h | h
        · rw [h]; exact hle x (List.mem_cons_self x xs)
        · exact hle _ (List.mem_cons_of_mem x h)
      simp [listMin, le_antisymm h1 h2]

lemma foldl_max_mem (xs : List ℚ) (x : ℚ) : xs.foldl max x = x ∨ xs.foldl max x ∈ xs := by
  induction xs generalizing x with
  | nil => left; rfl
  | cons y ys ih =>
    rcases ih (max x y) with h | h
    · rcases max_cases x y with ⟨he, _⟩ | ⟨he, _⟩
      · left; rw [List.foldl_cons, h, he]
      · right; rw [List.foldl_cons, h, he]; exact List.mem_cons_self y ys
    · right; exact List.mem_cons_of_mem y h

lemma foldl_max_ge (xs : List ℚ) (x : ℚ) :
    x ≤ xs.foldl max x ∧ ∀ a ∈ xs, a ≤ xs.foldl max x := by
  induction xs generalizing x with
  | nil => exact ⟨le_refl x, by simp⟩
  | cons y ys ih =>
    obtain ⟨h1, h2⟩ := ih (max x y)
    refine ⟨by simpa using le_trans (le_max_left x y) h1, ?_⟩
    intro a ha
    rcases List.mem_cons.mp ha with rfl | ha
    · simpa using le_trans (le_max_right x a) h1
    · simpa using h2 a ha

lemma listMax_eq_some_iff (l : List ℚ) (m : ℚ) :
    listMax l = some m ↔ m ∈ l ∧ ∀ a ∈ l, a ≤ m := by
  cases l with
  | nil => simp [listMax]
  | cons x xs =>
    constructor
    · intro heq
      have hm : xs.foldl max x = m := by simpa [listMax] using heq
      constructor
      · rcases foldl_max_mem xs x with h | h
        · rw [← hm, h]; exact List.mem_cons_self x xs
        · rw [← hm]; exact List.mem_cons_of_mem x h
      · intro a ha
        rw [← hm]
        rcases List.mem_cons.mp ha with rfl | ha
        · exact (foldl_max_ge xs a).1
        · exact (foldl_max_ge xs x).2 a ha
    · rintro ⟨hmem, hle⟩
      have h1 : m ≤ xs.foldl max x := by
        rcases List.mem_cons.mp hmem with rfl | hm
        · exact (foldl_max_ge xs m).1
        · exact (foldl_max_ge xs x).2 m hm
      have h2 : xs.foldl max x ≤ m := by
        rcases foldl_max_mem xs x with h | h
        · rw [h]; exact hle x (List.mem_cons_self x xs)
        · exact hle _ (List.mem_cons_of_mem x h)
      simp [listMax, le_antisymm h2 h1]

lemma listMin_eq_none_iff (l : List ℚ) : listMin l = none ↔ l = [] := by
  cases l <;> simp [listMin]

lemma listMax_eq_none_iff (l : List ℚ) : listMax l = none ↔ l = [] := by
  cases l <;> simp [listMax]

lemma filter_steps_1920_1080 :
    SCALE_STEPS.filter (keepsStep 1920 1080) =
      [b64ofPos 1 2, b64ofPos 6 10, b64ofPos 75 100, b64ofPos 8 10,
       b64ofPos 1 1, b64ofPos 12 10, b64ofPos 125 100, b64ofPos 15 10,
       b64ofPos 16 10, b64ofPos 2 1, b64ofPos 24 10, b64ofPos 25 10,
       b64ofPos 3 1] := by decide

lemma valid_scales_1920_1080 :
    valid_scales 1920 1080 =
      [b64ofPos 1 2, b64ofPos 6 10, b64ofPos 75 100, b64ofPos 8 10,
       b64ofPos 1 1, b64ofPos 12 10, b64ofPos 125 100, b64ofPos 15 10,
       b64ofPos 16 10, b64ofPos 2 1, b64ofPos 24 10, b64ofPos 25 10,
       b64ofPos 3 1] := by decide

lemma filter_steps_320_720 :
    SCALE_STEPS.filter (keepsStep 320 720) = [b64ofPos 1 2] := by decide

lemma valid_scales_704_396 :
    valid_scales 704 396 = [b64ofPos 1 2, b64ofPos 8 10, b64ofPos 1 1] := by
  decide

lemma b64_half_eq : b64ofPos 1 2 = 0.5 := by
  have h : b64ofPos 1 2 = mkRat 1 2 := by decide
  rw [h, Rat.mkRat_eq_div]
  norm_num

lemma b64_one_eq : b64ofPos 1 1 = 1 := by
  have h : b64ofPos 1 1 = mkRat 1 1 := by decide
  rw [h, Rat.mkRat_eq_div]
  norm_num

lemma b64_15_eq : b64ofPos 15 10 = 1.5 := by
  have h : b64ofPos 15 10 = mkRat 3 2 := by decide
  rw [h, Rat.mkRat_eq_div]
  norm_num

lemma b64_125_eq : b64ofPos 125 100 = 1.25 := by
  have h : b64ofPos 125 100 = mkRat 5 4 := by decide
  rw [h, Rat.mkRat_eq_div]
  norm_num

lemma b64_3_eq : b64ofPos 3 1 = 3 := by
  have h : b64ofPos 3 1 = mkRat 3 1 := by decide
  rw [h, Rat.mkRat_eq_div]
  norm_num

-- C10 core: every step is at least the double 0.5 and positive
lemma SCALE_STEPS_pos : ∀ s ∈ SCALE_STEPS, 0 < s ∧ mkRat 1 2 ≤ s := by decide

lemma fdiv_small_width (w : ℕ) (hw : w < 320) (s : ℚ)
    (hs : 0 < s) (hs2 : mkRat 1 2 ≤ s) : fdiv (w : ℚ) s < 640 := by
  have hhalf : (1 : ℚ) / 2 ≤ s := by
    have hmk : (mkRat 1 2 : ℚ) = (1 : ℚ) / 2 := by
      rw [Rat.mkRat_eq_div]
      norm_num
    rw [← hmk]
    exact hs2
  have hq : qdiv (w : ℚ) s = (w : ℚ) / s := qdiv_eq _ s (ne_of_gt hs)
  have hnn : (0 : ℚ) ≤ (w : ℚ) / s := by positivity
  have hle : toB64 ((w : ℚ) / s) ≤ (w : ℚ) / s + (w : ℚ) / s / 2 ^ 53 :=
    toB64_le _ hnn
  have hub : (w : ℚ) / s ≤ 638 := by
    have h1 : (w : ℚ) / s ≤ (w : ℚ) / (1 / 2) :=
      div_le_div_of_nonneg_left (Nat.cast_nonneg w) (by norm_num) hhalf
    have h2 : (w : ℚ) ≤ 319 := by
      have : w ≤ 319 := by omega
      exact_mod_cast this
    rw [div_div_eq_mul_div, div_one] at h1
    linarith
  unfold fdiv
  rw [hq]
  calc toB64 ((w : ℚ) / s) ≤ (w : ℚ) / s + (w : ℚ) / s / 2 ^ 53 := hle
    _ ≤ 638 + 638 / 2 ^ 53 := by
        have h3 : (w : ℚ) / s / 2 ^ 53 ≤ 638 / 2 ^ 53 := by
          gcongr
        linarith
    _ < 640 := by norm_num


end ResolverLemmas

/-- C1 counterexample: read in exact real arithmetic the claim is false of
the program.  At 704×396 the step written `1.1` gives logical size exactly
640×360 in the reals (so it meets the claimed conditions), but the program
divides doubles: `396 / 1.1` evaluates to the double below 360
(359.99999999999994…), the `< MIN_LOGICAL_HEIGHT` guard fires, and the
step is dropped — the computed admissible set is `[0.5, 0.8, 1.0]`, with
no element above 1. -/
theorem C1_counterexample :
    b64ofPos 11 10 ∈ SCALE_STEPS ∧
    specAdmissible 704 396 (11 / 10) ∧
    keepsStep 704 396 (b64ofPos 11 10) = false ∧
    b64ofPos 11 10 ∉ valid_scales 704 396 ∧
    (∀ s ∈ valid_scales 704 396, s ≤ 1) := by
  refine ⟨by decide, ?_, by decide, by decide, by decide⟩
  refine ⟨by norm_num, by norm_num, ⟨640, by norm_num⟩, ⟨360, by norm_num⟩⟩

/-- C1 (amended): with the divisions and the 0.01 comparison performed in
binary64 exactly as the program performs them, the admissible set computed
by the resolver is exactly the set of candidates from the fixed step list
whose binary64 logical dimensions are ≥ 640×360 and within the double 0.01
of an integer; when that filtered set is empty the admissible set is
exactly `[1.0]`. -/
theorem C1_admissible_set (w h : ℕ) :
    ((∃ s ∈ SCALE_STEPS, specAdmissibleB64 w h s) →
      ∀ s : ℚ, s ∈ valid_scales w h ↔ s ∈ SCALE_STEPS ∧ specAdmissibleB64 w h s)
    ∧ ((∀ s ∈ SCALE_STEPS, ¬ specAdmissibleB64 w h s) → valid_scales w h = [1]) := by
  constructor
  · rintro ⟨s0, hs0, hadm⟩ s
    have hne : SCALE_STEPS.filter (keepsStep w h) ≠ [] := by
      intro hnil
      have : s0 ∈ SCALE_STEPS.filter (keepsStep w h) :=
        List.mem_filter.mpr ⟨hs0, (keepsStep_iff w h s0).mpr hadm⟩
      rw [hnil] at this
      exact absurd this (List.not_mem_nil s0)
    have hempty : (SCALE_STEPS.filter (keepsStep w h)).isEmpty = false := by
      cases hfe : SCALE_STEPS.filter (keepsStep w h) with
      | nil => exact absurd hfe hne
      | cons a l => simp
    unfold valid_scales
    rw [hempty]
    simp only [Bool.false_eq_true, if_false, List.mem_filter]
    exact and_congr_right fun _ => keepsStep_iff w h s
  · intro hnone
    have hnil : SCALE_STEPS.filter (keepsStep w h) = [] := by
      rw [List.filter_eq_nil_iff]
      intro s hs hk
      exact hnone s hs ((keepsStep_iff w h s).mp hk)
    unfold valid_scales
    rw [hnil]
    rfl

/-- C1 witness: at 1920×1080 an admissible step exists (the double 1.5,
with exact binary64 logical size 1280×720) and the characterisation holds
at that concrete candidate. -/
theorem C1_admissible_set_witness :
    (∃ s ∈ SCALE_STEPS, specAdmissibleB64 1920 1080 s) ∧
    (b64ofPos 15 10 ∈ valid_scales 1920 1080 ↔
      b64ofPos 15 10 ∈ SCALE_STEPS ∧ specAdmissibleB64 1920 1080 (b64ofPos 15 10)) := by
  have hfw : fdiv ((1920 : ℕ) : ℚ) (b64ofPos 15 10) = 1280 := by
    have h : fdiv ((1920 : ℕ) : ℚ) (b64ofPos 15 10) = mkRat 1280 1 := by decide
    rw [h, Rat.mkRat_eq_div]
    norm_num
  have hfh : fdiv ((1080 : ℕ) : ℚ) (b64ofPos 15 10) = 720 := by
    have h : fdiv ((1080 : ℕ) : ℚ) (b64ofPos 15 10) = mkRat 720 1 := by decide
    rw [h, Rat.mkRat_eq_div]
    norm_num
  have hex : ∃ s ∈ SCALE_STEPS, specAdmissibleB64 1920 1080 s := by
    refine ⟨b64ofPos 15 10, by decide, ?_, ?_, ⟨1280, ?_⟩, ⟨720, ?_⟩⟩
    · rw [hfw]; norm_num
    · rw [hfh]; norm_num
    · rw [hfw]; simpa using D001_pos.le
    · rw [hfh]; simpa using D001_pos.le
  exact ⟨hex, (C1_admissible_set 1920 1080).1 hex (b64ofPos 15 10)⟩

/-- C2 counterexample: at 704×396 from current 1.0 with `"+"`, the value
1.1 is admissible in the claim's exact-arithmetic reading and exceeds
current by more than 1e-6, yet the program returns `None`: its double
division had already dropped the 1.1 step from the admissible set. -/
theorem C2_counterexample :
    compute_next_scale 1 "+" 704 396 = none ∧
    specAdmissible 704 396 (11 / 10) ∧
    (1 : ℚ) + 1 / 1000000 < 11 / 10 := by
  refine ⟨by decide, ?_, by norm_num⟩
  refine ⟨by norm_num, by norm_num, ⟨640, by norm_num⟩, ⟨360, by norm_num⟩⟩

/-- C2 (amended): `compute_next_scale` with `"+"` returns the least
element of the computed admissible set exceeding the binary64 sum
`current + 1e-6` (`none` when there is none), with `"-"` the greatest
element below the binary64 difference `current - 1e-6` (`none` when there
is none); concretely at 1920×1080 from 1.25 it skips 1.33 (whose binary64
logical width is not within 0.01 of an integer) and returns 1.5. -/
theorem C2_next_scale_minmax (current : ℚ) (w h : ℕ) :
    (∀ r : ℚ, compute_next_scale current "+" w h = some r ↔
      r ∈ valid_scales w h ∧ fadd current D1em6 < r ∧
      ∀ s ∈ valid_scales w h, fadd current D1em6 < s → r ≤ s)
    ∧ (compute_next_scale current "+" w h = none ↔
      ∀ s ∈ valid_scales w h, ¬ fadd current D1em6 < s)
    ∧ (∀ r : ℚ, compute_next_scale current "-" w h = some r ↔
      r ∈ valid_scales w h ∧ r < fsub current D1em6 ∧
      ∀ s ∈ valid_scales w h, s < fsub current D1em6 → s ≤ r)
    ∧ (compute_next_scale current "-" w h = none ↔
      ∀ s ∈ valid_scales w h, ¬ s < fsub current D1em6)
    ∧ compute_next_scale 1.25 "+" 1920 1080 = some 1.5
    ∧ b64ofPos 133 100 ∉ valid_scales 1920 1080 := by
  refine ⟨?_, ?_, ?_, ?_, ?_, ?_⟩
  · intro r
    rw [compute_next_scale_plus, listMin_eq_some_iff]
    constructor
    · rintro ⟨hmem, hle⟩
      obtain ⟨hv, hgt⟩ := List.mem_filter.mp hmem
      refine ⟨hv, by simpa using hgt, ?_⟩
      intro s hs hgs
      exact hle s (List.mem_filter.mpr ⟨hs, by simpa using hgs⟩)
    · rintro ⟨hv, hgt, hleast⟩
      refine ⟨List.mem_filter.mpr ⟨hv, by simpa using hgt⟩, ?_⟩
      intro a ha
      obtain ⟨hav, hag⟩ := List.mem_filter.mp ha
      exact hleast a hav (by simpa using hag)
  · rw [compute_next_scale_plus, listMin_eq_none_iff, List.filter_eq_nil_iff]
    constructor
    · intro hall s hs hgt
      exact absurd (by simpa using hgt) (by simpa using hall s hs)
    · intro hall s hs
      simpa using hall s hs
  · intro r
    rw [compute_next_scale_minus, listMax_eq_some_iff]
    constructor
    · rintro ⟨hmem, hle⟩
      obtain ⟨hv, hlt⟩ := List.mem_filter.mp hmem
      refine ⟨hv, by simpa using hlt, ?_⟩
      intro s hs hls
      exact hle s (List.mem_filter.mpr ⟨hs, by simpa using hls⟩)
    · rintro ⟨hv, hlt, hgreatest⟩
      refine ⟨List.mem_filter.mpr ⟨hv, by simpa using hlt⟩, ?_⟩
      intro a ha
      obtain ⟨hav, hal⟩ := List.mem_filter.mp ha
      exact hgreatest a hav (by simpa using hal)
  · rw [compute_next_scale_minus, listMax_eq_none_iff, List.filter_eq_nil_iff]
    constructor
    · intro hall s hs hlt
      exact absurd (by simpa using hlt) (by simpa using hall s hs)
    · intro hall s hs
      simpa using hall s hs
  · have h125 : (1.25 : ℚ) = mkRat 5 4 := by
      rw [Rat.mkRat_eq_div]
      norm_num
    have h15 : (1.5 : ℚ) = mkRat 3 2 := by
      rw [Rat.mkRat_eq_div]
      norm_num
    rw [h125, h15]
    decide
  · decide

/-- C10 counterexample: physical width 320 is below 640, the current scale
(the double 0.4) is below 1.0 − 1e-6 both exactly and after the program's
binary64 addition of 1e-6, yet `compute_next_scale` returns 0.5 (the step
0.5 survives the filter at 320×720 with logical size 640×1440), not 1.0 —
refuting the claim's "for every physical width below 640 … returns
1.0". -/
theorem C10_counterexample :
    320 < 640 ∧ b64ofPos 4 10 < 1 - 1 / 1000000 ∧
    fadd (b64ofPos 4 10) D1em6 < 1 ∧
    compute_next_scale (b64ofPos 4 10) "+" 320 720 = some 0.5 ∧
    (0.5 : ℚ) ≠ 1 := by
  refine ⟨by norm_num, ?_, by decide, ?_, by norm_num⟩
  · have h : b64ofPos 4 10 = mkRat 3602879701896397 9007199254740992 := by decide
    rw [h, Rat.mkRat_eq_div]
    norm_num
  · rw [← b64_half_eq]
    decide

/-- C10 (amended): when no step survives the filter, the `[1.0]` fallback
is used without re-checking the constraints; in particular for every
physical width below 320 (so that every step, including 0.5, fails the
640-pixel minimum) and every current scale whose binary64 sum
`current + 1e-6` is below 1.0, an increase returns 1.0 even though the
resulting logical width is below the 640 minimum. -/
theorem C10_fallback_below_minimum (w h : ℕ) (current : ℚ)
    (hw : w < 320) (hc : fadd current D1em6 < 1) :
    valid_scales w h = [1] ∧
    compute_next_scale current "+" w h = some 1 ∧
    (w : ℚ) / 1 < 640 := by
  have hnil : SCALE_STEPS.filter (keepsStep w h) = [] := by
    rw [List.filter_eq_nil_iff]
    intro s hs
    obtain ⟨hpos, hhalf⟩ := SCALE_STEPS_pos s hs
    have hlw := fdiv_small_width w hw s hpos hhalf
    unfold keepsStep
    simp [hlw, MIN_LOGICAL_WIDTH]
  have hvalid : valid_scales w h = [1] := by
    unfold valid_scales
    rw [hnil]
    rfl
  refine ⟨hvalid, ?_, ?_⟩
  · rw [compute_next_scale_plus, hvalid]
    simp [List.filter_cons, hc, listMin]
  · rw [div_one]
    have hwq : (w : ℚ) < 320 := by exact_mod_cast hw
    linarith

/-- C10 witness: a concrete run of the amended statement at 100×100 from
the double scale 0.5. -/
theorem C10_fallback_below_minimum_witness :
    ((100 : ℕ) < 320 ∧ fadd (b64ofPos 1 2) D1em6 < 1) ∧
    (valid_scales 100 100 = [1] ∧
     compute_next_scale (b64ofPos 1 2) "+" 100 100 = some 1 ∧
     ((100 : ℕ) : ℚ) / 1 < 640) :=
  ⟨⟨by norm_num, by decide⟩,
   C10_fallback_below_minimum 100 100 (b64ofPos 1 2) (by norm_num) (by decide)⟩

/-!
## Atomic write (lines 166-177): filesystem model with failure injection

The filesystem is modelled as the content of the real config file plus the
optional temp file; each `os` call either succeeds (with its documented
effect) or raises, controlled by an injected fault flag.  `mkstemp` sits
outside the `try` block, so its failure propagates as an uncaught
exception (interpreter prints a traceback to stderr and exits 1, no temp
file having been created); failures of the write, chmod and rename are
caught by the handler, which removes the temp file, logs, and exits 1.
-/

structure FsState where
  config : List Char
  temp : Option (List Char)
deriving DecidableEq

structure WriteFaults where
  mkstempFails : Bool
  writeFails : Bool
  chmodFails : Bool
  renameFails : Bool
deriving DecidableEq

structure WriteOutcome where
  fs : FsState
  exitCode : Option ℕ
  errReported : Bool
deriving DecidableEq

/-- Step 4 of `update_config_atomically` (lines 166-177) under injected
faults: `none` exit code means the function returned normally. -/
def atomicWrite (faults : WriteFaults) (fs0 : FsState) (newText : List Char) :
    WriteOutcome :=
  if faults.mkstempFails then
    { fs := { config := fs0.config, temp := none }, exitCode := some 1,
      errReported := true }
  else
    let fs1 : FsState := { config := fs0.config, temp := some [] }
    if faults.writeFails then
      { fs := { fs1 with temp := none }, exitCode := some 1, errReported := true }
    else
      let fs2 : FsState := { fs1 with temp := some newText }
      if faults.chmodFails then
        { fs := { fs2 with temp := none }, exitCode := some 1, errReported := true }
      else if faults.renameFails then
        { fs := { fs2 with temp := none }, exitCode := some 1, errReported := true }
      else
        { fs := { config := newText, temp := none }, exitCode := none,
          errReported := false }

/-- C6: if any step of the atomic-write sequence fails, the temp file is
gone, the error is reported, the process exits non-zero, and the config
file's content is exactly what it was before the attempt. -/
theorem C6_atomic_write_failure (faults : WriteFaults) (fs0 : FsState)
    (newText : List Char)
    (hfail : faults.mkstempFails = true ∨ faults.writeFails = true ∨
      faults.chmodFails = true ∨ faults.renameFails = true) :
    (atomicWrite faults fs0 newText).fs.config = fs0.config ∧
    (atomicWrite faults fs0 newText).fs.temp = none ∧
    (atomicWrite faults fs0 newText).exitCode = some 1 ∧
    (atomicWrite faults fs0 newText).errReported = true := by
  unfold atomicWrite
  rcases hfail with hm | hw | hc | hr
  · simp [hm]
  · cases hmk : faults.mkstempFails <;> simp [hw]
  · cases hmk : faults.mkstempFails <;> cases hwr : faults.writeFails <;>
      simp [hc]
  · cases hmk : faults.mkstempFails <;> cases hwr : faults.writeFails <;>
      cases hch : faults.chmodFails <;> simp [hr]

/-- C6 witness: a rename failure on a concrete state. -/
theorem C6_atomic_write_failure_witness :
    ((⟨false, false, false, true⟩ : WriteFaults).mkstempFails = true ∨
      (⟨false, false, false, true⟩ : WriteFaults).writeFails = true ∨
      (⟨false, false, false, true⟩ : WriteFaults).chmodFails = true ∨
      (⟨false, false, false, true⟩ : WriteFaults).renameFails = true) ∧
    ((atomicWrite ⟨false, false, false, true⟩ ⟨"old".toList, none⟩
        "new".toList).fs.config = "old".toList ∧
     (atomicWrite ⟨false, false, false, true⟩ ⟨"old".toList, none⟩
        "new".toList).fs.temp = none ∧
     (atomicWrite ⟨false, false, false, true⟩ ⟨"old".toList, none⟩
        "new".toList).exitCode = some 1 ∧
     (atomicWrite ⟨false, false, false, true⟩ ⟨"old".toList, none⟩
        "new".toList).errReported = true) :=
  ⟨Or.inr (Or.inr (Or.inr rfl)),
   C6_atomic_write_failure ⟨false, false, false, true⟩ ⟨"old".toList, none⟩
     "new".toList (Or.inr (Or.inr (Or.inr rfl)))⟩

/-!
## `main` (lines 179-218): effect-trace model

`main`'s observable behaviour after the initial monitor query is modelled
as the list of external effects it performs, in order, together with the
process exit code.  The window manager is an oracle `polls : ℕ → ℚ`
giving the scale reported by the i-th verification poll.
-/

inductive Effect
  | configWrite (monitor : String) (scale : ℚ)
  | reload
  | poll (observed : ℚ)
  | notifyLimit (current : ℚ)
  | notifyAdjusted (requested actual : ℚ)
  | notifyApplied (scale : ℚ) (logicW logicH : ℤ)
deriving DecidableEq

/-- The verification loop (lines 202-209): up to 25 polls; on the first
polled value differing from the pre-change scale by more than 1e-6 the
loop breaks with that value; otherwise `actual_scale` ends as the last
polled value.  Returns the adopted value and the list of polled values. -/
def pollRun (current : ℚ) (polls : ℕ → ℚ) : ℕ → ℕ → ℚ → ℚ × List ℚ
  | _, 0, actual => (actual, [])
  | i, r + 1, _ =>
    let p := polls i
    if 0.000001 < |p - current| then (p, [p])
    else
      let rest := pollRun current polls (i + 1) r p
      (rest.1, p :: rest.2)

/-- `main` (lines 187-218), given the selected monitor's state, the CLI
direction, and the poll oracle.  Result: effect trace and exit code. -/
def main_adjust (mon_name : String) (phys_w phys_h : ℕ) (current_scale : ℚ)
    (direction : String) (polls : ℕ → ℚ) : List Effect × ℕ :=
  match compute_next_scale current_scale direction phys_w phys_h with
  | none => ([Effect.notifyLimit current_scale], 0)
  | some new_scale =>
    let ar := pollRun current_scale polls 0 25 current_scale
    if 0.000001 < |ar.1 - new_scale| then
      ([Effect.configWrite mon_name new_scale, Effect.reload] ++
        ar.2.map Effect.poll ++
        [Effect.configWrite mon_name ar.1,
         Effect.notifyAdjusted new_scale ar.1], 0)
    else
      ([Effect.configWrite mon_name new_scale, Effect.reload] ++
        ar.2.map Effect.poll ++
        [Effect.notifyApplied new_scale (round ((phys_w : ℚ) / new_scale))
          (round ((phys_h : ℚ) / new_scale))], 0)

/-- C7: when the resolver finds no candidate, the run is a no-op: no
config write, no reload, no polling; the only effect is the "limit
reached" notification and the exit code is 0. -/
theorem C7_limit_noop (mon_name : String) (phys_w phys_h : ℕ)
    (current_scale : ℚ) (direction : String) (polls : ℕ → ℚ)
    (hnone : compute_next_scale current_scale direction phys_w phys_h = none) :
    main_adjust mon_name phys_w phys_h current_scale direction polls =
      ([Effect.notifyLimit current_scale], 0) ∧
    (∀ nm sc, Effect.configWrite nm sc ∉
      (main_adjust mon_name phys_w phys_h current_scale direction polls).1) ∧
    Effect.reload ∉
      (main_adjust mon_name phys_w phys_h current_scale direction polls).1 ∧
    (∀ q, Effect.poll q ∉
      (main_adjust mon_name phys_w phys_h current_scale direction polls).1) := by
  have hmain : main_adjust mon_name phys_w phys_h current_scale direction polls =
      ([Effect.notifyLimit current_scale], 0) := by
    unfold main_adjust
    rw [hnone]
  refine ⟨hmain, ?_, ?_, ?_⟩
  · intro nm sc
    rw [hmain]
    simp
  · rw [hmain]
    simp
  · intro q
    rw [hmain]
    simp

section PollLemmas

/-- Shared concrete fact: from 1.25 at 1920×1080 the next scale up is 1.5. -/
lemma next_from_125_at_1920_1080 :
    compute_next_scale 1.25 "+" 1920 1080 = some 1.5 := by
  have h125 : (1.25 : ℚ) = mkRat 5 4 := by
    rw [Rat.mkRat_eq_div]
    norm_num
  have h15 : (1.5 : ℚ) = mkRat 3 2 := by
    rw [Rat.mkRat_eq_div]
    norm_num
  rw [h125, h15]
  decide

lemma pollRun_succ (current : ℚ) (polls : ℕ → ℚ) (i r : ℕ) (a : ℚ) :
    pollRun current polls i (r + 1) a =
      if 0.000001 < |polls i - current| then (polls i, [polls i])
      else ((pollRun current polls (i + 1) r (polls i)).1,
        polls i :: (pollRun current polls (i + 1) r (polls i)).2) := rfl

lemma pollRun_no_change (current : ℚ) (polls : ℕ → ℚ) :
    ∀ (r i : ℕ) (a : ℚ), 0 < r →
      (∀ j, i ≤ j → j < i + r → ¬(0.000001 < |polls j - current|)) →
      pollRun current polls i r a = (polls (i + r - 1), (List.range' i r).map polls) := by
  intro r
  induction r with
  | zero => intro i a h0; exact absurd h0 (by simp)
  | succ r' ih =>
    intro i a _ hno
    have hni : ¬(0.000001 < |polls i - current|) :=
      hno i (le_refl i) (by omega)
    rw [pollRun_succ, if_neg hni]
    cases hr : r' with
    | zero =>
      subst hr
      simp [pollRun, List.range']
    | succ r'' =>
      rw [← hr]
      have hpos : 0 < r' := by omega
      have hrec := ih (i + 1) (polls i) hpos (by
        intro j hj1 hj2
        exact hno j (by omega) (by omega))
      rw [hrec]
      have h1 : i + 1 + r' - 1 = i + (r' + 1) - 1 := by omega
      rw [h1, List.range'_succ]
      simp

lemma pollRun_first_change (current : ℚ) (polls : ℕ → ℚ) :
    ∀ (r i : ℕ) (a : ℚ) (j0 : ℕ), i ≤ j0 → j0 < i + r →
      0.000001 < |polls j0 - current| →
      (∀ j, i ≤ j → j < j0 → ¬(0.000001 < |polls j - current|)) →
      pollRun current polls i r a = (polls j0, (List.range' i (j0 - i + 1)).map polls) := by
  intro r
  induction r with
  | zero => intro i a j0 h1 h2; omega
  | succ r' ih =>
    intro i a j0 hij hlt hchange hmin
    rcases Nat.eq_or_lt_of_le hij with heq | hstrict
    · subst heq
      rw [pollRun_succ, if_pos hchange]
      have h0 : i - i + 1 = 1 := by omega
      rw [h0]
      simp [List.range']
    · have hni : ¬(0.000001 < |polls i - current|) :=
        hmin i (le_refl i) hstrict
      rw [pollRun_succ, if_neg hni]
      have hrec := ih (i + 1) (polls i) j0 (by omega) (by omega) hchange (by
        intro j hj1 hj2
        exact hmin j (by omega) hj2)
      rw [hrec]
      have h1 : j0 - (i + 1) + 1 = j0 - i := by omega
      have h2 : j0 - i + 1 = (j0 - i - 1 + 1) + 1 := by omega
      rw [h1, h2, List.range'_succ]
      have h3 : j0 - i - 1 + 1 = j0 - i := by omega
      rw [h3]
      simp

end PollLemmas

/-- C8: after patching and reload, the tool polls up to 25 times, adopting
the first polled scale that differs from the pre-change value by more than
1e-6, or the last polled value when none does; if the adopted value
differs from the requested scale by more than 1e-6 it re-runs the config
patcher with the adopted value and emits the "adjusted" notification,
otherwise the plain success notification. -/
theorem C8_verify_reconcile (mon : String) (w h : ℕ) (current : ℚ)
    (dir : String) (polls : ℕ → ℚ) (ns : ℚ)
    (hns : compute_next_scale current dir w h = some ns) :
    ((∀ j, j < 25 → ¬(0.000001 < |polls j - current|)) →
      (pollRun current polls 0 25 current).1 = polls 24) ∧
    (∀ j0, j0 < 25 → 0.000001 < |polls j0 - current| →
      (∀ j, j < j0 → ¬(0.000001 < |polls j - current|)) →
      (pollRun current polls 0 25 current).1 = polls j0) ∧
    (0.000001 < |(pollRun current polls 0 25 current).1 - ns| →
      main_adjust mon w h current dir polls =
        ([Effect.configWrite mon ns, Effect.reload] ++
          (pollRun current polls 0 25 current).2.map Effect.poll ++
          [Effect.configWrite mon (pollRun current polls 0 25 current).1,
           Effect.notifyAdjusted ns (pollRun current polls 0 25 current).1], 0)) ∧
    (¬ 0.000001 < |(pollRun current polls 0 25 current).1 - ns| →
      main_adjust mon w h current dir polls =
        ([Effect.configWrite mon ns, Effect.reload] ++
          (pollRun current polls 0 25 current).2.map Effect.poll ++
          [Effect.notifyApplied ns (round ((w : ℚ) / ns))
            (round ((h : ℚ) / ns))], 0)) := by
  refine ⟨?_, ?_, ?_, ?_⟩
  · intro hno
    rw [pollRun_no_change current polls 25 0 current (by omega) (by
      intro j hj1 hj2
      exact hno j (by omega))]
  · intro j0 hj0 hch hmin
    rw [pollRun_first_change current polls 25 0 current j0 (by omega)
      (by omega) hch (by intro j hj1 hj2; exact hmin j hj2)]
  · intro hdiv
    unfold main_adjust
    rw [hns]
    simp only [hdiv, if_true]
  · intro hdiv
    unfold main_adjust
    rw [hns]
    simp only [hdiv, if_false]

/-- C8 witness: the spec's clamped scenario — 1.5 requested from 1.25 at
1920×1080, the window manager reports 1.0 on the first poll; the tool
re-patches to 1.0 and emits the "adjusted" notification. -/
theorem C8_verify_reconcile_witness :
    compute_next_scale 1.25 "+" 1920 1080 = some 1.5 ∧
    main_adjust "eDP-1" 1920 1080 1.25 "+" (fun _ => 1.0) =
      ([Effect.configWrite "eDP-1" 1.5, Effect.reload, Effect.poll 1.0,
        Effect.configWrite "eDP-1" 1.0, Effect.notifyAdjusted 1.5 1.0], 0) := by
  have hns := next_from_125_at_1920_1080
  have hchange : (0.000001 : ℚ) < |(1.0 : ℚ) - 1.25| := by
    rw [lt_abs]
    right
    norm_num
  have hpoll : pollRun 1.25 (fun _ => 1.0) 0 25 1.25 = (1.0, [1.0]) := by
    show pollRun 1.25 (fun _ => 1.0) 0 (24 + 1) 1.25 = (1.0, [1.0])
    simp only [pollRun, hchange, if_true]
  have hdiv : (0.000001 : ℚ) <
      |(pollRun 1.25 (fun _ => 1.0) 0 25 1.25).1 - 1.5| := by
    rw [hpoll]
    rw [lt_abs]
    right
    norm_num
  have hmain := (C8_verify_reconcile "eDP-1" 1920 1080 1.25 "+"
    (fun _ => 1.0) 1.5 hns).2.2.1 hdiv
  rw [hpoll] at hmain
  exact ⟨hns, by simpa using hmain⟩

/-- C7 witness: at 1920×1080 from scale 3.0 (top of the admissible list)
an increase has no candidate and the run is the limit-reached no-op. -/
theorem C7_limit_noop_witness :
    compute_next_scale 3.0 "+" 1920 1080 = none ∧
    main_adjust "eDP-1" 1920 1080 3.0 "+" (fun _ => 3.0) =
      ([Effect.notifyLimit 3.0], 0) := by
  have hnone : compute_next_scale 3.0 "+" 1920 1080 = none := by
    have h3 : (3.0 : ℚ) = mkRat 3 1 := by
      rw [Rat.mkRat_eq_div]
      norm_num
    rw [h3]
    decide
  exact ⟨hnone, (C7_limit_noop "eDP-1" 1920 1080 3.0 "+" (fun _ => 3.0) hnone).1⟩

/-!
## Config patcher (lines 101-164): text model

The file content is a `List Char`.  The two `re.sub` passes are modelled
by executable scanners whose behaviour matches the regexes on their match
language:

* v1 pass, pattern `^(\s*monitor\s*=\s*)([^,\n]+)(,.*)$` with MULTILINE:
  `^` only matches at line starts, but each `\s*` may span newlines, so a
  match may cover several lines (`parseV1At` matches at one line start,
  `v1Scan` is the full left-to-right sub).  On lines that are blank or
  "safe" — the match attempt cannot run off the line's end — the scanner
  reduces to a per-line map (`v1Scan_lines`).
* v2 pass, pattern `monitorv2\s*\{[^}]*\}`: a linear scan; at each
  position a match consumes `monitorv2`, whitespace (newlines included),
  `{`, everything up to the first `}`, and that `}`.

Whitespace (`\s`, `str.strip()`, `str.isspace()`) is the full Python set:
ASCII `\t\n\x0b\x0c\r `, the C1 controls 0x1c-0x1f and 0x85, and the
Unicode space characters (0xa0, 0x1680, 0x2000-0x200a, 0x2028, 0x2029,
0x202f, 0x205f, 0x3000). -/

def isSpaceChar (c : Char) : Bool :=
  c == ' ' || c == '\t' || c == '\n' || c == '\r' ||
  c == '\x0b' || c == '\x0c' ||
  (0x1c ≤ c.toNat && c.toNat ≤ 0x1f) ||
  c.toNat == 0x85 || c.toNat == 0xa0 || c.toNat == 0x1680 ||
  (0x2000 ≤ c.toNat && c.toNat ≤ 0x200a) ||
  c.toNat == 0x2028 || c.toNat == 0x2029 || c.toNat == 0x202f ||
  c.toNat == 0x205f || c.toNat == 0x3000

/-- Python `str.strip()` with no argument strips exactly the characters
for which `str.isspace()` holds — the same set. -/
def stripBoth (s : List Char) : List Char :=
  ((s.dropWhile isSpaceChar).reverse.dropWhile isSpaceChar).reverse

/-- Python `sep.join(pieces)` for a one-character separator. -/
def joinWith (sep : Char) : List (List Char) → List Char
  | [] => []
  | [p] => p
  | p :: ps => p ++ sep :: joinWith sep ps

/-- Python `str.split(sep)` for a one-character separator: always returns
at least one piece. -/
def consHead (c : Char) : List (List Char) → List (List Char)
  | [] => [[c]]
  | s :: ss => (c :: s) :: ss

def splitOnChar (sep : Char) : List Char → List (List Char)
  | [] => [[]]
  | c :: rest =>
    if c = sep then [] :: splitOnChar sep rest
    else consHead c (splitOnChar sep rest)

/-- Python `needle in hay` substring test. -/
def listContains (needle : List Char) : List Char → Bool
  | [] => needle.isEmpty
  | c :: rest => needle.isPrefixOf (c :: rest) || listContains needle rest

/-- Match of `^(\s*monitor\s*=\s*)([^,\n]+)(,.*)$` against one line,
returning the three groups. -/
def parseV1Line (line : List Char) : Option (List Char × List Char × List Char) :=
  if "monitor".toList.isPrefixOf (line.dropWhile isSpaceChar) then
    match ((line.dropWhile isSpaceChar).drop 7).dropWhile isSpaceChar with
    | [] => none
    | c :: r3 =>
      if c = '=' then
        match r3.dropWhile (fun ch => ch ≠ ',') with
        | [] => none
        | c2 :: rest2 =>
          match (r3.takeWhile (fun ch => ch ≠ ',')).dropWhile isSpaceChar with
          | [] =>
            -- everything before the comma is whitespace: `[^,\n]+` still
            -- needs one character, so backtracking leaves the last one
            match (r3.takeWhile (fun ch => ch ≠ ',')).reverse with
            | [] => none
            | lastc :: revInit =>
              some (line.takeWhile isSpaceChar ++ "monitor".toList ++
                ((line.dropWhile isSpaceChar).drop 7).takeWhile isSpaceChar ++
                '=' :: revInit.reverse, [lastc], c2 :: rest2)
          | g2h :: g2t =>
            some (line.takeWhile isSpaceChar ++ "monitor".toList ++
              ((line.dropWhile isSpaceChar).drop 7).takeWhile isSpaceChar ++
              '=' :: (r3.takeWhile (fun ch => ch ≠ ',')).takeWhile isSpaceChar,
              g2h :: g2t, c2 :: rest2)
      else none
  else none

/-- The comment split of `re.search(r'(\s*#.*)', remainder)` (line 140):
the comment starts at the maximal whitespace run before the first `#`;
returns (rest, comment) with `remainder = rest ++ comment`. -/
def detachComment (remainder : List Char) : List Char × List Char :=
  let pre := remainder.takeWhile (fun c => c ≠ '#')
  match remainder.dropWhile (fun c => c ≠ '#') with
  | [] => (remainder, [])
  | hashSuffix =>
    let preRev := pre.reverse
    ((preRev.dropWhile isSpaceChar).reverse,
     (preRev.takeWhile isSpaceChar).reverse ++ hashSuffix)

/-- The `parts` surgery of `v1_replacer` (lines 145-154). -/
def v1NewParts (scaleStr : List Char) (parts : List (List Char)) :
    List (List Char) :=
  match parts with
  | [p0, p1] =>
    if listContains "disable".toList (stripBoth p1) then
      [[], " preferred".toList, " auto".toList, ' ' :: scaleStr]
    else [p0, p1, " auto".toList, ' ' :: scaleStr]
  | [p0, p1, p2] => [p0, p1, p2, ' ' :: scaleStr]
  | p0 :: p1 :: p2 :: _ :: tl => p0 :: p1 :: p2 :: (' ' :: scaleStr) :: tl
  | other => other

/-- Full edit of the matched line's remainder (group 3): detach the
comment, split on commas, rewrite the fields, rejoin, reattach. -/
def v1EditRemainder (scaleStr remainder : List Char) : List Char :=
  let rc := detachComment remainder
  joinWith ',' (v1NewParts scaleStr (splitOnChar ',' rc.1)) ++ rc.2

/-- `v1_replacer` on one line: rewrites it when the trimmed group-2 name
equals the target, reporting whether it fired. -/
def v1Line (name scaleStr line : List Char) : List Char × Bool :=
  match parseV1Line line with
  | none => (line, false)
  | some (g1, g2, g3) =>
    if stripBoth g2 = name then (g1 ++ g2 ++ v1EditRemainder scaleStr g3, true)
    else (line, false)

/-- Per-line reference semantics of the v1 pass: the map/flag the full
scanner (`v1Scan` below) computes when every line is blank or v1-safe
(`v1Scan_lines`). -/
def v1Pass (name scaleStr : List Char) (ls : List (List Char)) :
    List (List Char) × Bool :=
  (ls.map (fun l => (v1Line name scaleStr l).1),
   ls.any (fun l => (v1Line name scaleStr l).2))

/-- The `[^,\n]` character class of the v1 pattern's group 2. -/
def v1NameChar (ch : Char) : Bool := ch ≠ ',' && ch ≠ '\n'

/-- Match of `^(\s*monitor\s*=\s*)([^,\n]+)(,.*)$` (MULTILINE) anchored at
a line start of the remaining text `t`: the three groups and the text
after the match (empty, or starting with the newline before the next
line).  Each `\s*` may span newlines.  Greediness: each `\s*` is maximal
(backtracking it cannot help, as the following literal is never a
whitespace character) except the one before group 2, which backtracks by
exactly one non-newline whitespace character when everything between `=`
and the first `,` is whitespace, `[^,\n]+` needing one character. -/
def parseV1At (t : List Char) :
    Option ((List Char × List Char × List Char) × List Char) :=
  if "monitor".toList.isPrefixOf (t.dropWhile isSpaceChar) then
    match ((t.dropWhile isSpaceChar).drop 7).dropWhile isSpaceChar with
    | [] => none
    | c :: r3 =>
      if c = '=' then
        match (r3.dropWhile isSpaceChar).takeWhile v1NameChar,
            (r3.dropWhile isSpaceChar).dropWhile v1NameChar with
        | [], bc :: u =>
          if bc = ',' then
            match (r3.takeWhile isSpaceChar).reverse with
            | [] => none
            | wlast :: wrev =>
              if wlast = '\n' then none
              else
                some ((t.takeWhile isSpaceChar ++ "monitor".toList ++
                  ((t.dropWhile isSpaceChar).drop 7).takeWhile isSpaceChar ++
                  '=' :: wrev.reverse, [wlast],
                  ',' :: u.takeWhile (fun ch => ch ≠ '\n')),
                  u.dropWhile (fun ch => ch ≠ '\n'))
          else none
        | g2h :: g2t, bc :: u =>
          if bc = ',' then
            some ((t.takeWhile isSpaceChar ++ "monitor".toList ++
              ((t.dropWhile isSpaceChar).drop 7).takeWhile isSpaceChar ++
              '=' :: r3.takeWhile isSpaceChar, g2h :: g2t,
              ',' :: u.takeWhile (fun ch => ch ≠ '\n')),
              u.dropWhile (fun ch => ch ≠ '\n'))
          else none
        | _, _ => none
      else none
  else none

/-- A line is v1-safe when a match attempt at its start cannot run past
its end: the line is not all whitespace, and if it is a (whitespace,
`monitor`)-headed line the pattern's progress does not end inside
trailing whitespace of the line. -/
def v1SafeLine (L : List Char) : Bool :=
  !(L.dropWhile isSpaceChar).isEmpty &&
  (!("monitor".toList.isPrefixOf (L.dropWhile isSpaceChar)) ||
    (match ((L.dropWhile isSpaceChar).drop 7).dropWhile isSpaceChar with
     | [] => false
     | '=' :: r3 => !(r3.dropWhile isSpaceChar).isEmpty
     | _ :: _ => true))

/-- The v1 `re.sub` (line 159): scan the text line start by line start
(`^` only matches there); at a match, emit the replacer's output and
continue after the match, otherwise emit the line verbatim.  Structural
recursion on a fuel that `v1Scan` instantiates with the text length. -/
def v1ScanBody (name s t : List Char)
    (recur : List Char → List Char × Bool) : List Char × Bool :=
  match t with
  | [] => ([], false)
  | c :: rest =>
    match parseV1At (c :: rest) with
    | some ((g1, g2, g3), after) =>
      match after with
      | [] =>
        (if stripBoth g2 = name then g1 ++ g2 ++ v1EditRemainder s g3
         else g1 ++ g2 ++ g3, stripBoth g2 = name)
      | c2 :: rest2 =>
        ((if stripBoth g2 = name then g1 ++ g2 ++ v1EditRemainder s g3
          else g1 ++ g2 ++ g3) ++ c2 :: (recur rest2).1,
         decide (stripBoth g2 = name) || (recur rest2).2)
    | none =>
      match (c :: rest).dropWhile (fun ch => ch ≠ '\n') with
      | [] => (c :: rest, false)
      | c2 :: rest2 =>
        ((c :: rest).takeWhile (fun ch => ch ≠ '\n') ++ c2 :: (recur rest2).1,
         (recur rest2).2)

def v1ScanFuel (name s : List Char) : ℕ → List Char → List Char × Bool
  | 0, t => (t, false)
  | fuel + 1, t => v1ScanBody name s t (v1ScanFuel name s fuel)

def v1Scan (name s t : List Char) : List Char × Bool :=
  v1ScanFuel name s t.length t

/-- A line is blank (all whitespace) or v1-safe: the hypothesis under
which the scanner reduces to the per-line pass. -/
def v1OkLine (L : List Char) : Bool := L.all isSpaceChar || v1SafeLine L

def isWordChar (c : Char) : Bool := c.isAlpha || c.isDigit || c == '_'

/-- `\b` after a match whose final character's wordness is `prevIsWord`,
looking at the following text. -/
def wordBoundaryAfter (prevIsWord : Bool) (next : List Char) : Bool :=
  match next with
  | [] => prevIsWord
  | c :: _ => prevIsWord != isWordChar c

/-- `\s*NAME\b` at text `r3` (the part after `output\s*=`), trying every
backtracking split of the greedy `\s*`. -/
def outputNameHere (name : List Char) (r3 : List Char) : Bool :=
  (List.range ((r3.takeWhile isSpaceChar).length + 1)).any (fun k =>
    name.isPrefixOf (r3.drop k) &&
    wordBoundaryAfter
      (match name.reverse with
       | pc :: _ => isWordChar pc
       | [] => false)
      ((r3.drop k).drop name.length))

/-- `\s*output\s*=\s*NAME\b` from one `^` position (whitespace may span
line breaks). -/
def matchOutputFrom (name s : List Char) : Bool :=
  let r0 := s.dropWhile isSpaceChar
  if "output".toList.isPrefixOf r0 then
    match (r0.drop 6).dropWhile isSpaceChar with
    | '=' :: r3 => outputNameHere name r3
    | _ => false
  else false

/-- Try a predicate at every position following a newline. -/
def anyAfterNewline (p : List Char → Bool) : List Char → Bool
  | [] => false
  | c :: rest => (c == '\n' && p rest) || anyAfterNewline p rest

/-- `re.search(rf"^\s*output\s*=\s*{name}\b", block, re.MULTILINE)`. -/
def blockHasOutput (name block : List Char) : Bool :=
  matchOutputFrom name block || anyAfterNewline (matchOutputFrom name) block

/-- `^\s*scale\s*=` from one `^` position. -/
def matchScaleFrom (s : List Char) : Bool :=
  let r0 := s.dropWhile isSpaceChar
  if "scale".toList.isPrefixOf r0 then
    match (r0.drop 5).dropWhile isSpaceChar with
    | '=' :: _ => true
    | _ => false
  else false

/-- `re.search(r"^\s*scale\s*=.*", block, re.MULTILINE)`. -/
def blockHasScale (block : List Char) : Bool :=
  matchScaleFrom block || anyAfterNewline matchScaleFrom block

/-- One line under `re.sub(r"(^\s*scale\s*=).*$", rf"\1 {scale:g}", ...)`:
a `scale = …` line keeps everything through the `=` and gets ` scale`
after it; other lines pass through. -/
def scaleLineEdit (scaleStr line : List Char) : List Char :=
  let w0 := line.takeWhile isSpaceChar
  let r0 := line.dropWhile isSpaceChar
  if "scale".toList.isPrefixOf r0 then
    let r1 := r0.drop 5
    let w1 := r1.takeWhile isSpaceChar
    match r1.dropWhile isSpaceChar with
    | '=' :: _ => w0 ++ "scale".toList ++ w1 ++ '=' :: ' ' :: scaleStr
    | _ => line
  else line

/-- The scale-field rewrite inside a matched v2 block (line 120). -/
def v2SetScale (scaleStr block : List Char) : List Char :=
  joinWith '\n' ((splitOnChar '\n' block).map (scaleLineEdit scaleStr))

/-- The scale-field insertion before the closing brace (line 122):
`re.sub(r"(\s*)\}$", rf"\1    scale = {scale:g}\n}}", block)`. -/
def v2InsertScale (scaleStr block : List Char) : List Char :=
  match block.reverse with
  | '\x7d' :: revRest =>
    (revRest.dropWhile isSpaceChar).reverse ++
      (revRest.takeWhile isSpaceChar).reverse ++
      "    scale = ".toList ++ scaleStr ++ ['\n', '\x7d']
  | _ => block

/-- `v2_replacer` (lines 115-124) on one block. -/
def v2Replacer (name scaleStr block : List Char) : List Char × Bool :=
  if blockHasOutput name block then
    (if blockHasScale block then v2SetScale scaleStr block
     else v2InsertScale scaleStr block, true)
  else (block, false)

/-- `monitorv2\s*\{[^}]*\}` anchored at the head of `l`: the matched
block and the rest of the text.  When `[^}]*\}` completes, the first
character after the greedy run of non-`}` characters is necessarily `}`. -/
def matchV2At (l : List Char) : Option (List Char × List Char) :=
  if "monitorv2".toList.isPrefixOf l then
    match (l.drop 9).dropWhile isSpaceChar with
    | [] => none
    | c :: r3 =>
      if c = '\x7b' then
        match r3.dropWhile (fun ch => ch ≠ '\x7d') with
        | [] => none
        | _ :: r5 =>
          some ("monitorv2".toList ++ (l.drop 9).takeWhile isSpaceChar ++
            '\x7b' :: r3.takeWhile (fun ch => ch ≠ '\x7d') ++ ['\x7d'], r5)
      else none
  else none

lemma length_dropWhile_le' (p : Char → Bool) (l : List Char) :
    (l.dropWhile p).length ≤ l.length := by
  induction l with
  | nil => simp
  | cons c rest ih =>
    by_cases h : p c
    · rw [List.dropWhile_cons_of_pos h]
      exact Nat.le_succ_of_le ih
    · rw [List.dropWhile_cons_of_neg h]

lemma matchV2At_rest_lt (l b a : List Char) (h : matchV2At l = some (b, a)) :
    a.length < l.length := by
  unfold matchV2At at h
  split at h
  · rename_i hpre
    have hlen9 : 9 ≤ l.length := by
      have h2 : "monitorv2".toList <+: l := by
        rwa [← List.isPrefixOf_iff_prefix]
      simpa using h2.length_le
    split at h
    · exact absurd h (by simp)
    · rename_i c r3 hd
      split at h
      · split at h
        · exact absurd h (by simp)
        · rename_i c2 r5 hd2
          have ha : a = r5 := by
            rw [Option.some_inj, Prod.mk.injEq] at h
            exact h.2.symm
          subst ha
          have h1 : a.length < r3.length + 1 := by
            have hle : (r3.dropWhile (fun ch => ch ≠ '\x7d')).length ≤ r3.length :=
              length_dropWhile_le' _ r3
            rw [hd2] at hle
            simp at hle
            omega
          have h2 : r3.length + 1 ≤ (l.drop 9).length := by
            have hle : ((l.drop 9).dropWhile isSpaceChar).length ≤
                (l.drop 9).length := length_dropWhile_le' _ _
            rw [hd] at hle
            simpa using hle
          have h3 : (l.drop 9).length = l.length - 9 := by simp
          omega
      · exact absurd h (by simp)
  · exact absurd h (by simp)

/-- The v2 `re.sub` (line 126): linear scan, non-overlapping leftmost
matches, each block fed to the replacer; structural recursion on a fuel
that `v2Scan` instantiates with the text length, which
`matchV2At_rest_lt` shows never runs out. -/
def v2ScanFuel (name scaleStr : List Char) : ℕ → List Char → List Char × Bool
  | 0, l => (l, false)
  | _ + 1, [] => ([], false)
  | fuel + 1, c :: rest =>
    match matchV2At (c :: rest) with
    | some (block, after) =>
      let rb := v2Replacer name scaleStr block
      let tailRes := v2ScanFuel name scaleStr fuel after
      (rb.1 ++ tailRes.1, rb.2 || tailRes.2)
    | none =>
      let tailRes := v2ScanFuel name scaleStr fuel rest
      (c :: tailRes.1, tailRes.2)

def v2Scan (name scaleStr l : List Char) : List Char × Bool :=
  v2ScanFuel name scaleStr l.length l

/-- `update_config_atomically`'s pure text transformation (lines 107-164),
taking the scale already formatted (`f"{new_scale:g}"`): the v2 `re.sub`,
then if nothing was found the v1 `re.sub`, then if still nothing the
appended entry. -/
def update_config (name scaleStr content : List Char) : List Char :=
  if (v2Scan name scaleStr content).2 then (v2Scan name scaleStr content).1
  else if (v1Scan name scaleStr (v2Scan name scaleStr content).1).2 then
    (v1Scan name scaleStr (v2Scan name scaleStr content).1).1
  else
    (v1Scan name scaleStr (v2Scan name scaleStr content).1).1 ++
      '\n' :: "monitor = ".toList ++ name ++
      ", preferred, auto, ".toList ++ scaleStr ++ ['\n']

/-!
## `f"{new_scale:g}"` (used at lines 120, 122, 148-154, 164)

Python's `%g`: 6 significant digits, trailing zeros stripped, fixed
notation for decimal exponents in [-4, 6), scientific otherwise with a
sign and at least two exponent digits.  Computed here exactly on the
rational (the script's float is the same decimal for every value it ever
formats; `%g` rounds half-to-even on the float where this rounds half-up,
a difference only at exact decimal midpoints six digits in). -/

def natLog10F : ℕ → ℕ → ℕ
  | 0, _ => 0
  | f + 1, n => if n < 10 then 0 else natLog10F f (n / 10) + 1

def natLog10 (n : ℕ) : ℕ := natLog10F n n

def natToCharsF : ℕ → ℕ → List Char
  | 0, _ => []
  | f + 1, n =>
    if n < 10 then [Char.ofNat (48 + n)]
    else natToCharsF f (n / 10) ++ [Char.ofNat (48 + n % 10)]

def natToChars (n : ℕ) : List Char := natToCharsF (n + 1) n

def stripTrailingZeros (s : List Char) : List Char :=
  (s.reverse.dropWhile (fun c => c == '0')).reverse

/-- Decimal exponent of `a/d` (assuming `0 < a`, `0 < d`):
the unique `e` with `10^e ≤ a/d < 10^(e+1)`. -/
def fmtExp (a d : ℕ) : ℤ :=
  if d ≤ a then (natLog10 (a / d) : ℤ)
  else -((natLog10 ((d + a - 1) / a - 1) : ℤ) + 1)

/-- `a/d` rounded half-up to six significant digits given its decimal
exponent `e`: the integer nearest `(a/d)·10^(5-e)`. -/
def fmtSig (a d : ℕ) (e : ℤ) : ℕ :=
  if e ≤ 5 then (2 * a * 10 ^ (5 - e).toNat + d) / (2 * d)
  else (2 * a + d * 10 ^ (e - 5).toNat) / (2 * (d * 10 ^ (e - 5).toNat))

/-- Assemble the `%g` text from sign, significand and exponent. -/
def fmtAssemble (neg : Bool) (m : ℕ) (e : ℤ) : List Char :=
  let digits := natToChars m
  let sign : List Char := if neg then ['-'] else []
  if -4 ≤ e ∧ e < 6 then
    if 0 ≤ e then
      let fp := stripTrailingZeros (digits.drop (e.toNat + 1))
      sign ++ digits.take (e.toNat + 1) ++
        (if fp.isEmpty then [] else '.' :: fp)
    else
      sign ++ '0' :: '.' :: List.replicate ((-e).toNat - 1) '0' ++
        stripTrailingZeros digits
  else
    let mant : List Char :=
      match digits with
      | [] => []
      | dh :: dt =>
        let fp := stripTrailingZeros dt
        dh :: (if fp.isEmpty then [] else '.' :: fp)
    let en := natToChars e.natAbs
    sign ++ mant ++ 'e' :: (if e < 0 then '-' else '+') ::
      (if en.length < 2 then '0' :: en else en)

def fmtG (q : ℚ) : List Char :=
  if q = 0 then ['0']
  else
    let e := fmtExp q.num.natAbs q.den
    let m := fmtSig q.num.natAbs q.den e
    if m = 10 ^ 6 then fmtAssemble (decide (q < 0)) (10 ^ 5) (e + 1)
    else fmtAssemble (decide (q < 0)) m e

/-- `update_config_atomically`'s text transformation with the scale still
numeric, formatting it the way the script does everywhere. -/
def update_config_atomically (name : List Char) (new_scale : ℚ)
    (content : List Char) : List Char :=
  update_config name (fmtG new_scale) content

section StringLemmas

/-- The characters `%g` can emit. -/
def fmtCharOK (c : Char) : Prop :=
  c ∈ "0123456789.-+e".toList

lemma natToCharsF_chars (f n : ℕ) :
    ∀ c ∈ natToCharsF f n, c ∈ "0123456789".toList := by
  induction f generalizing n with
  | zero => simp [natToCharsF]
  | succ f ih =>
    intro c hc
    unfold natToCharsF at hc
    by_cases h10 : n < 10
    · rw [if_pos h10] at hc
      simp only [List.mem_singleton] at hc
      subst hc
      interval_cases n <;> decide
    · rw [if_neg h10] at hc
      rcases List.mem_append.mp hc with h | h
      · exact ih _ c h
      · simp only [List.mem_singleton] at h
        subst h
        have hlt : n % 10 < 10 := Nat.mod_lt _ (by norm_num)
        interval_cases hm : n % 10 <;> decide

lemma digit_fmtCharOK (c : Char) (h : c ∈ "0123456789".toList) : fmtCharOK c := by
  unfold fmtCharOK
  fin_cases h <;> decide

lemma natToChars_chars (n : ℕ) : ∀ c ∈ natToChars n, fmtCharOK c :=
  fun c hc => digit_fmtCharOK c (natToCharsF_chars _ _ c hc)

lemma natToChars_ne_nil (n : ℕ) : natToChars n ≠ [] := by
  unfold natToChars natToCharsF
  by_cases h10 : n < 10
  · simp [h10]
  · simp [h10]

lemma stripTrailingZeros_subset (s : List Char) :
    ∀ c ∈ stripTrailingZeros s, c ∈ s := by
  intro c hc
  unfold stripTrailingZeros at hc
  rw [List.mem_reverse] at hc
  have h1 := (List.dropWhile_sublist (l := s.reverse)
    (p := fun c => c == '0')).mem hc
  rwa [List.mem_reverse] at h1

instance : DecidablePred fmtCharOK := fun c => by
  unfold fmtCharOK
  infer_instance

lemma fmtAssemble_chars (neg : Bool) (m : ℕ) (e : ℤ) :
    ∀ c ∈ fmtAssemble neg m e, fmtCharOK c := by
  intro c hc
  unfold fmtAssemble at hc
  simp only at hc
  have hdigits := natToChars_chars m
  have hsign : ∀ ch ∈ (if neg then ['-'] else ([] : List Char)), fmtCharOK ch := by
    cases neg
    · simp
    · intro ch hch
      simp only [if_true, List.mem_singleton] at hch
      subst hch
      decide
  split at hc
  · split at hc
    · rcases List.mem_append.mp hc with h | h
      · rcases List.mem_append.mp h with h | h
        · exact hsign c h
        · exact hdigits c (List.mem_of_mem_take h)
      · split at h
        · simp at h
        · rcases List.mem_cons.mp h with rfl | h
          · decide
          · exact hdigits c
              (List.mem_of_mem_drop (stripTrailingZeros_subset _ c h))
    · rcases List.mem_append.mp hc with h | h
      · rcases List.mem_append.mp h with h | h
        · exact hsign c h
        · rcases List.mem_cons.mp h with rfl | h
          · decide
          · rcases List.mem_cons.mp h with rfl | h
            · decide
            · rw [List.eq_of_mem_replicate h]; decide
      · exact hdigits c (stripTrailingZeros_subset _ c h)
  · rcases List.mem_append.mp hc with h | h
    · rcases List.mem_append.mp h with h | h
      · exact hsign c h
      · rcases hdig : natToChars m with _ | ⟨dh, dt⟩
        · rw [hdig] at h; simp at h
        · rw [hdig] at h
          simp only at h
          rcases List.mem_cons.mp h with rfl | h
          · exact hdigits c (by rw [hdig]; exact List.mem_cons_self _ _)
          · split at h
            · simp at h
            · rcases List.mem_cons.mp h with rfl | h
              · decide
              · exact hdigits c (by
                  rw [hdig]
                  exact List.mem_cons_of_mem _
                    (stripTrailingZeros_subset _ c h))
    · rcases List.mem_cons.mp h with rfl | h
      · decide
      · rcases List.mem_cons.mp h with rfl | h
        · split <;> decide
        · have hin : c = '0' ∨ c ∈ natToChars e.natAbs := by
            split at h
            · rcases List.mem_cons.mp h with rfl | h
              · exact Or.inl rfl
              · exact Or.inr h
            · exact Or.inr h
          rcases hin with rfl | hin
          · decide
          · exact digit_fmtCharOK c (natToCharsF_chars _ _ c hin)

lemma fmtG_chars (q : ℚ) : ∀ c ∈ fmtG q, fmtCharOK c := by
  intro c hc
  unfold fmtG at hc
  split at hc
  · simp only [List.mem_singleton] at hc
    subst hc; decide
  · simp only at hc
    split at hc
    · exact fmtAssemble_chars _ _ _ c hc
    · exact fmtAssemble_chars _ _ _ c hc

lemma splitOnChar_cons (sep c : Char) (rest : List Char) :
    splitOnChar sep (c :: rest) =
      if c = sep then [] :: splitOnChar sep rest
      else consHead c (splitOnChar sep rest) := rfl

lemma splitOnChar_ne_nil (sep : Char) (l : List Char) :
    splitOnChar sep l ≠ [] := by
  cases l with
  | nil => simp [splitOnChar]
  | cons c rest =>
    rw [splitOnChar_cons]
    by_cases hc : c = sep
    · simp [hc]
    · rw [if_neg hc]
      cases splitOnChar sep rest <;> simp [consHead]

lemma joinWith_cons_cons (sep : Char) (p q : List Char) (ps : List (List Char)) :
    joinWith sep (p :: q :: ps) = p ++ sep :: joinWith sep (q :: ps) := rfl

lemma joinWith_splitOnChar (sep : Char) (l : List Char) :
    joinWith sep (splitOnChar sep l) = l := by
  induction l with
  | nil => rfl
  | cons c rest ih =>
    rw [splitOnChar_cons]
    by_cases hc : c = sep
    · rw [if_pos hc]
      cases hsp : splitOnChar sep rest with
      | nil => exact absurd hsp (splitOnChar_ne_nil sep rest)
      | cons s ss =>
        rw [hsp] at ih
        rw [joinWith_cons_cons, List.nil_append, ih, hc]
    · rw [if_neg hc]
      cases hsp : splitOnChar sep rest with
      | nil => exact absurd hsp (splitOnChar_ne_nil sep rest)
      | cons s ss =>
        rw [hsp] at ih
        cases ss with
        | nil =>
          simp only [consHead, joinWith] at ih ⊢
          rw [ih]
        | cons t ts =>
          simp only [consHead] at ih ⊢
          rw [joinWith_cons_cons] at ih ⊢
          rw [List.cons_append, ih]

lemma mem_splitOnChar_no_sep (sep : Char) (l : List Char) :
    ∀ p ∈ splitOnChar sep l, sep ∉ p := by
  induction l with
  | nil => simp [splitOnChar]
  | cons c rest ih =>
    intro p hp
    rw [splitOnChar_cons] at hp
    by_cases hc : c = sep
    · rw [if_pos hc] at hp
      rcases List.mem_cons.mp hp with rfl | hp
      · simp
      · exact ih p hp
    · rw [if_neg hc] at hp
      cases hsp : splitOnChar sep rest with
      | nil => exact absurd hsp (splitOnChar_ne_nil sep rest)
      | cons s ss =>
        rw [hsp] at hp ih
        simp only [consHead] at hp
        rcases List.mem_cons.mp hp with rfl | hp
        · intro hmem
          rcases List.mem_cons.mp hmem with heq | hmem
          · exact hc heq.symm
          · exact ih s (List.mem_cons_self s ss) hmem
        · exact ih p (List.mem_cons_of_mem s hp)

lemma splitOnChar_of_not_mem (sep : Char) (l : List Char) (h : sep ∉ l) :
    splitOnChar sep l = [l] := by
  induction l with
  | nil => rfl
  | cons c rest ih =>
    have hc : ¬c = sep := fun heq => h (heq ▸ List.mem_cons_self c rest)
    have hrest : sep ∉ rest := fun hm => h (List.mem_cons_of_mem c hm)
    rw [splitOnChar_cons, if_neg hc, ih hrest]
    rfl

lemma splitOnChar_append_sep (sep : Char) (a b : List Char) :
    splitOnChar sep (a ++ sep :: b) = splitOnChar sep a ++ splitOnChar sep b := by
  induction a with
  | nil =>
    simp only [List.nil_append]
    rw [splitOnChar_cons, if_pos rfl]
    rfl
  | cons c a' ih =>
    show splitOnChar sep (c :: (a' ++ sep :: b)) = _
    rw [splitOnChar_cons, splitOnChar_cons, ih]
    by_cases hc : c = sep
    · rw [if_pos hc, if_pos hc]
      rfl
    · rw [if_neg hc, if_neg hc]
      cases hsp : splitOnChar sep a' with
      | nil => exact absurd hsp (splitOnChar_ne_nil sep a')
      | cons s ss => simp [consHead]

lemma splitOnChar_joinWith (sep : Char) (ps : List (List Char))
    (hps : ∀ p ∈ ps, sep ∉ p) (hne : ps ≠ []) :
    splitOnChar sep (joinWith sep ps) = ps := by
  induction ps with
  | nil => exact absurd rfl hne
  | cons p qs ih =>
    cases qs with
    | nil =>
      show splitOnChar sep (joinWith sep [p]) = [p]
      exact splitOnChar_of_not_mem sep p (hps p (List.mem_cons_self p []))
    | cons q ps' =>
      rw [joinWith_cons_cons, splitOnChar_append_sep,
        splitOnChar_of_not_mem sep p (hps p (List.mem_cons_self _ _)),
        ih (fun r hr => hps r (List.mem_cons_of_mem p hr)) (by simp)]
      rfl

lemma dropWhile_head_false (p : Char → Bool) (l : List Char) (c : Char)
    (t : List Char) (h : l.dropWhile p = c :: t) : p c = false := by
  induction l with
  | nil => simp at h
  | cons x rest ih =>
    by_cases hx : p x
    · rw [List.dropWhile_cons_of_pos hx] at h
      exact ih h
    · rw [List.dropWhile_cons_of_neg hx] at h
      obtain ⟨rfl, -⟩ := List.cons.inj h
      exact Bool.of_not_eq_true hx

lemma detachComment_append (r : List Char) :
    r = (detachComment r).1 ++ (detachComment r).2 := by
  unfold detachComment
  cases hd : r.dropWhile (fun c => c ≠ '#') with
  | nil => simp
  | cons c t =>
    simp only
    rw [← List.append_assoc, ← List.reverse_append, List.takeWhile_append_dropWhile,
      List.reverse_reverse, ← hd, List.takeWhile_append_dropWhile]

lemma detachComment_no_hash (r : List Char) (h : '#' ∉ r) :
    detachComment r = (r, []) := by
  unfold detachComment
  have hd : r.dropWhile (fun c => c ≠ '#') = [] := by
    rw [List.dropWhile_eq_nil_iff]
    intro x hx
    simp only [ne_eq, decide_eq_true_eq]
    rintro rfl
    exact h hx
  rw [hd]

lemma detachComment_hash (r : List Char) (h : '#' ∈ r) :
    ∃ w t, (detachComment r).2 = w ++ '#' :: t ∧
      (∀ c ∈ w, isSpaceChar c = true) ∧
      '#' ∉ (detachComment r).1 ∧
      (∀ c, (detachComment r).1.reverse.head? = some c → isSpaceChar c = false) := by
  have hd : r.dropWhile (fun c => c ≠ '#') ≠ [] := by
    rw [ne_eq, List.dropWhile_eq_nil_iff]
    intro hall
    have := hall '#' h
    simp at this
  cases hdd : r.dropWhile (fun c => c ≠ '#') with
  | nil => exact absurd hdd hd
  | cons c t =>
    have hc : c = '#' := by
      have := dropWhile_head_false _ _ _ _ hdd
      simpa using this
    subst hc
    unfold detachComment
    rw [hdd]
    simp only
    refine ⟨((r.takeWhile (fun c => c ≠ '#')).reverse.takeWhile isSpaceChar).reverse,
      t, rfl, ?_, ?_, ?_⟩
    · intro x hx
      rw [List.mem_reverse] at hx
      exact List.mem_takeWhile_imp hx
    · intro hx
      rw [List.mem_reverse] at hx
      have h1 : '#' ∈ (r.takeWhile (fun c => c ≠ '#')).reverse :=
        (List.dropWhile_sublist _).mem hx
      rw [List.mem_reverse] at h1
      have := List.mem_takeWhile_imp h1
      simp at this
    · intro x hx
      rw [List.reverse_reverse] at hx
      have hx' : ((r.takeWhile (fun c => c ≠ '#')).reverse.dropWhile isSpaceChar) =
          x :: ((r.takeWhile (fun c => c ≠ '#')).reverse.dropWhile isSpaceChar).tail := by
        cases hq : (r.takeWhile (fun c => c ≠ '#')).reverse.dropWhile isSpaceChar with
        | nil => rw [hq] at hx; simp at hx
        | cons y ys =>
          rw [hq] at hx
          simp only [List.head?_cons, Option.some_inj] at hx
          subst hx
          rfl
      exact dropWhile_head_false _ _ _ _ hx'

lemma v1NewParts_two_eq (s p0 p1 : List Char) :
    v1NewParts s [p0, p1] =
      if listContains "disable".toList (stripBoth p1) = true then
        [[], " preferred".toList, " auto".toList, ' ' :: s]
      else [p0, p1, " auto".toList, ' ' :: s] := rfl

lemma v1NewParts_two_disable (s p0 p1 : List Char)
    (h : listContains "disable".toList (stripBoth p1) = true) :
    v1NewParts s [p0, p1] =
      [[], " preferred".toList, " auto".toList, ' ' :: s] := by
  rw [v1NewParts_two_eq, if_pos h]

lemma v1NewParts_two (s p0 p1 : List Char)
    (h : listContains "disable".toList (stripBoth p1) = false) :
    v1NewParts s [p0, p1] = [p0, p1, " auto".toList, ' ' :: s] := by
  rw [v1NewParts_two_eq, h]
  simp

lemma v1NewParts_three (s p0 p1 p2 : List Char) :
    v1NewParts s [p0, p1, p2] = [p0, p1, p2, ' ' :: s] := rfl

lemma v1NewParts_four (s p0 p1 p2 p3 : List Char) (tl : List (List Char)) :
    v1NewParts s (p0 :: p1 :: p2 :: p3 :: tl) =
      p0 :: p1 :: p2 :: (' ' :: s) :: tl := rfl

lemma v1Line_eq (name s l : List Char) :
    v1Line name s l =
      match parseV1Line l with
      | none => (l, false)
      | some (g1, g2, g3) =>
        if stripBoth g2 = name then (g1 ++ g2 ++ v1EditRemainder s g3, true)
        else (l, false) := rfl

lemma v1Line_not_fired (name s l : List Char)
    (h : (v1Line name s l).2 = false) : (v1Line name s l).1 = l := by
  rw [v1Line_eq] at h ⊢
  cases hp : parseV1Line l with
  | none => rfl
  | some g =>
    obtain ⟨g1, g2, g3⟩ := g
    by_cases hn : stripBoth g2 = name
    · rw [hp] at h
      simp [hn] at h
    · simp [hn]

lemma v1Line_fired (name s l g1 g2 g3 : List Char)
    (hp : parseV1Line l = some (g1, g2, g3)) (hn : stripBoth g2 = name) :
    v1Line name s l = (g1 ++ g2 ++ v1EditRemainder s g3, true) := by
  rw [v1Line_eq, hp]
  simp [hn]

lemma v1Pass_eq (name s : List Char) (ls : List (List Char)) :
    v1Pass name s ls = (ls.map (fun l => (v1Line name s l).1),
      ls.any (fun l => (v1Line name s l).2)) := rfl

lemma v1Pass_not_found_id (name s : List Char) (ls : List (List Char))
    (h : (v1Pass name s ls).2 = false) : (v1Pass name s ls).1 = ls := by
  induction ls with
  | nil => rfl
  | cons l rest ih =>
    rw [v1Pass_eq] at h ⊢
    simp only [List.any_cons, Bool.or_eq_false_iff] at h
    simp only [List.map_cons]
    rw [v1Line_not_fired name s l h.1]
    have := ih (by rw [v1Pass_eq]; exact h.2)
    rw [v1Pass_eq] at this
    simp only at this
    rw [this]

end StringLemmas

/-- C5: on a matched v1 entry line's remainder, the patcher first detaches
the trailing comment verbatim (maximal whitespace run before the first
`#`), splits the rest on commas, rewrites the field list — 2 fields with
"disable" in the second: reset to `, preferred, auto, <scale>`; 2 fields
otherwise: append `auto` and the scale; 3 fields: append the scale; ≥4
fields: overwrite the 4th in place — rejoins and reattaches the comment
unchanged. -/
theorem C5_v1_field_rewrite (scaleStr remainder : List Char) :
    (v1EditRemainder scaleStr remainder =
      joinWith ',' (v1NewParts scaleStr
        (splitOnChar ',' (detachComment remainder).1)) ++
        (detachComment remainder).2) ∧
    remainder = (detachComment remainder).1 ++ (detachComment remainder).2 ∧
    ('#' ∉ remainder → detachComment remainder = (remainder, [])) ∧
    ('#' ∈ remainder → ∃ w t, (detachComment remainder).2 = w ++ '#' :: t ∧
      (∀ c ∈ w, isSpaceChar c = true) ∧ '#' ∉ (detachComment remainder).1) ∧
    (∀ p0 p1, listContains "disable".toList (stripBoth p1) = true →
      joinWith ',' (v1NewParts scaleStr [p0, p1]) =
        ", preferred, auto, ".toList ++ scaleStr) ∧
    (∀ p0 p1, listContains "disable".toList (stripBoth p1) = false →
      v1NewParts scaleStr [p0, p1] = [p0, p1, " auto".toList, ' ' :: scaleStr]) ∧
    (∀ p0 p1 p2, v1NewParts scaleStr [p0, p1, p2] = [p0, p1, p2, ' ' :: scaleStr]) ∧
    (∀ p0 p1 p2 p3 tl, v1NewParts scaleStr (p0 :: p1 :: p2 :: p3 :: tl) =
      p0 :: p1 :: p2 :: (' ' :: scaleStr) :: tl) := by
  refine ⟨rfl, detachComment_append remainder, detachComment_no_hash remainder,
    ?_, ?_, ?_, ?_, ?_⟩
  · intro h
    obtain ⟨w, t, h1, h2, h3, -⟩ := detachComment_hash remainder h
    exact ⟨w, t, h1, h2, h3⟩
  · intro p0 p1 h
    rw [v1NewParts_two_disable scaleStr p0 p1 h]
    rfl
  · intro p0 p1 h
    exact v1NewParts_two scaleStr p0 p1 h
  · intro p0 p1 p2
    exact v1NewParts_three scaleStr p0 p1 p2
  · intro p0 p1 p2 p3 tl
    exact v1NewParts_four scaleStr p0 p1 p2 p3 tl

/-- C5 witness: the disable-reset and comment-preservation cases at
concrete inputs. -/
theorem C5_v1_field_rewrite_witness :
    ('#' ∈ ", disable  # off".toList ∧
      listContains "disable".toList (stripBoth " disable ".toList) = true) ∧
    ((∃ w t, (detachComment ", disable  # off".toList).2 = w ++ '#' :: t ∧
        (∀ c ∈ w, isSpaceChar c = true) ∧
        '#' ∉ (detachComment ", disable  # off".toList).1) ∧
      joinWith ',' (v1NewParts "1.5".toList [[], " disable ".toList]) =
        ", preferred, auto, ".toList ++ "1.5".toList) :=
  ⟨⟨by decide, by decide⟩,
   ⟨(C5_v1_field_rewrite "1.5".toList ", disable  # off".toList).2.2.2.1 (by decide),
    (C5_v1_field_rewrite "1.5".toList ", disable  # off".toList).2.2.2.2.1
      [] " disable ".toList (by decide)⟩⟩

section IdempotenceLemmas

lemma fmtCharOK_props (c : Char) (h : fmtCharOK c) :
    isSpaceChar c = false ∧ c ≠ ',' ∧ c ≠ '#' ∧ c ≠ '\x7b' ∧ c ≠ '\n' := by
  unfold fmtCharOK at h
  fin_cases h <;> exact ⟨rfl, by decide, by decide, by decide, by decide⟩

lemma takeWhile_append_all (p : Char → Bool) (a b : List Char)
    (h : ∀ c ∈ a, p c = true) :
    (a ++ b).takeWhile p = a ++ b.takeWhile p := by
  induction a with
  | nil => simp
  | cons c a' ih =>
    have hc : p c = true := h c (List.mem_cons_self c a')
    simp only [List.cons_append, List.takeWhile_cons_of_pos hc]
    rw [ih (fun x hx => h x (List.mem_cons_of_mem c hx))]

lemma dropWhile_append_all (p : Char → Bool) (a b : List Char)
    (h : ∀ c ∈ a, p c = true) :
    (a ++ b).dropWhile p = b.dropWhile p := by
  induction a with
  | nil => simp
  | cons c a' ih =>
    have hc : p c = true := h c (List.mem_cons_self c a')
    simp only [List.cons_append, List.dropWhile_cons_of_pos hc]
    exact ih (fun x hx => h x (List.mem_cons_of_mem c hx))

lemma mem_joinWith (sep : Char) (qs : List (List Char)) (c : Char)
    (h : c ∈ joinWith sep qs) : c = sep ∨ ∃ q ∈ qs, c ∈ q := by
  induction qs with
  | nil => simp [joinWith] at h
  | cons q qs' ih =>
    cases qs' with
    | nil =>
      right
      exact ⟨q, List.mem_cons_self q [], h⟩
    | cons r rs =>
      rw [joinWith_cons_cons] at h
      rcases List.mem_append.mp h with h | h
      · right; exact ⟨q, List.mem_cons_self _ _, h⟩
      · rcases List.mem_cons.mp h with rfl | h
        · left; rfl
        · rcases ih h with h | ⟨q', hq', hc⟩
          · left; exact h
          · right; exact ⟨q', List.mem_cons_of_mem q hq', hc⟩

lemma mem_joinWith_of_mem (sep : Char) (qs : List (List Char))
    (q : List Char) (c : Char) (hq : q ∈ qs) (hc : c ∈ q) :
    c ∈ joinWith sep qs := by
  induction qs with
  | nil => simp at hq
  | cons r rs ih =>
    rcases List.mem_cons.mp hq with rfl | hq
    · cases rs with
      | nil => exact hc
      | cons r2 rs' =>
        rw [joinWith_cons_cons]
        exact List.mem_append.mpr (Or.inl hc)
    · cases rs with
      | nil => simp at hq
      | cons r2 rs' =>
        rw [joinWith_cons_cons]
        exact List.mem_append.mpr (Or.inr (List.mem_cons_of_mem _ (ih hq)))

lemma mem_of_mem_splitOnChar (sep : Char) (l p : List Char) (c : Char)
    (hp : p ∈ splitOnChar sep l) (hc : c ∈ p) : c ∈ l := by
  have hj : c ∈ joinWith sep (splitOnChar sep l) :=
    mem_joinWith_of_mem sep _ p c hp hc
  rwa [joinWith_splitOnChar] at hj

lemma joinWith_append (sep : Char) (xs ys : List (List Char))
    (hx : xs ≠ []) (hy : ys ≠ []) :
    joinWith sep (xs ++ ys) = joinWith sep xs ++ sep :: joinWith sep ys := by
  induction xs with
  | nil => exact absurd rfl hx
  | cons x xs' ih =>
    cases xs' with
    | nil =>
      cases ys with
      | nil => exact absurd rfl hy
      | cons y ys' =>
        rw [List.singleton_append, joinWith_cons_cons]
        rfl
    | cons x2 xs'' =>
      rw [List.cons_append, joinWith_cons_cons]
      have := ih (by simp)
      rw [List.cons_append] at this ⊢
      rw [joinWith_cons_cons, this]
      simp

lemma matchV2At_no_brace (l : List Char) (h : '\x7b' ∉ l) :
    matchV2At l = none := by
  unfold matchV2At
  by_cases hpre : "monitorv2".toList.isPrefixOf l
  · rw [if_pos hpre]
    cases hd : (l.drop 9).dropWhile isSpaceChar with
    | nil => rfl
    | cons c r3 =>
      have hcl : c ∈ l := by
        have h1 : c ∈ (l.drop 9).dropWhile isSpaceChar := by
          rw [hd]; exact List.mem_cons_self c r3
        have h2 : c ∈ l.drop 9 := (List.dropWhile_sublist _).mem h1
        exact (List.drop_sublist 9 l).mem h2
      have hc : ¬c = '\x7b' := fun heq => h (heq ▸ hcl)
      simp [hc]
  · rw [if_neg hpre]

lemma v2ScanFuel_no_brace (name s : List Char) :
    ∀ (fuel : ℕ) (l : List Char), '\x7b' ∉ l →
      v2ScanFuel name s fuel l = (l, false) := by
  intro fuel
  induction fuel with
  | zero => intro l _; rfl
  | succ f ih =>
    intro l hl
    cases l with
    | nil => rfl
    | cons c rest =>
      have hm : matchV2At (c :: rest) = none := matchV2At_no_brace _ hl
      have hrest : '\x7b' ∉ rest := fun hx => hl (List.mem_cons_of_mem c hx)
      simp only [v2ScanFuel, hm, ih rest hrest]

lemma v2Scan_no_brace (name s l : List Char) (h : '\x7b' ∉ l) :
    v2Scan name s l = (l, false) :=
  v2ScanFuel_no_brace name s l.length l h

lemma update_config_no_brace (name s content : List Char)
    (h : '\x7b' ∉ content) :
    update_config name s content =
      if (v1Scan name s content).2 then (v1Scan name s content).1
      else (v1Scan name s content).1 ++
        '\n' :: "monitor = ".toList ++ name ++
        ", preferred, auto, ".toList ++ s ++ ['\n'] := by
  unfold update_config
  rw [v2Scan_no_brace name s content h]
  simp

lemma isSpaceChar_ne_comma (c : Char) (h : isSpaceChar c = true) : c ≠ ',' := by
  rintro rfl
  exact absurd h (by decide)

lemma parseV1Line_inv (l g1 g2 g3 : List Char)
    (h : parseV1Line l = some (g1, g2, g3)) :
    ∃ w0 w1 ws2 t0,
      g1 = w0 ++ "monitor".toList ++ w1 ++ '=' :: ws2 ∧
      l = g1 ++ g2 ++ g3 ∧
      g3 = ',' :: t0 ∧
      (∀ c ∈ w0, isSpaceChar c = true) ∧
      (∀ c ∈ w1, isSpaceChar c = true) ∧
      (∀ c ∈ ws2, isSpaceChar c = true) ∧
      g2 ≠ [] ∧ ',' ∉ g2 ∧
      ((∀ c, g2.head? = some c → isSpaceChar c = false) ∨
       (∃ c, g2 = [c] ∧ isSpaceChar c = true)) := by
  unfold parseV1Line at h
  split at h
  case isFalse => exact absurd h (by simp)
  rename_i hpre
  split at h
  case h_1 => exact absurd h (by simp)
  rename_i c r3 hd1
  split at h
  case isFalse => exact absurd h (by simp)
  rename_i hc
  subst hc
  split at h
  case h_1 => exact absurd h (by simp)
  rename_i c2 rest2 hd2
  have hc2 : c2 = ',' := by
    have := dropWhile_head_false _ _ _ _ hd2
    simpa using this
  subst hc2
  obtain ⟨t, ht⟩ := List.isPrefixOf_iff_prefix.mp hpre
  have hdrop7 : (l.dropWhile isSpaceChar).drop 7 = t := by
    rw [← ht]
    have h7 : ("monitor".toList).length = 7 := by decide
    rw [← h7, List.drop_left]
  have hl0 : l = l.takeWhile isSpaceChar ++ l.dropWhile isSpaceChar :=
    (List.takeWhile_append_dropWhile (p := isSpaceChar) (l := l)).symm
  have hr0 : l.dropWhile isSpaceChar =
      "monitor".toList ++ (l.dropWhile isSpaceChar).drop 7 := by
    rw [hdrop7]
    exact ht.symm
  have ht1 : (l.dropWhile isSpaceChar).drop 7 =
      ((l.dropWhile isSpaceChar).drop 7).takeWhile isSpaceChar ++ '=' :: r3 := by
    conv_lhs => rw [← List.takeWhile_append_dropWhile (p := isSpaceChar)
      (l := (l.dropWhile isSpaceChar).drop 7)]
    rw [hd1]
  have hr3 : r3 = r3.takeWhile (fun ch => ch ≠ ',') ++ (',' :: rest2) := by
    conv_lhs => rw [← List.takeWhile_append_dropWhile
      (p := fun ch => ch ≠ ',') (l := r3)]
    rw [hd2]
  split at h
  · -- backtrack case: everything before the comma is whitespace
    rename_i hd3
    split at h
    case h_1 => exact absurd h (by simp)
    rename_i lastc revInit hd4
    rw [Option.some_inj, Prod.mk.injEq, Prod.mk.injEq] at h
    obtain ⟨hg1, hg2, hg3⟩ := h
    have hregion_ws : ∀ x ∈ r3.takeWhile (fun ch => ch ≠ ','),
        isSpaceChar x = true := by
      rw [← List.dropWhile_eq_nil_iff]
      exact hd3
    have hregion_eq : r3.takeWhile (fun ch => ch ≠ ',') =
        revInit.reverse ++ [lastc] := by
      have hh := congrArg List.reverse hd4
      rwa [List.reverse_reverse, List.reverse_cons] at hh
    have hlast_ws : isSpaceChar lastc = true := by
      apply hregion_ws
      rw [hregion_eq]
      exact List.mem_append.mpr (Or.inr (List.mem_singleton.mpr rfl))
    set A := l.takeWhile isSpaceChar with hA
    set D := l.dropWhile isSpaceChar with hD
    set T := D.drop 7 with hT
    set W1 := T.takeWhile isSpaceChar with hW1
    set R := r3.takeWhile (fun ch => ch ≠ ',') with hR
    refine ⟨A, W1, revInit.reverse, rest2, hg1.symm, ?_, hg3.symm,
      ?_, ?_, ?_, ?_, ?_, ?_⟩
    · rw [← hg1, ← hg2, ← hg3]
      rw [hl0, hr0, ht1, hr3, hregion_eq]
      simp [List.append_assoc]
    · intro x hx
      exact List.mem_takeWhile_imp hx
    · intro x hx
      exact List.mem_takeWhile_imp hx
    · intro x hx
      apply hregion_ws
      rw [hregion_eq]
      exact List.mem_append.mpr (Or.inl hx)
    · rw [← hg2]; simp
    · rw [← hg2]
      intro hmem
      have hl : (',' : Char) = lastc := List.mem_singleton.mp hmem
      exact isSpaceChar_ne_comma lastc hlast_ws hl.symm
    · right
      exact ⟨lastc, hg2.symm, hlast_ws⟩
  · -- normal case: the name starts with a non-space character
    rename_i g2h g2t hd3
    rw [Option.some_inj, Prod.mk.injEq, Prod.mk.injEq] at h
    obtain ⟨hg1, hg2, hg3⟩ := h
    have hregion_eq : r3.takeWhile (fun ch => ch ≠ ',') =
        (r3.takeWhile (fun ch => ch ≠ ',')).takeWhile isSpaceChar ++
          (g2h :: g2t) := by
      conv_lhs => rw [← List.takeWhile_append_dropWhile (p := isSpaceChar)
        (l := r3.takeWhile (fun ch => ch ≠ ','))]
      rw [hd3]
    have hg2region : ∀ x ∈ g2h :: g2t,
        x ∈ r3.takeWhile (fun ch => ch ≠ ',') := by
      intro x hx
      rw [hregion_eq]
      exact List.mem_append.mpr (Or.inr hx)
    set A := l.takeWhile isSpaceChar with hA
    set D := l.dropWhile isSpaceChar with hD
    set T := D.drop 7 with hT
    set W1 := T.takeWhile isSpaceChar with hW1
    set R := r3.takeWhile (fun ch => ch ≠ ',') with hR
    set W2 := R.takeWhile isSpaceChar with hW2
    refine ⟨A, W1, W2, rest2, hg1.symm, ?_, hg3.symm,
      ?_, ?_, ?_, ?_, ?_, ?_⟩
    · rw [← hg1, ← hg2, ← hg3]
      rw [hl0, hr0, ht1, hr3, hregion_eq]
      simp [List.append_assoc]
    · intro x hx
      exact List.mem_takeWhile_imp hx
    · intro x hx
      exact List.mem_takeWhile_imp hx
    · intro x hx
      exact List.mem_takeWhile_imp hx
    · rw [← hg2]; simp
    · rw [← hg2]
      intro hmem
      have hx := hg2region ',' hmem
      have hxx := List.mem_takeWhile_imp hx
      simp at hxx
    · left
      intro x hx
      rw [← hg2] at hx
      simp only [List.head?_cons, Option.some_inj] at hx
      subst hx
      exact dropWhile_head_false _ _ _ _ hd3

lemma dropWhile_monitor_headed (Y : List Char) :
    ("monitor".toList ++ Y).dropWhile isSpaceChar = "monitor".toList ++ Y := by
  show (('m' :: "onitor".toList) ++ Y).dropWhile isSpaceChar = _
  rw [List.cons_append, List.dropWhile_cons_of_neg (by decide)]
  rfl

lemma takeWhile_monitor_headed (Y : List Char) :
    ("monitor".toList ++ Y).takeWhile isSpaceChar = [] := by
  show (('m' :: "onitor".toList) ++ Y).takeWhile isSpaceChar = []
  rw [List.cons_append, List.takeWhile_cons_of_neg (by decide)]

lemma monitor_isPrefixOf (Y : List Char) :
    "monitor".toList.isPrefixOf ("monitor".toList ++ Y) = true :=
  List.isPrefixOf_iff_prefix.mpr ⟨Y, rfl⟩

lemma drop7_monitor (Y : List Char) :
    ("monitor".toList ++ Y).drop 7 = Y := by
  have h7 : ("monitor".toList).length = 7 := by decide
  rw [← h7, List.drop_left]

lemma parseV1Line_build (w0 w1 ws2 g2 t0 : List Char)
    (hw0 : ∀ c ∈ w0, isSpaceChar c = true)
    (hw1 : ∀ c ∈ w1, isSpaceChar c = true)
    (hws2 : ∀ c ∈ ws2, isSpaceChar c = true)
    (hg2ne : g2 ≠ [])
    (hg2comma : ',' ∉ g2)
    (hshape : (∀ c, g2.head? = some c → isSpaceChar c = false) ∨
      (∃ c, g2 = [c] ∧ isSpaceChar c = true)) :
    parseV1Line (w0 ++ "monitor".toList ++ w1 ++ '=' :: ws2 ++ g2 ++ (',' :: t0)) =
      some (w0 ++ "monitor".toList ++ w1 ++ '=' :: ws2, g2, ',' :: t0) := by
  have hX : w0 ++ "monitor".toList ++ w1 ++ '=' :: ws2 ++ g2 ++ (',' :: t0) =
      w0 ++ ("monitor".toList ++ (w1 ++ '=' :: (ws2 ++ (g2 ++ (',' :: t0))))) := by
    simp [List.append_assoc]
  have hdropl : (w0 ++ ("monitor".toList ++ (w1 ++ '=' ::
      (ws2 ++ (g2 ++ (',' :: t0)))))).dropWhile isSpaceChar =
      "monitor".toList ++ (w1 ++ '=' :: (ws2 ++ (g2 ++ (',' :: t0)))) := by
    rw [dropWhile_append_all _ _ _ hw0, dropWhile_monitor_headed]
  have htakel : (w0 ++ ("monitor".toList ++ (w1 ++ '=' ::
      (ws2 ++ (g2 ++ (',' :: t0)))))).takeWhile isSpaceChar = w0 := by
    rw [takeWhile_append_all _ _ _ hw0, takeWhile_monitor_headed,
      List.append_nil]
  have hdrop7 : ("monitor".toList ++ (w1 ++ '=' ::
      (ws2 ++ (g2 ++ (',' :: t0))))).drop 7 =
      w1 ++ '=' :: (ws2 ++ (g2 ++ (',' :: t0))) := drop7_monitor _
  have hdropw1 : (w1 ++ '=' :: (ws2 ++ (g2 ++ (',' :: t0)))).dropWhile
      isSpaceChar = '=' :: (ws2 ++ (g2 ++ (',' :: t0))) := by
    rw [dropWhile_append_all _ _ _ hw1, List.dropWhile_cons_of_neg (by decide)]
  have htakew1 : (w1 ++ '=' :: (ws2 ++ (g2 ++ (',' :: t0)))).takeWhile
      isSpaceChar = w1 := by
    rw [takeWhile_append_all _ _ _ hw1, List.takeWhile_cons_of_neg (by decide),
      List.append_nil]
  have hws2comma : ∀ c ∈ ws2, (fun ch => decide (ch ≠ ',')) c = true :=
    fun c hc => decide_eq_true (isSpaceChar_ne_comma c (hws2 c hc))
  have hg2comma' : ∀ c ∈ g2, (fun ch => decide (ch ≠ ',')) c = true :=
    fun c hc => decide_eq_true (fun heq => hg2comma (heq ▸ hc))
  have hdropr3 : (ws2 ++ (g2 ++ (',' :: t0))).dropWhile (fun ch => ch ≠ ',') =
      ',' :: t0 := by
    rw [dropWhile_append_all _ _ _ hws2comma,
      dropWhile_append_all _ _ _ hg2comma',
      List.dropWhile_cons_of_neg (by simp)]
  have htaker3 : (ws2 ++ (g2 ++ (',' :: t0))).takeWhile (fun ch => ch ≠ ',') =
      ws2 ++ g2 := by
    rw [takeWhile_append_all _ _ _ hws2comma,
      takeWhile_append_all _ _ _ hg2comma',
      List.takeWhile_cons_of_neg (by simp), List.append_nil]
  rw [hX]
  unfold parseV1Line
  simp only [hdropl, monitor_isPrefixOf, if_true, hdrop7, hdropw1, htakel,
    htakew1, hdropr3, htaker3]
  rcases hshape with hnormal | ⟨c, rfl, hc⟩
  · -- g2 starts with a non-space character
    cases g2 with
    | nil => exact absurd rfl hg2ne
    | cons gh gt =>
      have hgh : isSpaceChar gh = false := hnormal gh rfl
      have hdropg : (ws2 ++ gh :: gt).dropWhile isSpaceChar = gh :: gt := by
        rw [dropWhile_append_all _ _ _ hws2,
          List.dropWhile_cons_of_neg (by rw [hgh]; simp)]
      have htakeg : (ws2 ++ gh :: gt).takeWhile isSpaceChar = ws2 := by
        rw [takeWhile_append_all _ _ _ hws2,
          List.takeWhile_cons_of_neg (by rw [hgh]; simp), List.append_nil]
      rw [hdropg, htakeg]
  · -- backtracking case: g2 is a single whitespace character
    have hallws : ∀ x ∈ ws2 ++ [c], isSpaceChar x = true := by
      intro x hx
      rcases List.mem_append.mp hx with hx | hx
      · exact hws2 x hx
      · rw [List.mem_singleton.mp hx]; exact hc
    have hdropg : (ws2 ++ [c]).dropWhile isSpaceChar = [] := by
      rw [List.dropWhile_eq_nil_iff]
      exact hallws
    have hrev : (ws2 ++ [c]).reverse = c :: ws2.reverse := by
      simp
    rw [hdropg, hrev]
    simp

lemma dropTrailing_keeps_head (c : Char) (hc : isSpaceChar c = false)
    (y : List Char) :
    ∃ r', ((y ++ [c]).dropWhile isSpaceChar).reverse = c :: r' := by
  induction y with
  | nil =>
    refine ⟨[], ?_⟩
    rw [List.nil_append, List.dropWhile_cons_of_neg (by rw [hc]; simp)]
    rfl
  | cons d y' ih =>
    by_cases hd : isSpaceChar d = true
    · rw [List.cons_append, List.dropWhile_cons_of_pos hd]
      exact ih
    · rw [List.cons_append,
        List.dropWhile_cons_of_neg (by simpa using hd)]
      refine ⟨y'.reverse ++ [d], ?_⟩
      rw [List.reverse_cons, List.reverse_append]
      simp

lemma detachComment_build (u w t : List Char)
    (hu : '#' ∉ u)
    (hw : ∀ c ∈ w, isSpaceChar c = true)
    (hend : ∀ c, u.reverse.head? = some c → isSpaceChar c = false) :
    detachComment (u ++ (w ++ '#' :: t)) = (u, w ++ '#' :: t) := by
  have huhash : ∀ c ∈ u, (fun ch => decide (ch ≠ '#')) c = true :=
    fun c hc => decide_eq_true (fun heq => hu (heq ▸ hc))
  have hwhash : ∀ c ∈ w, (fun ch => decide (ch ≠ '#')) c = true := by
    intro c hc
    refine decide_eq_true (fun heq => ?_)
    have := hw c hc
    rw [heq] at this
    exact absurd this (by decide)
  have htake : (u ++ (w ++ '#' :: t)).takeWhile (fun ch => ch ≠ '#') =
      u ++ w := by
    rw [takeWhile_append_all _ _ _ huhash, takeWhile_append_all _ _ _ hwhash,
      List.takeWhile_cons_of_neg (by simp), List.append_nil]
  have hdrop : (u ++ (w ++ '#' :: t)).dropWhile (fun ch => ch ≠ '#') =
      '#' :: t := by
    rw [dropWhile_append_all _ _ _ huhash, dropWhile_append_all _ _ _ hwhash,
      List.dropWhile_cons_of_neg (by simp)]
  have hwsrev : ∀ c ∈ w.reverse, isSpaceChar c = true := by
    intro c hc
    exact hw c (List.mem_reverse.mp hc)
  have hrevtake : (u ++ w).reverse.takeWhile isSpaceChar = w.reverse := by
    rw [List.reverse_append, takeWhile_append_all _ _ _ hwsrev]
    cases hu' : u.reverse with
    | nil => simp
    | cons c u' =>
      have hc : isSpaceChar c = false := by
        apply hend
        rw [hu']
        rfl
      rw [List.takeWhile_cons_of_neg (by rw [hc]; simp), List.append_nil]
  have hrevdrop : (u ++ w).reverse.dropWhile isSpaceChar = u.reverse := by
    rw [List.reverse_append, dropWhile_append_all _ _ _ hwsrev]
    cases hu' : u.reverse with
    | nil => simp
    | cons c u' =>
      have hc : isSpaceChar c = false := by
        apply hend
        rw [hu']
        rfl
      rw [List.dropWhile_cons_of_neg (by rw [hc]; simp)]
  unfold detachComment
  rw [hdrop]
  simp only
  rw [htake, hrevtake, hrevdrop]
  simp

lemma joinWith_reverse_head_of_getLast (sep : Char) (qs : List (List Char))
    (q : List Char) (h : qs.getLast? = some q) (hq : q ≠ []) :
    (joinWith sep qs).reverse.head? = q.reverse.head? := by
  induction qs with
  | nil => simp at h
  | cons p ps ih =>
    cases ps with
    | nil =>
      simp only [List.getLast?_singleton, Option.some_inj] at h
      subst h
      rfl
    | cons p2 ps' =>
      rw [List.getLast?_cons_cons] at h
      have hrec := ih h
      cases hJ : (joinWith sep (p2 :: ps')).reverse with
      | nil =>
        rw [hJ] at hrec
        cases hqr : q.reverse with
        | nil =>
          have : q = [] := by
            have hh := congrArg List.reverse hqr
            simpa using hh
          exact absurd this hq
        | cons a as =>
          rw [hqr] at hrec
          simp at hrec
      | cons a as =>
        rw [joinWith_cons_cons, List.reverse_append, List.reverse_cons, hJ,
          ← hrec, hJ]
        simp

lemma joinWith_reverse_head_of_getLast_nil (sep : Char) (qs : List (List Char))
    (h : qs.getLast? = some []) (hlen : 2 ≤ qs.length) :
    (joinWith sep qs).reverse.head? = some sep := by
  induction qs with
  | nil => simp at h
  | cons p ps ih =>
    cases ps with
    | nil => simp at hlen
    | cons p2 ps' =>
      rw [List.getLast?_cons_cons] at h
      cases ps' with
      | nil =>
        simp only [List.getLast?_singleton, Option.some_inj] at h
        subst h
        rw [joinWith_cons_cons]
        show (p ++ [sep]).reverse.head? = some sep
        rw [List.reverse_append]
        rfl
      | cons p3 ps'' =>
        have hrec := ih h (by simp)
        cases hJ : (joinWith sep (p2 :: p3 :: ps'')).reverse with
        | nil => rw [hJ] at hrec; simp at hrec
        | cons a as =>
          rw [hJ] at hrec
          simp only [List.head?_cons, Option.some_inj] at hrec
          subst hrec
          rw [joinWith_cons_cons, List.reverse_append, List.reverse_cons, hJ]
          simp

lemma v1NewParts_shape (s p0 p1 : List Char) (ps : List (List Char)) :
    ∃ q0 q1 q2 tl,
      v1NewParts s (p0 :: p1 :: ps) = q0 :: q1 :: q2 :: (' ' :: s) :: tl ∧
      (∀ q ∈ [q0, q1, q2], q ∈ p0 :: p1 :: ps ∨ q = [] ∨
        q = " preferred".toList ∨ q = " auto".toList) ∧
      (∀ q ∈ tl, q ∈ p0 :: p1 :: ps) ∧
      (tl ≠ [] → tl.getLast? = (p0 :: p1 :: ps).getLast?) := by
  cases ps with
  | nil =>
    by_cases hdis : listContains "disable".toList (stripBoth p1) = true
    · refine ⟨[], " preferred".toList, " auto".toList, [],
        v1NewParts_two_disable s p0 p1 hdis, ?_, by simp, by simp⟩
      intro q hq
      fin_cases hq
      · right; left; rfl
      · right; right; left; rfl
      · right; right; right; rfl
    · refine ⟨p0, p1, " auto".toList, [],
        v1NewParts_two s p0 p1 (Bool.of_not_eq_true hdis), ?_, by simp, by simp⟩
      intro q hq
      fin_cases hq
      · left; simp
      · left; simp
      · right; right; right; rfl
  | cons p2 ps' =>
    cases ps' with
    | nil =>
      refine ⟨p0, p1, p2, [], v1NewParts_three s p0 p1 p2, ?_, by simp, by simp⟩
      intro q hq
      fin_cases hq
      · left; simp
      · left; simp
      · left; simp
    | cons p3 tl =>
      refine ⟨p0, p1, p2, tl, v1NewParts_four s p0 p1 p2 p3 tl, ?_, ?_, ?_⟩
      · intro q hq
        fin_cases hq
        · left; simp
        · left; simp
        · left; simp
      · intro q hq
        right
        right
        exact List.mem_cons_of_mem p2 (List.mem_cons_of_mem p3 hq)
      · intro htl
        rw [List.getLast?_cons_cons, List.getLast?_cons_cons,
          List.getLast?_cons_cons]
        cases tl with
        | nil => exact absurd rfl htl
        | cons t ts => rw [List.getLast?_cons_cons]

lemma v1EditRemainder_eq (s r : List Char) :
    v1EditRemainder s r =
      joinWith ',' (v1NewParts s (splitOnChar ',' (detachComment r).1)) ++
        (detachComment r).2 := rfl

lemma parseV1Line_replace_tail (l g1 g2 g3 u : List Char)
    (h : parseV1Line l = some (g1, g2, g3)) :
    parseV1Line (g1 ++ g2 ++ (',' :: u)) = some (g1, g2, ',' :: u) := by
  obtain ⟨w0, w1, ws2, t0, hg1, -, -, hw0, hw1, hws2, hne, hcomma, hshape⟩ :=
    parseV1Line_inv l g1 g2 g3 h
  subst hg1
  have hb := parseV1Line_build w0 w1 ws2 g2 u hw0 hw1 hws2 hne hcomma hshape
  simpa [List.append_assoc] using hb

lemma detachComment_fst_head (c : Char) (t : List Char)
    (hc : isSpaceChar c = false) (hch : c ≠ '#') :
    ∃ r', (detachComment (c :: t)).1 = c :: r' := by
  cases hd : (c :: t).dropWhile (fun ch => ch ≠ '#') with
  | nil =>
    refine ⟨t, ?_⟩
    unfold detachComment
    rw [hd]
  | cons x xs =>
    have htk : (c :: t).takeWhile (fun ch => ch ≠ '#') =
        c :: t.takeWhile (fun ch => ch ≠ '#') := by
      rw [List.takeWhile_cons_of_pos]
      simpa using hch
    obtain ⟨r', hr'⟩ := dropTrailing_keeps_head c hc
      ((t.takeWhile (fun ch => ch ≠ '#')).reverse)
    refine ⟨r', ?_⟩
    unfold detachComment
    rw [hd]
    simp only
    rw [htk, List.reverse_cons, hr']

lemma detachComment_comma (t0 : List Char) :
    ∃ r0 com, detachComment (',' :: t0) = (',' :: r0, com) ∧
      '#' ∉ (',' :: r0) ∧
      (com = [] ∨
        ∃ w t, com = w ++ '#' :: t ∧
          (∀ c ∈ w, isSpaceChar c = true) ∧
          (∀ c, (',' :: r0).reverse.head? = some c → isSpaceChar c = false)) ∧
      (∀ c ∈ r0, c ∈ t0) ∧ (∀ c ∈ com, c ∈ ',' :: t0) := by
  obtain ⟨r0, hr0⟩ := detachComment_fst_head ',' t0 (by decide) (by decide)
  have hpair : detachComment (',' :: t0) =
      (',' :: r0, (detachComment (',' :: t0)).2) := by
    rw [← hr0]
  have hdca := detachComment_append (',' :: t0)
  rw [hr0] at hdca
  have ht0 : t0 = r0 ++ (detachComment (',' :: t0)).2 := by
    have := hdca
    rw [List.cons_append] at this
    exact (List.cons.inj this).2
  refine ⟨r0, (detachComment (',' :: t0)).2, hpair, ?_, ?_, ?_, ?_⟩
  · by_cases hH : '#' ∈ (',' :: t0)
    · obtain ⟨w, t, hcom, hw, hnh, hend⟩ := detachComment_hash _ hH
      rw [hr0] at hnh
      exact hnh
    · intro hm
      rcases List.mem_cons.mp hm with h | h
      · exact absurd h (by decide)
      · exact hH (List.mem_cons_of_mem ','
          (by rw [ht0]; exact List.mem_append.mpr (Or.inl h)))
  · by_cases hH : '#' ∈ (',' :: t0)
    · obtain ⟨w, t, hcom, hw, hnh, hend⟩ := detachComment_hash _ hH
      rw [hr0] at hend
      exact Or.inr ⟨w, t, hcom, hw, hend⟩
    · left
      have hd : (',' :: t0).dropWhile (fun ch => ch ≠ '#') = [] := by
        rw [List.dropWhile_eq_nil_iff]
        intro x hx
        simp only [ne_eq, decide_eq_true_eq]
        rintro rfl
        exact hH hx
      rw [detachComment_no_hash _ hH]
  · intro c hc
    rw [ht0]
    exact List.mem_append.mpr (Or.inl hc)
  · intro c hc
    exact List.mem_cons_of_mem ','
      (by rw [ht0]; exact List.mem_append.mpr (Or.inr hc))

lemma v1NewParts_head_nil (s p1 : List Char) (ps : List (List Char)) :
    (v1NewParts s ([] :: p1 :: ps)).head? = some [] := by
  cases ps with
  | nil =>
    rw [v1NewParts_two_eq]
    by_cases hdis : listContains "disable".toList (stripBoth p1) = true
    · rw [if_pos hdis]
      rfl
    · rw [if_neg hdis]
      rfl
  | cons p2 ps' =>
    cases ps' with
    | nil => rfl
    | cons p3 tl => rfl

lemma v1Edit_main (s t0 : List Char)
    (hs : ∀ c ∈ s, fmtCharOK c) (hsne : s ≠ []) :
    (∃ u, v1EditRemainder s (',' :: t0) = ',' :: u) ∧
    v1EditRemainder s (v1EditRemainder s (',' :: t0)) =
      v1EditRemainder s (',' :: t0) ∧
    (∀ c ∈ v1EditRemainder s (',' :: t0),
      c ∈ ',' :: t0 ∨ c ∈ " preferredauto".toList ∨ c ∈ s) := by
  obtain ⟨r0, com, hpair, hnh, hcomalt, hr0sub, hcomsub⟩ := detachComment_comma t0
  obtain ⟨p1, ps, hp⟩ : ∃ p1 ps, splitOnChar ',' r0 = p1 :: ps := by
    cases h : splitOnChar ',' r0 with
    | nil => exact absurd h (splitOnChar_ne_nil ',' r0)
    | cons a as => exact ⟨a, as, rfl⟩
  have hparts : splitOnChar ',' (',' :: r0) = [] :: p1 :: ps := by
    rw [splitOnChar_cons, if_pos rfl, hp]
  obtain ⟨q0, q1, q2, tl, hnp, hqmem, htlmem, htlLast⟩ :=
    v1NewParts_shape s [] p1 ps
  have hq0 : q0 = [] := by
    have h1 := v1NewParts_head_nil s p1 ps
    rw [hnp] at h1
    simpa using h1
  subst hq0
  have hE : v1EditRemainder s (',' :: t0) =
      joinWith ',' ([] :: q1 :: q2 :: (' ' :: s) :: tl) ++ com := by
    rw [v1EditRemainder_eq, hpair]
    show joinWith ',' (v1NewParts s (splitOnChar ',' (',' :: r0))) ++ com = _
    rw [hparts, hnp]
  have hpref : ∀ c ∈ " preferred".toList, c ∈ " preferredauto".toList := by
    decide
  have hauto : ∀ c ∈ " auto".toList, c ∈ " preferredauto".toList := by decide
  have hsp : ∀ q ∈ [] :: p1 :: ps, ∀ c ∈ q, c = ',' ∨ c ∈ r0 := by
    intro q hq c hc
    rw [← hparts] at hq
    have h1 : c ∈ ',' :: r0 := mem_of_mem_splitOnChar ',' (',' :: r0) q c hq hc
    rcases List.mem_cons.mp h1 with h | h
    · exact Or.inl h
    · exact Or.inr h
  have hone : ∀ q, (q ∈ ([] : List Char) :: p1 :: ps ∨ q = [] ∨
      q = " preferred".toList ∨ q = " auto".toList) → ∀ c ∈ q,
      c = ',' ∨ c ∈ r0 ∨ c ∈ " preferredauto".toList ∨ c ∈ s := by
    intro q hq c hc
    rcases hq with h | h | h | h
    · rcases hsp q h c hc with h2 | h2
      · exact Or.inl h2
      · exact Or.inr (Or.inl h2)
    · subst h; simp at hc
    · subst h; exact Or.inr (Or.inr (Or.inl (hpref c hc)))
    · subst h; exact Or.inr (Or.inr (Or.inl (hauto c hc)))
  have hmemNP : ∀ q ∈ [] :: q1 :: q2 :: (' ' :: s) :: tl, ∀ c ∈ q,
      c = ',' ∨ c ∈ r0 ∨ c ∈ " preferredauto".toList ∨ c ∈ s := by
    intro q hq c hc
    simp only [List.mem_cons] at hq
    rcases hq with h | h | h | h | h
    · rw [h] at hc; simp at hc
    · rw [h] at hc; exact hone q1 (hqmem q1 (by simp)) c hc
    · rw [h] at hc; exact hone q2 (hqmem q2 (by simp)) c hc
    · rw [h] at hc
      rcases List.mem_cons.mp hc with h2 | h2
      · subst h2; exact Or.inr (Or.inr (Or.inl (by decide)))
      · exact Or.inr (Or.inr (Or.inr h2))
    · exact hone q (Or.inl (htlmem q h)) c hc
  have hcommafree : ∀ q ∈ [] :: q1 :: q2 :: (' ' :: s) :: tl, ',' ∉ q := by
    have hspc : ∀ q ∈ [] :: p1 :: ps, ',' ∉ q := by
      rw [← hparts]
      exact mem_splitOnChar_no_sep ',' (',' :: r0)
    have honec : ∀ q, (q ∈ ([] : List Char) :: p1 :: ps ∨ q = [] ∨
        q = " preferred".toList ∨ q = " auto".toList) → ',' ∉ q := by
      intro q hq
      rcases hq with h | h | h | h
      · exact hspc q h
      · subst h; simp
      · subst h; decide
      · subst h; decide
    intro q hq
    simp only [List.mem_cons] at hq
    rcases hq with h | h | h | h | h
    · rw [h]; simp
    · rw [h]; exact honec q1 (hqmem q1 (by simp))
    · rw [h]; exact honec q2 (hqmem q2 (by simp))
    · rw [h]
      intro hm
      rcases List.mem_cons.mp hm with h2 | h2
      · exact absurd h2 (by decide)
      · exact ((fmtCharOK_props _ (hs _ h2)).2.1) rfl
    · exact honec q (Or.inl (htlmem q h))
  have hUnh : '#' ∉ joinWith ',' ([] :: q1 :: q2 :: (' ' :: s) :: tl) := by
    intro hm
    rcases mem_joinWith ',' _ '#' hm with h | ⟨q, hq, hc⟩
    · exact absurd h (by decide)
    · rcases hmemNP q hq '#' hc with h | h | h | h
      · exact absurd h (by decide)
      · exact hnh (List.mem_cons_of_mem ',' h)
      · exact absurd h (by decide)
      · exact ((fmtCharOK_props _ (hs _ h)).2.2.1) rfl
  have hresplit : splitOnChar ','
      (joinWith ',' ([] :: q1 :: q2 :: (' ' :: s) :: tl)) =
      [] :: q1 :: q2 :: (' ' :: s) :: tl :=
    splitOnChar_joinWith ',' _ hcommafree (by simp)
  have hnp2 : v1NewParts s ([] :: q1 :: q2 :: (' ' :: s) :: tl) =
      [] :: q1 :: q2 :: (' ' :: s) :: tl :=
    v1NewParts_four s [] q1 q2 (' ' :: s) tl
  have hidem : v1EditRemainder s (v1EditRemainder s (',' :: t0)) =
      v1EditRemainder s (',' :: t0) := by
    rw [hE]
    rcases hcomalt with hcom0 | ⟨w, t, hcomeq, hw, hend⟩
    · subst hcom0
      rw [List.append_nil, v1EditRemainder_eq, detachComment_no_hash _ hUnh]
      show joinWith ',' (v1NewParts s (splitOnChar ','
        (joinWith ',' ([] :: q1 :: q2 :: (' ' :: s) :: tl)))) ++
          ([] : List Char) =
        joinWith ',' ([] :: q1 :: q2 :: (' ' :: s) :: tl)
      rw [List.append_nil, hresplit, hnp2]
    · have hUend : ∀ c,
          (joinWith ',' ([] :: q1 :: q2 :: (' ' :: s) :: tl)).reverse.head? =
            some c → isSpaceChar c = false := by
        cases htl : tl with
        | nil =>
          intro c hc
          have hlast : ([] :: q1 :: q2 :: (' ' :: s) :: [] :
              List (List Char)).getLast? = some (' ' :: s) := rfl
          rw [joinWith_reverse_head_of_getLast ',' _ (' ' :: s) hlast
            (by simp)] at hc
          cases hsr : s.reverse with
          | nil =>
            exact absurd (by simpa using congrArg List.reverse hsr) hsne
          | cons a as =>
            rw [List.reverse_cons, hsr] at hc
            simp only [List.cons_append, List.head?_cons,
              Option.some_inj] at hc
            subst hc
            have ha : a ∈ s := List.mem_reverse.mp (by rw [hsr]; simp)
            exact (fmtCharOK_props a (hs a ha)).1
        | cons t1 tl' =>
          intro c hc
          have hlastNP : ([] :: q1 :: q2 :: (' ' :: s) :: t1 :: tl' :
              List (List Char)).getLast? = (t1 :: tl').getLast? := by
            rw [List.getLast?_cons_cons, List.getLast?_cons_cons,
              List.getLast?_cons_cons, List.getLast?_cons_cons]
          have hlastP := htlLast (by rw [htl]; simp)
          rw [htl] at hlastP
          cases hql : (p1 :: ps).getLast? with
          | none => simp at hql
          | some ql =>
            have hlast2 : (([] : List Char) :: p1 :: ps).getLast? = some ql := by
              rw [List.getLast?_cons_cons, hql]
            by_cases hqlnil : ql = []
            · subst hqlnil
              have h1 := joinWith_reverse_head_of_getLast_nil ','
                ([] :: q1 :: q2 :: (' ' :: s) :: t1 :: tl')
                (by rw [hlastNP, hlastP, hlast2]) (by simp)
              rw [h1] at hc
              simp only [Option.some_inj] at hc
              subst hc
              decide
            · have h1 := joinWith_reverse_head_of_getLast ','
                ([] :: q1 :: q2 :: (' ' :: s) :: t1 :: tl') ql
                (by rw [hlastNP, hlastP, hlast2]) hqlnil
              rw [h1] at hc
              have hjw : joinWith ',' ([] :: p1 :: ps) = ',' :: r0 := by
                rw [← hparts, joinWith_splitOnChar]
              have h2 := joinWith_reverse_head_of_getLast ','
                ([] :: p1 :: ps) ql hlast2 hqlnil
              rw [hjw] at h2
              exact hend c (by rw [h2]; exact hc)
      rw [hcomeq, v1EditRemainder_eq,
        detachComment_build (joinWith ',' ([] :: q1 :: q2 :: (' ' :: s) :: tl))
          w t hUnh hw hUend]
      show joinWith ',' (v1NewParts s (splitOnChar ','
        (joinWith ',' ([] :: q1 :: q2 :: (' ' :: s) :: tl)))) ++
          (w ++ '#' :: t) =
        joinWith ',' ([] :: q1 :: q2 :: (' ' :: s) :: tl) ++ (w ++ '#' :: t)
      rw [hresplit, hnp2]
  refine ⟨⟨joinWith ',' (q1 :: q2 :: (' ' :: s) :: tl) ++ com, ?_⟩, hidem, ?_⟩
  · rw [hE, joinWith_cons_cons]
    rfl
  · intro c hc
    rw [hE] at hc
    rcases List.mem_append.mp hc with h | h
    · rcases mem_joinWith ',' _ c h with h | ⟨q, hq, hc2⟩
      · subst h; exact Or.inl (List.mem_cons_self ',' t0)
      · rcases hmemNP q hq c hc2 with h | h | h | h
        · subst h; exact Or.inl (List.mem_cons_self ',' t0)
        · exact Or.inl (List.mem_cons_of_mem ',' (hr0sub c h))
        · exact Or.inr (Or.inl h)
        · exact Or.inr (Or.inr h)
    · exact Or.inl (hcomsub c h)

lemma v1Line_idem_fired (name s l : List Char)
    (hs : ∀ c ∈ s, fmtCharOK c) (hsne : s ≠ [])
    (hf : (v1Line name s l).2 = true) :
    v1Line name s ((v1Line name s l).1) = ((v1Line name s l).1, true) := by
  rw [v1Line_eq] at hf
  cases hp : parseV1Line l with
  | none => rw [hp] at hf; simp at hf
  | some g =>
    obtain ⟨g1, g2, g3⟩ := g
    rw [hp] at hf
    by_cases hn : stripBoth g2 = name
    · have h1 : v1Line name s l = (g1 ++ g2 ++ v1EditRemainder s g3, true) :=
        v1Line_fired name s l g1 g2 g3 hp hn
      obtain ⟨w0, w1, ws2, t0, -, -, hg3, -, -, -, -, -, -⟩ :=
        parseV1Line_inv l g1 g2 g3 hp
      subst hg3
      obtain ⟨⟨u, hu⟩, hidem, -⟩ := v1Edit_main s t0 hs hsne
      rw [h1]
      show v1Line name s (g1 ++ g2 ++ v1EditRemainder s (',' :: t0)) =
        (g1 ++ g2 ++ v1EditRemainder s (',' :: t0), true)
      rw [hu]
      have hp2 : parseV1Line (g1 ++ g2 ++ (',' :: u)) =
          some (g1, g2, ',' :: u) :=
        parseV1Line_replace_tail l g1 g2 (',' :: t0) u hp
      have hfinal : v1Line name s (g1 ++ g2 ++ (',' :: u)) =
          (g1 ++ g2 ++ v1EditRemainder s (',' :: u), true) :=
        v1Line_fired name s _ g1 g2 (',' :: u) hp2 hn
      rw [hfinal, ← hu, hidem]
    · simp [hn] at hf

lemma v1Line_proj_idem (name s l : List Char)
    (hs : ∀ c ∈ s, fmtCharOK c) (hsne : s ≠ []) :
    (v1Line name s ((v1Line name s l).1)).1 = (v1Line name s l).1 := by
  cases hfl : (v1Line name s l).2 with
  | false =>
    rw [v1Line_not_fired name s l hfl]
    exact v1Line_not_fired name s l hfl
  | true => rw [v1Line_idem_fired name s l hs hsne hfl]

lemma v1Line_chars (name s l : List Char)
    (hs : ∀ c ∈ s, fmtCharOK c) (hsne : s ≠ []) :
    ∀ c ∈ (v1Line name s l).1,
      c ∈ l ∨ c ∈ " preferredauto".toList ∨ c ∈ s := by
  intro c hc
  cases hfl : (v1Line name s l).2 with
  | false =>
    rw [v1Line_not_fired name s l hfl] at hc
    exact Or.inl hc
  | true =>
    rw [v1Line_eq] at hfl
    cases hp : parseV1Line l with
    | none => rw [hp] at hfl; simp at hfl
    | some g =>
      obtain ⟨g1, g2, g3⟩ := g
      rw [hp] at hfl
      by_cases hn : stripBoth g2 = name
      · rw [v1Line_fired name s l g1 g2 g3 hp hn] at hc
        have hc' : c ∈ g1 ++ g2 ++ v1EditRemainder s g3 := hc
        obtain ⟨w0, w1, ws2, t0, -, hl, hg3, -, -, -, -, -, -⟩ :=
          parseV1Line_inv l g1 g2 g3 hp
        subst hg3
        obtain ⟨-, -, hmem⟩ := v1Edit_main s t0 hs hsne
        rcases List.mem_append.mp hc' with h12 | hE
        · left
          rw [hl]
          exact List.mem_append.mpr (Or.inl h12)
        · rcases hmem c hE with h | h | h
          · left
            rw [hl]
            exact List.mem_append.mpr (Or.inr h)
          · exact Or.inr (Or.inl h)
          · exact Or.inr (Or.inr h)
      · simp [hn] at hfl

lemma stripBoth_self_head (nm : List Char) (h : stripBoth nm = nm) :
    ∀ c, nm.head? = some c → isSpaceChar c = false := by
  intro c hc
  cases hcs : isSpaceChar c with
  | false => rfl
  | true =>
    exfalso
    cases nm with
    | nil => simp at hc
    | cons d t =>
      have hdc : d = c := by simpa using hc
      have h1 : (d :: t).dropWhile isSpaceChar = t.dropWhile isSpaceChar :=
        List.dropWhile_cons_of_pos (by rw [hdc]; exact hcs)
      have h2 : (stripBoth (d :: t)).length ≤
          (t.dropWhile isSpaceChar).length := by
        unfold stripBoth
        rw [h1, List.length_reverse]
        calc ((t.dropWhile isSpaceChar).reverse.dropWhile isSpaceChar).length
            ≤ (t.dropWhile isSpaceChar).reverse.length :=
              (List.dropWhile_sublist _).length_le
          _ = (t.dropWhile isSpaceChar).length := List.length_reverse _
      have h3 : (t.dropWhile isSpaceChar).length ≤ t.length :=
        (List.dropWhile_sublist _).length_le
      rw [h] at h2
      simp only [List.length_cons] at h2
      omega

lemma v1Line_appended (name s : List Char)
    (hs : ∀ c ∈ s, fmtCharOK c)
    (hnc : ',' ∉ name) (hns : stripBoth name = name) (hne : name ≠ []) :
    v1Line name s
        ("monitor = ".toList ++ name ++ ", preferred, auto, ".toList ++ s) =
      ("monitor = ".toList ++ name ++ ", preferred, auto, ".toList ++ s,
        true) := by
  have hml : "monitor = ".toList =
      ['m', 'o', 'n', 'i', 't', 'o', 'r', ' ', '=', ' '] := by decide
  have hm7 : "monitor".toList = ['m', 'o', 'n', 'i', 't', 'o', 'r'] := by
    decide
  have hpa : ", preferred, auto, ".toList =
      ',' :: " preferred, auto, ".toList := by decide
  have hparse : parseV1Line
      ("monitor = ".toList ++ name ++ ", preferred, auto, ".toList ++ s) =
      some ("monitor = ".toList, name,
        ',' :: (" preferred, auto, ".toList ++ s)) := by
    have hb := parseV1Line_build [] [' '] [' '] name
      (" preferred, auto, ".toList ++ s) (by simp) (by decide) (by decide)
      hne hnc (Or.inl (stripBoth_self_head name hns))
    rw [hm7] at hb
    rw [hml, hpa]
    simpa using hb
  have hnh : '#' ∉ ',' :: (" preferred, auto, ".toList ++ s) := by
    intro hmem
    rcases List.mem_cons.mp hmem with h | h
    · exact absurd h (by decide)
    · rcases List.mem_append.mp h with h | h
      · exact absurd h (by decide)
      · exact ((fmtCharOK_props _ (hs _ h)).2.2.1) rfl
  have hncs : ',' ∉ ' ' :: s := by
    intro hmem
    rcases List.mem_cons.mp hmem with h | h
    · exact absurd h (by decide)
    · exact ((fmtCharOK_props _ (hs _ h)).2.1) rfl
  have hdec : " preferred, auto, ".toList ++ s =
      " preferred".toList ++ ',' :: (" auto".toList ++ ',' :: (' ' :: s)) := by
    have h1 : (" preferred, auto, ".toList : List Char) =
        " preferred".toList ++ ',' :: (" auto".toList ++ ',' :: [' ']) := by
      decide
    rw [h1]
    simp [List.append_assoc]
  have hsplit : splitOnChar ',' (',' :: (" preferred, auto, ".toList ++ s)) =
      [[], " preferred".toList, " auto".toList, ' ' :: s] := by
    rw [splitOnChar_cons, if_pos rfl, hdec, splitOnChar_append_sep,
      splitOnChar_append_sep,
      splitOnChar_of_not_mem ',' " preferred".toList (by decide),
      splitOnChar_of_not_mem ',' " auto".toList (by decide),
      splitOnChar_of_not_mem ',' (' ' :: s) hncs]
    rfl
  have hedit : v1EditRemainder s (',' :: (" preferred, auto, ".toList ++ s)) =
      ',' :: (" preferred, auto, ".toList ++ s) := by
    rw [v1EditRemainder_eq, detachComment_no_hash _ hnh]
    show joinWith ',' (v1NewParts s (splitOnChar ','
      (',' :: (" preferred, auto, ".toList ++ s)))) ++ ([] : List Char) =
      ',' :: (" preferred, auto, ".toList ++ s)
    rw [List.append_nil, hsplit, v1NewParts_four, ← hsplit,
      joinWith_splitOnChar]
  rw [v1Line_fired name s _ "monitor = ".toList name
    (',' :: (" preferred, auto, ".toList ++ s)) hparse hns, hedit]
  simp [hpa, List.append_assoc]

lemma fmtAssemble_ne_nil (neg : Bool) (m : ℕ) (e : ℤ) :
    fmtAssemble neg m e ≠ [] := by
  intro h0
  unfold fmtAssemble at h0
  simp only at h0
  have hdig := natToChars_ne_nil m
  split at h0
  · split at h0
    · rcases List.append_eq_nil.mp h0 with ⟨h1, -⟩
      rcases List.append_eq_nil.mp h1 with ⟨-, h2⟩
      rw [List.take_eq_nil_iff] at h2
      rcases h2 with h2 | h2
      · simp at h2
      · exact hdig h2
    · rcases List.append_eq_nil.mp h0 with ⟨h1, -⟩
      rcases List.append_eq_nil.mp h1 with ⟨-, h2⟩
      simp at h2
  · rcases List.append_eq_nil.mp h0 with ⟨-, h2⟩
    simp at h2

lemma fmtG_ne_nil (q : ℚ) : fmtG q ≠ [] := by
  unfold fmtG
  by_cases h0 : q = 0
  · rw [if_pos h0]
    simp
  · rw [if_neg h0]
    simp only
    split
    · exact fmtAssemble_ne_nil _ _ _
    · exact fmtAssemble_ne_nil _ _ _

lemma dropWhile_append_ne_nil (p : Char → Bool) (q ext : List Char)
    (h : q.dropWhile p ≠ []) :
    (q ++ ext).dropWhile p = q.dropWhile p ++ ext := by
  induction q with
  | nil => exact absurd rfl h
  | cons c q' ih =>
    by_cases hc : p c
    · rw [List.dropWhile_cons_of_pos hc] at h
      rw [List.cons_append, List.dropWhile_cons_of_pos hc,
        List.dropWhile_cons_of_pos hc, ih h]
    · rw [List.cons_append, List.dropWhile_cons_of_neg hc,
        List.dropWhile_cons_of_neg hc, List.cons_append]

lemma takeWhile_append_ne_nil (p : Char → Bool) (q ext : List Char)
    (h : q.dropWhile p ≠ []) :
    (q ++ ext).takeWhile p = q.takeWhile p := by
  induction q with
  | nil => exact absurd rfl h
  | cons c q' ih =>
    by_cases hc : p c
    · rw [List.dropWhile_cons_of_pos hc] at h
      rw [List.cons_append, List.takeWhile_cons_of_pos hc,
        List.takeWhile_cons_of_pos hc, ih h]
    · rw [List.cons_append, List.takeWhile_cons_of_neg hc,
        List.takeWhile_cons_of_neg hc]

lemma isPrefixOf_append_cons (needle l ext : List Char) (c : Char)
    (hc : c ∉ needle) :
    needle.isPrefixOf (l ++ c :: ext) = needle.isPrefixOf l := by
  induction needle generalizing l with
  | nil => simp [List.isPrefixOf]
  | cons n ns ih =>
    cases l with
    | nil =>
      show ((n == c) && ns.isPrefixOf ext) = false
      have hnc : (n == c) = false := by
        rw [beq_eq_false_iff_ne]
        intro he
        exact hc (he ▸ List.mem_cons_self n ns)
      rw [hnc, Bool.false_and]
    | cons x xs =>
      show ((n == x) && ns.isPrefixOf (xs ++ c :: ext)) =
        ((n == x) && ns.isPrefixOf xs)
      rw [ih xs (fun hm => hc (List.mem_cons_of_mem n hm))]

lemma parseV1At_inv (t g1 g2 g3 after : List Char)
    (h : parseV1At t = some ((g1, g2, g3), after)) :
    t = g1 ++ g2 ++ g3 ++ after ∧ g2 ≠ [] ∧
    (∃ u, g3 = ',' :: u) ∧ (after = [] ∨ ∃ r, after = '\n' :: r) := by
  unfold parseV1At at h
  split at h
  case isFalse => exact absurd h (by simp)
  rename_i hpre
  split at h
  case h_1 => exact absurd h (by simp)
  rename_i c r3 hd1
  split at h
  case isFalse => exact absurd h (by simp)
  rename_i hc
  subst hc
  obtain ⟨tl, htl⟩ := List.isPrefixOf_iff_prefix.mp hpre
  have hdrop7 : (t.dropWhile isSpaceChar).drop 7 = tl := by
    rw [← htl]
    have h7 : ("monitor".toList).length = 7 := by decide
    rw [← h7, List.drop_left]
  have ht0 : t = t.takeWhile isSpaceChar ++ t.dropWhile isSpaceChar :=
    (List.takeWhile_append_dropWhile (p := isSpaceChar) (l := t)).symm
  have hr0 : t.dropWhile isSpaceChar =
      "monitor".toList ++ (t.dropWhile isSpaceChar).drop 7 := by
    rw [hdrop7]
    exact htl.symm
  have ht1 : (t.dropWhile isSpaceChar).drop 7 =
      ((t.dropWhile isSpaceChar).drop 7).takeWhile isSpaceChar ++ '=' :: r3 := by
    conv_lhs => rw [← List.takeWhile_append_dropWhile (p := isSpaceChar)
      (l := (t.dropWhile isSpaceChar).drop 7)]
    rw [hd1]
  have hr3 : r3 = r3.takeWhile isSpaceChar ++ r3.dropWhile isSpaceChar :=
    (List.takeWhile_append_dropWhile (p := isSpaceChar) (l := r3)).symm
  have hbody : r3.dropWhile isSpaceChar =
      (r3.dropWhile isSpaceChar).takeWhile v1NameChar ++
        (r3.dropWhile isSpaceChar).dropWhile v1NameChar :=
    (List.takeWhile_append_dropWhile (p := v1NameChar)
      (l := r3.dropWhile isSpaceChar)).symm
  split at h
  · -- backtrack arm: group 2 is the last whitespace character before `=`,
    rename_i bc u hteq hdeq
    split at h
    case isFalse => exact absurd h (by simp)
    rename_i hbc
    subst hbc
    split at h
    case h_1 => exact absurd h (by simp)
    rename_i wlast wrev hd4
    split at h
    case isTrue => exact absurd h (by simp)
    rename_i hwl
    rw [Option.some_inj, Prod.mk.injEq, Prod.mk.injEq, Prod.mk.injEq] at h
    obtain ⟨⟨hg1, hg2, hg3⟩, hafter⟩ := h
    have hW2 : r3.takeWhile isSpaceChar = wrev.reverse ++ [wlast] := by
      have hh := congrArg List.reverse hd4
      rwa [List.reverse_reverse, List.reverse_cons] at hh
    have hu : u = u.takeWhile (fun ch => ch ≠ '\n') ++
        u.dropWhile (fun ch => ch ≠ '\n') :=
      (List.takeWhile_append_dropWhile (p := fun ch => ch ≠ '\n')
        (l := u)).symm
    refine ⟨?_, ?_, ?_, ?_⟩
    · rw [← hg1, ← hg2, ← hg3, ← hafter]
      conv_lhs => rw [ht0, hr0, ht1, hr3, hW2, hbody, hteq, hdeq, hu]
      simp [List.append_assoc]
    · rw [← hg2]
      simp
    · exact ⟨u.takeWhile (fun ch => ch ≠ '\n'), hg3.symm⟩
    · rw [← hafter]
      cases hca : u.dropWhile (fun ch => ch ≠ '\n') with
      | nil => exact Or.inl rfl
      | cons a r =>
        right
        have ha := dropWhile_head_false _ _ _ _ hca
        have ha' : a = '\n' := by simpa using ha
        exact ⟨r, by rw [ha']⟩
  · -- normal arm
    rename_i g2h g2t bc u hteq hdeq
    split at h
    case isFalse => exact absurd h (by simp)
    rename_i hbc
    subst hbc
    rw [Option.some_inj, Prod.mk.injEq, Prod.mk.injEq, Prod.mk.injEq] at h
    obtain ⟨⟨hg1, hg2, hg3⟩, hafter⟩ := h
    have hu : u = u.takeWhile (fun ch => ch ≠ '\n') ++
        u.dropWhile (fun ch => ch ≠ '\n') :=
      (List.takeWhile_append_dropWhile (p := fun ch => ch ≠ '\n')
        (l := u)).symm
    refine ⟨?_, ?_, ?_, ?_⟩
    · rw [← hg1, ← hg2, ← hg3, ← hafter]
      conv_lhs => rw [ht0, hr0, ht1, hr3, hbody, hteq, hdeq, hu]
      simp [List.append_assoc]
    · rw [← hg2]
      simp
    · exact ⟨u.takeWhile (fun ch => ch ≠ '\n'), hg3.symm⟩
    · rw [← hafter]
      cases hca : u.dropWhile (fun ch => ch ≠ '\n') with
      | nil => exact Or.inl rfl
      | cons a r =>
        right
        have ha := dropWhile_head_false _ _ _ _ hca
        have ha' : a = '\n' := by simpa using ha
        exact ⟨r, by rw [ha']⟩
  · exact absurd h (by simp)

lemma v1ScanFuel_succ (name s : List Char) (f : ℕ) (t : List Char) :
    v1ScanFuel name s (f + 1) t = v1ScanBody name s t (v1ScanFuel name s f) :=
  rfl

lemma v1ScanFuel_some_nil (name s : List Char) (f : ℕ) (t : List Char)
    (ht : t ≠ []) (g1 g2 g3 : List Char)
    (hp : parseV1At t = some ((g1, g2, g3), [])) :
    v1ScanFuel name s (f + 1) t =
      (if stripBoth g2 = name then g1 ++ g2 ++ v1EditRemainder s g3
       else g1 ++ g2 ++ g3, decide (stripBoth g2 = name)) := by
  cases t with
  | nil => exact absurd rfl ht
  | cons c rest =>
    rw [v1ScanFuel_succ]
    unfold v1ScanBody
    simp only [hp]

lemma v1ScanFuel_some_cons (name s : List Char) (f : ℕ) (t : List Char)
    (ht : t ≠ []) (g1 g2 g3 : List Char) (c2 : Char) (rest2 : List Char)
    (hp : parseV1At t = some ((g1, g2, g3), c2 :: rest2)) :
    v1ScanFuel name s (f + 1) t =
      ((if stripBoth g2 = name then g1 ++ g2 ++ v1EditRemainder s g3
        else g1 ++ g2 ++ g3) ++
        c2 :: (v1ScanFuel name s f rest2).1,
       decide (stripBoth g2 = name) || (v1ScanFuel name s f rest2).2) := by
  cases t with
  | nil => exact absurd rfl ht
  | cons c rest =>
    rw [v1ScanFuel_succ]
    unfold v1ScanBody
    simp only [hp]

lemma v1ScanFuel_none_nil (name s : List Char) (f : ℕ) (t : List Char)
    (ht : t ≠ []) (hp : parseV1At t = none)
    (hd : t.dropWhile (fun ch => ch ≠ '\n') = []) :
    v1ScanFuel name s (f + 1) t = (t, false) := by
  cases t with
  | nil => exact absurd rfl ht
  | cons c rest =>
    rw [v1ScanFuel_succ]
    unfold v1ScanBody
    simp only [hp, hd]

lemma v1ScanFuel_none_cons (name s : List Char) (f : ℕ) (t : List Char)
    (ht : t ≠ []) (hp : parseV1At t = none) (c2 : Char) (rest2 : List Char)
    (hd : t.dropWhile (fun ch => ch ≠ '\n') = c2 :: rest2) :
    v1ScanFuel name s (f + 1) t =
      (t.takeWhile (fun ch => ch ≠ '\n') ++
        c2 :: (v1ScanFuel name s f rest2).1,
       (v1ScanFuel name s f rest2).2) := by
  cases t with
  | nil => exact absurd rfl ht
  | cons c rest =>
    rw [v1ScanFuel_succ]
    unfold v1ScanBody
    simp only [hp, hd]

lemma v1ScanFuel_not_fired_id (name s : List Char) :
    ∀ (fuel : ℕ) (t : List Char), (v1ScanFuel name s fuel t).2 = false →
      (v1ScanFuel name s fuel t).1 = t := by
  intro fuel
  induction fuel with
  | zero => intro t _; rfl
  | succ f ih =>
    intro t hflag
    by_cases htne : t = []
    · subst htne; rfl
    · cases hp : parseV1At t with
      | some val =>
        obtain ⟨⟨g1, g2, g3⟩, after⟩ := val
        obtain ⟨hrec, -, -, -⟩ := parseV1At_inv _ _ _ _ _ hp
        cases after with
        | nil =>
          rw [v1ScanFuel_some_nil name s f t htne g1 g2 g3 hp] at hflag ⊢
          have hname : ¬ stripBoth g2 = name := by simpa using hflag
          show (if stripBoth g2 = name then g1 ++ g2 ++ v1EditRemainder s g3
            else g1 ++ g2 ++ g3) = t
          rw [if_neg hname]
          rw [hrec]
          simp
        | cons c2 rest2 =>
          rw [v1ScanFuel_some_cons name s f t htne g1 g2 g3 c2 rest2 hp]
            at hflag ⊢
          have hpair : (decide (stripBoth g2 = name) = false) ∧
              (v1ScanFuel name s f rest2).2 = false := by
            simpa [Bool.or_eq_false_iff] using hflag
          have hname : ¬ stripBoth g2 = name := by simpa using hpair.1
          show (if stripBoth g2 = name then g1 ++ g2 ++ v1EditRemainder s g3
            else g1 ++ g2 ++ g3) ++ c2 :: (v1ScanFuel name s f rest2).1 = t
          rw [if_neg hname, ih rest2 hpair.2, hrec]
      | none =>
        cases hd : t.dropWhile (fun ch => ch ≠ '\n') with
        | nil =>
          rw [v1ScanFuel_none_nil name s f t htne hp hd]
        | cons c2 rest2 =>
          rw [v1ScanFuel_none_cons name s f t htne hp c2 rest2 hd] at hflag ⊢
          show t.takeWhile (fun ch => ch ≠ '\n') ++
            c2 :: (v1ScanFuel name s f rest2).1 = t
          rw [ih rest2 (by simpa using hflag)]
          have := List.takeWhile_append_dropWhile
            (p := fun ch => ch ≠ '\n') (l := t)
          rw [hd] at this
          exact this


lemma mem_of_mem_dropWhile (p : Char → Bool) (l : List Char) (c : Char)
    (h : c ∈ l.dropWhile p) : c ∈ l := by
  induction l with
  | nil => simpa using h
  | cons a l' ih =>
    by_cases ha : p a
    · rw [List.dropWhile_cons_of_pos ha] at h
      exact List.mem_cons_of_mem a (ih h)
    · rw [List.dropWhile_cons_of_neg ha] at h
      exact h

lemma mem_of_mem_takeWhile (p : Char → Bool) (l : List Char) (c : Char)
    (h : c ∈ l.takeWhile p) : c ∈ l := by
  induction l with
  | nil => simpa using h
  | cons a l' ih =>
    by_cases ha : p a
    · rw [List.takeWhile_cons_of_pos ha] at h
      rcases List.mem_cons.mp h with h | h
      · exact h ▸ List.mem_cons_self a l'
      · exact List.mem_cons_of_mem a (ih h)
    · rw [List.takeWhile_cons_of_neg ha] at h
      simp at h

lemma nameChar_split_no_nl (l : List Char) (h : '\n' ∉ l) :
    l.takeWhile v1NameChar = l.takeWhile (fun ch => ch ≠ ',') ∧
    l.dropWhile v1NameChar = l.dropWhile (fun ch => ch ≠ ',') := by
  induction l with
  | nil => exact ⟨rfl, rfl⟩
  | cons c l' ih =>
    have hcn : c ≠ '\n' := fun he => h (he ▸ List.mem_cons_self c l')
    have hih := ih (fun hm => h (List.mem_cons_of_mem c hm))
    by_cases hc : c = ','
    · subst hc
      exact ⟨by rw [List.takeWhile_cons_of_neg (p := v1NameChar) (by decide),
          List.takeWhile_cons_of_neg
            (p := fun ch => decide (ch ≠ ',')) (by simp)],
        by rw [List.dropWhile_cons_of_neg (p := v1NameChar) (by decide),
          List.dropWhile_cons_of_neg
            (p := fun ch => decide (ch ≠ ',')) (by simp)]⟩
    · have h1 : v1NameChar c = true := by simp [v1NameChar, hc, hcn]
      have h2 : (fun ch => decide (ch ≠ ',')) c = true := decide_eq_true hc
      exact ⟨by rw [List.takeWhile_cons_of_pos (p := v1NameChar) h1,
          List.takeWhile_cons_of_pos
            (p := fun ch => decide (ch ≠ ',')) h2, hih.1],
        by rw [List.dropWhile_cons_of_pos (p := v1NameChar) h1,
          List.dropWhile_cons_of_pos
            (p := fun ch => decide (ch ≠ ',')) h2, hih.2]⟩

lemma parseV1Line_blank (L : List Char) (h : ∀ c ∈ L, isSpaceChar c = true) :
    parseV1Line L = none := by
  unfold parseV1Line
  rw [List.dropWhile_eq_nil_iff.mpr h]
  rfl

lemma v1SafeLine_parts (L : List Char) (h : v1SafeLine L = true) :
    L.dropWhile isSpaceChar ≠ [] ∧
    ("monitor".toList.isPrefixOf (L.dropWhile isSpaceChar) = true →
      ((L.dropWhile isSpaceChar).drop 7).dropWhile isSpaceChar ≠ [] ∧
      ∀ r3, ((L.dropWhile isSpaceChar).drop 7).dropWhile isSpaceChar =
          '=' :: r3 → r3.dropWhile isSpaceChar ≠ []) := by
  unfold v1SafeLine at h
  rw [Bool.and_eq_true] at h
  obtain ⟨h1, h2⟩ := h
  refine ⟨?_, ?_⟩
  · intro hnil
    rw [hnil] at h1
    simp at h1
  · intro hpre
    rw [hpre] at h2
    simp only [Bool.not_true, Bool.false_or] at h2
    refine ⟨?_, ?_⟩
    · intro hnil
      rw [hnil] at h2
      simp at h2
    · intro r3 hr3 hnil
      rw [hr3] at h2
      simp only at h2
      rw [hnil] at h2
      simp at h2


lemma parseV1At_ext (L ext : List Char) (hnl : '\n' ∉ L)
    (hext : ext = [] ∨ ∃ r, ext = '\n' :: r)
    (hsafe : ext = [] ∨ v1SafeLine L = true) :
    parseV1At (L ++ ext) = (parseV1Line L).map (fun g => (g, ext)) := by
  have hextdt : ∀ (q : List Char), q.dropWhile isSpaceChar ≠ [] ∨ ext = [] →
      (q ++ ext).dropWhile isSpaceChar = q.dropWhile isSpaceChar ++ ext ∧
      (q ++ ext).takeWhile isSpaceChar = q.takeWhile isSpaceChar := by
    intro q hq
    rcases hq with hq | hq
    · exact ⟨dropWhile_append_ne_nil _ _ _ hq, takeWhile_append_ne_nil _ _ _ hq⟩
    · subst hq
      simp
  have hprefix_ext : ∀ (q : List Char),
      "monitor".toList.isPrefixOf (q ++ ext) = "monitor".toList.isPrefixOf q := by
    intro q
    rcases hext with rfl | ⟨r, rfl⟩
    · simp
    · exact isPrefixOf_append_cons _ _ _ _ (by decide)
  by_cases hr0nil : L.dropWhile isSpaceChar = []
  · rcases hsafe with rfl | hsf
    · simp only [List.append_nil]
      rw [parseV1Line_blank L (List.dropWhile_eq_nil_iff.mp hr0nil)]
      unfold parseV1At
      rw [hr0nil]
      rfl
    · exact absurd hr0nil (v1SafeLine_parts L hsf).1
  · have hE0 := hextdt L (Or.inl hr0nil)
    by_cases hpre : "monitor".toList.isPrefixOf (L.dropWhile isSpaceChar) = true
    case neg =>
      have hpreF : "monitor".toList.isPrefixOf (L.dropWhile isSpaceChar) =
          false := Bool.eq_false_iff.mpr hpre
      have hA : parseV1At (L ++ ext) = none := by
        unfold parseV1At
        rw [hE0.1, hprefix_ext, hpreF]
        rfl
      have hB : parseV1Line L = none := by
        unfold parseV1Line
        rw [hpreF]
        rfl
      rw [hA, hB]
      rfl
    case pos =>
      obtain ⟨tl, htl⟩ := List.isPrefixOf_iff_prefix.mp hpre
      have hr0eq : L.dropWhile isSpaceChar = "monitor".toList ++ tl := htl.symm
      have hd7L : (L.dropWhile isSpaceChar).drop 7 = tl := by
        rw [hr0eq, drop7_monitor]
      have hd7E : ((L ++ ext).dropWhile isSpaceChar).drop 7 = tl ++ ext := by
        rw [hE0.1, hr0eq, List.append_assoc, drop7_monitor]
      have hpreE : "monitor".toList.isPrefixOf
          ((L ++ ext).dropWhile isSpaceChar) = true := by
        rw [hE0.1, hprefix_ext]
        exact hpre
      have hnl_r0 : '\n' ∉ L.dropWhile isSpaceChar :=
        fun hm => hnl (mem_of_mem_dropWhile _ _ _ hm)
      have hnl_tl : '\n' ∉ tl := by
        intro hm
        exact hnl_r0 (hr0eq ▸ List.mem_append.mpr (Or.inr hm))
      by_cases hr1nil : tl.dropWhile isSpaceChar = []
      · rcases hsafe with rfl | hsf
        · simp only [List.append_nil]
          have hA : parseV1At L = none := by
            unfold parseV1At
            rw [hpre, hd7L, hr1nil]
            rfl
          have hB : parseV1Line L = none := by
            unfold parseV1Line
            rw [hpre, hd7L, hr1nil]
            rfl
          rw [hA, hB]
          rfl
        · have hparts := (v1SafeLine_parts L hsf).2 hpre
          rw [hd7L] at hparts
          exact absurd hr1nil hparts.1
      · have hE1 := hextdt tl (Or.inl hr1nil)
        cases hr1 : tl.dropWhile isSpaceChar with
        | nil => exact absurd hr1 hr1nil
        | cons c r1t =>
          have hd1E : (tl ++ ext).dropWhile isSpaceChar = c :: (r1t ++ ext) := by
            rw [hE1.1, hr1, List.cons_append]
          by_cases hceq : c = '='
          case neg =>
            have hA : parseV1At (L ++ ext) = none := by
              unfold parseV1At
              simp only [hpreE, hd7E, hd1E, reduceIte, if_neg hceq]
            have hB : parseV1Line L = none := by
              unfold parseV1Line
              simp only [hpre, hd7L, hr1, reduceIte, if_neg hceq]
            rw [hA, hB]
            rfl
          case pos =>
            subst hceq
            have hnl_r3 : '\n' ∉ r1t := by
              intro hm
              apply hnl_tl
              apply mem_of_mem_dropWhile isSpaceChar tl
              rw [hr1]
              exact List.mem_cons_of_mem _ hm
            have hnc := nameChar_split_no_nl (r1t.dropWhile isSpaceChar)
              (fun hm => hnl_r3 (mem_of_mem_dropWhile _ _ _ hm))
            have hW2ws : ∀ x ∈ r1t.takeWhile isSpaceChar, isSpaceChar x = true :=
              fun x hx => List.mem_takeWhile_imp hx
            have hW2comma : ∀ x ∈ r1t.takeWhile isSpaceChar,
                (fun ch => decide (ch ≠ ',')) x = true :=
              fun x hx => decide_eq_true (isSpaceChar_ne_comma x (hW2ws x hx))
            have hr3split : r1t = r1t.takeWhile isSpaceChar ++
                r1t.dropWhile isSpaceChar :=
              (List.takeWhile_append_dropWhile (p := isSpaceChar) (l := r1t)).symm
            have hP : r1t.takeWhile (fun ch => ch ≠ ',') =
                r1t.takeWhile isSpaceChar ++
                  (r1t.dropWhile isSpaceChar).takeWhile (fun ch => ch ≠ ',') := by
              conv_lhs => rw [hr3split]
              rw [takeWhile_append_all _ _ _ hW2comma]
            have hD : r1t.dropWhile (fun ch => ch ≠ ',') =
                (r1t.dropWhile isSpaceChar).dropWhile (fun ch => ch ≠ ',') := by
              conv_lhs => rw [hr3split]
              rw [dropWhile_append_all _ _ _ hW2comma]
            by_cases hbodynil : r1t.dropWhile isSpaceChar = []
            · rcases hsafe with rfl | hsf
              · simp only [List.append_nil]
                have hDnil : r1t.dropWhile (fun ch => ch ≠ ',') = [] := by
                  rw [hD, hbodynil]
                  rfl
                have hA : parseV1At L = none := by
                  unfold parseV1At
                  simp only [hpre, hd7L, hr1, reduceIte, hbodynil,
                    List.takeWhile_nil, List.dropWhile_nil]
                have hB : parseV1Line L = none := by
                  unfold parseV1Line
                  simp only [hpre, hd7L, hr1, reduceIte, hDnil]
                rw [hA, hB]
                rfl
              · have hparts := (v1SafeLine_parts L hsf).2 hpre
                rw [hd7L] at hparts
                exact absurd hbodynil (hparts.2 r1t hr1)
            · have hE2 := hextdt r1t (Or.inl hbodynil)
              cases hbody : r1t.dropWhile isSpaceChar with
              | nil => exact absurd hbody hbodynil
              | cons b0 bt =>
                have hb0 : isSpaceChar b0 = false :=
                  dropWhile_head_false _ _ _ _ hbody
                cases hbrest : (r1t.dropWhile isSpaceChar).dropWhile
                    v1NameChar with
                | nil =>
                  have hallname : ∀ x ∈ r1t.dropWhile isSpaceChar,
                      v1NameChar x = true :=
                    List.dropWhile_eq_nil_iff.mp hbrest
                  have hDnil : r1t.dropWhile (fun ch => ch ≠ ',') = [] := by
                    rw [hD, ← hnc.2, hbrest]
                  have htakeE : ((r1t ++ ext).dropWhile
                      isSpaceChar).takeWhile v1NameChar =
                      b0 :: (bt ++ ext.takeWhile v1NameChar) := by
                    rw [hE2.1, takeWhile_append_all _ _ _ hallname, hbody,
                      List.cons_append]
                  have hdropE : ((r1t ++ ext).dropWhile
                      isSpaceChar).dropWhile v1NameChar =
                      ext.dropWhile v1NameChar := by
                    rw [hE2.1, dropWhile_append_all _ _ _ hallname]
                  have hB : parseV1Line L = none := by
                    unfold parseV1Line
                    simp only [hpre, hd7L, hr1, reduceIte, hDnil]
                  rw [hB]
                  have hextn : ext.dropWhile v1NameChar = ext ∧
                      (ext.dropWhile v1NameChar = [] ∨
                        ∃ r, ext.dropWhile v1NameChar = '\n' :: r) := by
                    rcases hext with rfl | ⟨r, rfl⟩
                    · exact ⟨rfl, Or.inl rfl⟩
                    · rw [List.dropWhile_cons_of_neg (p := v1NameChar)
                        (by decide)]
                      exact ⟨rfl, Or.inr ⟨r, rfl⟩⟩
                  rcases hextn.2 with hen | ⟨r, hen⟩
                  · unfold parseV1At
                    simp only [hpreE, hd7E, hd1E, reduceIte, htakeE, hdropE,
                      hen]
                    rfl
                  · unfold parseV1At
                    simp only [hpreE, hd7E, hd1E, reduceIte, htakeE, hdropE,
                      hen]
                    rfl
                | cons bc bu =>
                  have hbcmem : bc ∈ r1t := by
                    apply mem_of_mem_dropWhile isSpaceChar
                    apply mem_of_mem_dropWhile v1NameChar
                    rw [hbrest]
                    exact List.mem_cons_self _ _
                  have hbc : bc = ',' := by
                    have h1 := dropWhile_head_false _ _ _ _ hbrest
                    unfold v1NameChar at h1
                    simp only [Bool.and_eq_false_iff,
                      decide_eq_false_iff_not, not_not] at h1
                    rcases h1 with h1 | h1
                    · exact h1
                    · exact absurd (h1 ▸ hbcmem) hnl_r3
                  subst hbc
                  have hbrestne : (r1t.dropWhile isSpaceChar).dropWhile
                      v1NameChar ≠ [] := by
                    rw [hbrest]
                    simp
                  have hSdropE : ((r1t ++ ext).dropWhile
                      isSpaceChar).dropWhile v1NameChar =
                      ',' :: (bu ++ ext) := by
                    rw [hE2.1, dropWhile_append_ne_nil _ _ _ hbrestne,
                      hbrest, List.cons_append]
                  have hStakeE : ((r1t ++ ext).dropWhile
                      isSpaceChar).takeWhile v1NameChar =
                      (r1t.dropWhile isSpaceChar).takeWhile v1NameChar := by
                    rw [hE2.1, takeWhile_append_ne_nil _ _ _ hbrestne]
                  have hnl_bu : '\n' ∉ bu := by
                    intro hm
                    apply hnl_r3
                    apply mem_of_mem_dropWhile isSpaceChar r1t
                    apply mem_of_mem_dropWhile v1NameChar
                      (r1t.dropWhile isSpaceChar)
                    rw [hbrest]
                    exact List.mem_cons_of_mem _ hm
                  have hbu_take : ∀ x ∈ bu,
                      (fun ch => decide (ch ≠ '\n')) x = true :=
                    fun x hx => decide_eq_true (fun he => hnl_bu (he ▸ hx))
                  have htakeU : (bu ++ ext).takeWhile
                      (fun ch => ch ≠ '\n') = bu := by
                    rw [takeWhile_append_all _ _ _ hbu_take]
                    rcases hext with rfl | ⟨r, rfl⟩
                    · simp
                    · rw [List.takeWhile_cons_of_neg (by decide),
                        List.append_nil]
                  have hdropU : (bu ++ ext).dropWhile
                      (fun ch => ch ≠ '\n') = ext := by
                    rw [dropWhile_append_all _ _ _ hbu_take]
                    rcases hext with rfl | ⟨r, rfl⟩
                    · rfl
                    · rw [List.dropWhile_cons_of_neg (by decide)]
                  have hDeq : r1t.dropWhile (fun ch => ch ≠ ',') =
                      ',' :: bu := by
                    rw [hD, ← hnc.2, hbrest]
                  cases hg2run : (r1t.dropWhile isSpaceChar).takeWhile
                      v1NameChar with
                  | nil =>
                    have hPws : r1t.takeWhile (fun ch => ch ≠ ',') =
                        r1t.takeWhile isSpaceChar := by
                      rw [hP, ← hnc.1, hg2run, List.append_nil]
                    have hPdrop : (r1t.takeWhile
                        isSpaceChar).dropWhile isSpaceChar = [] := by
                      rw [List.dropWhile_eq_nil_iff]
                      exact fun x hx => List.mem_takeWhile_imp hx
                    cases hrev : (r1t.takeWhile isSpaceChar).reverse with
                    | nil =>
                      have hA : parseV1At (L ++ ext) = none := by
                        unfold parseV1At
                        simp only [hpreE, hd7E, hd1E, reduceIte, hStakeE,
                          hSdropE, hg2run, hE2.2, hrev]
                      have hB : parseV1Line L = none := by
                        unfold parseV1Line
                        simp only [hpre, hd7L, hr1, reduceIte, hDeq, hPdrop,
                          hPws, hrev]
                      rw [hA, hB]
                      rfl
                    | cons wlast wrev =>
                      have hwlast_mem : wlast ∈ r1t.takeWhile isSpaceChar := by
                        rw [← List.mem_reverse, hrev]
                        exact List.mem_cons_self _ _
                      have hwlast_nl : ¬ wlast = '\n' := by
                        intro he
                        exact hnl_r3
                          (mem_of_mem_takeWhile _ _ _ (he ▸ hwlast_mem))
                      unfold parseV1At parseV1Line
                      simp only [hpreE, hd7E, hd1E, reduceIte, hStakeE,
                        hSdropE, hg2run, hE2.2, hrev, hpre, hd7L, hr1, hDeq,
                        hPdrop, hPws, if_neg hwlast_nl, hE0.2, hE1.2, htakeU,
                        hdropU, Option.map_some']
                  | cons g2h g2t =>
                    obtain ⟨body', hbody', hg2hname⟩ :
                        ∃ l2, r1t.dropWhile isSpaceChar = g2h :: l2 ∧
                          v1NameChar g2h = true := by
                      rw [hbody] at hg2run
                      rw [List.takeWhile_cons] at hg2run
                      by_cases hx : v1NameChar b0 = true
                      · rw [if_pos hx] at hg2run
                        obtain ⟨h1, -⟩ := List.cons.inj hg2run
                        refine ⟨bt, ?_, ?_⟩
                        · rw [hbody, h1]
                        · rw [← h1]
                          exact hx
                      · rw [if_neg hx] at hg2run
                        simp at hg2run
                    have hg2h_ws : isSpaceChar g2h = false := by
                      have := dropWhile_head_false _ _ _ _ hbody'
                      exact this
                    have hPtake : (r1t.takeWhile
                        (fun ch => ch ≠ ',')).takeWhile isSpaceChar =
                        r1t.takeWhile isSpaceChar := by
                      rw [hP, ← hnc.1, hg2run,
                        takeWhile_append_all _ _ _ hW2ws,
                        List.takeWhile_cons_of_neg (p := isSpaceChar)
                          (by rw [hg2h_ws]; simp),
                        List.append_nil]
                    have hPdrop : (r1t.takeWhile
                        (fun ch => ch ≠ ',')).dropWhile isSpaceChar =
                        g2h :: g2t := by
                      rw [hP, ← hnc.1, hg2run,
                        dropWhile_append_all _ _ _ hW2ws,
                        List.dropWhile_cons_of_neg (p := isSpaceChar)
                          (by rw [hg2h_ws]; simp)]
                    unfold parseV1At parseV1Line
                    simp only [hpreE, hd7E, hd1E, reduceIte, hStakeE,
                      hSdropE, hg2run, hE2.2, hpre, hd7L, hr1, hDeq, hPdrop,
                      hPtake, hE0.2, hE1.2, htakeU, hdropU, Option.map_some']


lemma parseV1At_ws_prefix (a t : List Char)
    (ha : ∀ c ∈ a, isSpaceChar c = true) :
    parseV1At (a ++ t) =
      (parseV1At t).map (fun x => ((a ++ x.1.1, x.1.2.1, x.1.2.2), x.2)) := by
  unfold parseV1At
  rw [dropWhile_append_all _ _ _ ha, takeWhile_append_all _ _ _ ha]
  by_cases hpre : "monitor".toList.isPrefixOf (t.dropWhile isSpaceChar) = true
  case neg =>
    rw [Bool.eq_false_iff.mpr hpre]
    rfl
  case pos =>
    rw [hpre]
    cases hd1 : ((t.dropWhile isSpaceChar).drop 7).dropWhile isSpaceChar with
    | nil => rfl
    | cons c r3 =>
      by_cases hceq : c = '='
      case neg =>
        simp only [reduceIte, if_neg hceq]
        rfl
      case pos =>
        subst hceq
        cases hteq : (r3.dropWhile isSpaceChar).takeWhile v1NameChar with
        | nil =>
          cases hdeq : (r3.dropWhile isSpaceChar).dropWhile v1NameChar with
          | nil =>
            simp only [reduceIte, hteq, hdeq]
            rfl
          | cons bc bu =>
            by_cases hbc : bc = ','
            · subst hbc
              simp only [reduceIte, hteq, hdeq]
              cases hrev : (r3.takeWhile isSpaceChar).reverse with
              | nil => rfl
              | cons wlast wrev =>
                by_cases hwl : wlast = '\n'
                · simp only [if_pos hwl]
                  rfl
                · simp only [if_neg hwl]
                  simp [List.append_assoc]
            · simp only [reduceIte, hteq, hdeq, if_neg hbc]
              rfl
        | cons g2h g2t =>
          cases hdeq : (r3.dropWhile isSpaceChar).dropWhile v1NameChar with
          | nil =>
            simp only [reduceIte, hteq, hdeq]
            rfl
          | cons bc bu =>
            by_cases hbc : bc = ','
            · subst hbc
              simp only [reduceIte, hteq, hdeq]
              simp [List.append_assoc]
            · simp only [reduceIte, hteq, hdeq, if_neg hbc]
              rfl


lemma v1ScanFuel_irrel (name s : List Char) :
    ∀ (f g : ℕ) (t : List Char), t.length ≤ f → t.length ≤ g →
      v1ScanFuel name s f t = v1ScanFuel name s g t := by
  intro f
  induction f with
  | zero =>
    intro g t hf _
    have ht : t = [] := List.length_eq_zero.mp (Nat.le_zero.mp hf)
    subst ht
    cases g with
    | zero => rfl
    | succ g' => rfl
  | succ f' ih =>
    intro g t hf hg
    by_cases htne : t = []
    · subst htne
      cases g with
      | zero => rfl
      | succ g' => rfl
    · have hlen : 1 ≤ t.length := by
        cases t with
        | nil => exact absurd rfl htne
        | cons c r => simp
      cases g with
      | zero => omega
      | succ g' =>
        cases hp : parseV1At t with
        | some val =>
          obtain ⟨⟨g1, g2, g3⟩, after⟩ := val
          obtain ⟨hrec, -, ⟨u, hg3⟩, -⟩ := parseV1At_inv _ _ _ _ _ hp
          cases after with
          | nil =>
            rw [v1ScanFuel_some_nil name s f' t htne g1 g2 g3 hp,
              v1ScanFuel_some_nil name s g' t htne g1 g2 g3 hp]
          | cons c2 rest2 =>
            have hlenr : rest2.length + 2 ≤ t.length := by
              have := congrArg List.length hrec
              rw [hg3] at this
              simp [List.length_append] at this
              omega
            rw [v1ScanFuel_some_cons name s f' t htne g1 g2 g3 c2 rest2 hp,
              v1ScanFuel_some_cons name s g' t htne g1 g2 g3 c2 rest2 hp,
              ih g' rest2 (by omega) (by omega)]
        | none =>
          cases hd : t.dropWhile (fun ch => ch ≠ '\n') with
          | nil =>
            rw [v1ScanFuel_none_nil name s f' t htne hp hd,
              v1ScanFuel_none_nil name s g' t htne hp hd]
          | cons c2 rest2 =>
            have hsplit := List.takeWhile_append_dropWhile
              (p := fun ch => ch ≠ '\n') (l := t)
            rw [hd] at hsplit
            have hlenr : rest2.length + 1 ≤ t.length := by
              have := congrArg List.length hsplit
              simp [List.length_append] at this
              omega
            rw [v1ScanFuel_none_cons name s f' t htne hp c2 rest2 hd,
              v1ScanFuel_none_cons name s g' t htne hp c2 rest2 hd,
              ih g' rest2 (by omega) (by omega)]

lemma v1ScanFuel_blank (name s a J : List Char) (f : ℕ)
    (ha : ∀ c ∈ a, isSpaceChar c = true) (hanl : '\n' ∉ a)
    (hfuel : J.length ≤ f) :
    v1ScanFuel name s (f + 1) (a ++ '\n' :: J) =
      (a ++ '\n' :: (v1ScanFuel name s f J).1, (v1ScanFuel name s f J).2) := by
  have ha' : ∀ c ∈ a ++ ['\n'], isSpaceChar c = true := by
    intro c hc
    rcases List.mem_append.mp hc with h | h
    · exact ha c h
    · rw [List.mem_singleton.mp h]
      decide
  have hshift : parseV1At (a ++ '\n' :: J) =
      (parseV1At J).map (fun x =>
        (((a ++ ['\n']) ++ x.1.1, x.1.2.1, x.1.2.2), x.2)) := by
    have hra : a ++ '\n' :: J = (a ++ ['\n']) ++ J := by simp
    rw [hra, parseV1At_ws_prefix _ _ ha']
  have htne : a ++ '\n' :: J ≠ [] := by simp
  cases hp : parseV1At J with
  | none =>
    rw [hp] at hshift
    simp only [Option.map_none'] at hshift
    have hdp : (a ++ '\n' :: J).dropWhile (fun ch => ch ≠ '\n') =
        '\n' :: J := by
      have hane : ∀ c ∈ a, (fun ch => decide (ch ≠ '\n')) c = true := by
        intro c hc
        exact decide_eq_true (fun he => hanl (by rw [← he]; exact hc))
      rw [dropWhile_append_all _ _ _ hane,
        List.dropWhile_cons_of_neg (by decide)]
    have htp : (a ++ '\n' :: J).takeWhile (fun ch => ch ≠ '\n') = a := by
      have hane : ∀ c ∈ a, (fun ch => decide (ch ≠ '\n')) c = true := by
        intro c hc
        exact decide_eq_true (fun he => hanl (by rw [← he]; exact hc))
      rw [takeWhile_append_all _ _ _ hane,
        List.takeWhile_cons_of_neg (by decide), List.append_nil]
    rw [v1ScanFuel_none_cons name s f _ htne hshift '\n' J hdp, htp]
  | some val =>
    obtain ⟨⟨g1, g2, g3⟩, after⟩ := val
    rw [hp] at hshift
    simp only [Option.map_some'] at hshift
    obtain ⟨hrec, -, ⟨u, hg3⟩, -⟩ := parseV1At_inv _ _ _ _ _ hp
    have hJne : J ≠ [] := by
      intro h0
      rw [h0] at hrec
      have := congrArg List.length hrec
      rw [hg3] at this
      simp [List.length_append] at this
      omega
    have hJlen : 1 ≤ J.length := by
      cases J with
      | nil => exact absurd rfl hJne
      | cons x xs => simp
    cases f with
    | zero => omega
    | succ f' =>
      cases after with
      | nil =>
        rw [v1ScanFuel_some_nil name s (f' + 1) _ htne _ _ _ hshift,
          v1ScanFuel_some_nil name s f' J hJne g1 g2 g3 hp]
        by_cases hname : stripBoth g2 = name
        · simp [hname, List.append_assoc]
        · simp [hname, List.append_assoc]
      | cons c2 rest2 =>
        have hlenr : rest2.length + 2 ≤ J.length := by
          have := congrArg List.length hrec
          rw [hg3] at this
          simp [List.length_append] at this
          omega
        rw [v1ScanFuel_some_cons name s (f' + 1) _ htne _ _ _ c2 rest2 hshift,
          v1ScanFuel_some_cons name s f' J hJne g1 g2 g3 c2 rest2 hp,
          v1ScanFuel_irrel name s (f' + 1) f' rest2 (by omega) (by omega)]
        by_cases hname : stripBoth g2 = name
        · simp [hname, List.append_assoc]
        · simp [hname, List.append_assoc]

lemma v1Line_blank (name s L : List Char)
    (h : ∀ c ∈ L, isSpaceChar c = true) : v1Line name s L = (L, false) := by
  unfold v1Line
  rw [parseV1Line_blank L h]


lemma v1SafeLine_of_parse (L : List Char)
    (g : List Char × List Char × List Char)
    (h : parseV1Line L = some g) : v1SafeLine L = true := by
  unfold parseV1Line at h
  split at h
  case isFalse => exact absurd h (by simp)
  rename_i hpre
  split at h
  case h_1 => exact absurd h (by simp)
  rename_i c r3 hd1
  split at h
  case isFalse => exact absurd h (by simp)
  rename_i hc
  subst hc
  split at h
  case h_1 => exact absurd h (by simp)
  rename_i c2 rest2 hd2
  have hr0ne : L.dropWhile isSpaceChar ≠ [] := by
    intro h0
    rw [h0] at hpre
    exact absurd hpre (by decide)
  have hbody : r3.dropWhile isSpaceChar ≠ [] := by
    intro h0
    have hall := List.dropWhile_eq_nil_iff.mp h0
    have hdnil : r3.dropWhile (fun ch => ch ≠ ',') = [] := by
      rw [List.dropWhile_eq_nil_iff]
      intro x hx
      exact decide_eq_true (isSpaceChar_ne_comma x (hall x hx))
    rw [hdnil] at hd2
    exact absurd hd2 (by simp)
  unfold v1SafeLine
  rw [hd1, hpre]
  cases hr0 : L.dropWhile isSpaceChar with
  | nil => exact absurd hr0 hr0ne
  | cons x xs =>
    cases hb : r3.dropWhile isSpaceChar with
    | nil => exact absurd hb hbody
    | cons y ys =>
      simp
      refine ⟨y, ?_, ?_⟩
      · apply mem_of_mem_dropWhile isSpaceChar
        rw [hb]
        exact List.mem_cons_self y ys
      · exact dropWhile_head_false _ _ _ _ hb

lemma v1ScanFuel_lines (name s : List Char) :
    ∀ (ls : List (List Char)) (fuel : ℕ), ls ≠ [] →
      (∀ L ∈ ls, '\n' ∉ L) →
      (∀ L ∈ ls.dropLast, v1OkLine L = true) →
      (joinWith '\n' ls).length ≤ fuel →
      v1ScanFuel name s fuel (joinWith '\n' ls) =
        (joinWith '\n' (ls.map (fun l => (v1Line name s l).1)),
         ls.any (fun l => (v1Line name s l).2)) := by
  intro ls
  induction ls with
  | nil => intro fuel h; exact absurd rfl h
  | cons a tl ih =>
    intro fuel _ hnl hok hfuel
    cases tl with
    | nil =>
      have hnla : '\n' ∉ a := hnl a (List.mem_cons_self a [])
      have hpa := parseV1At_ext a [] hnla (Or.inl rfl) (Or.inl rfl)
      rw [List.append_nil] at hpa
      have hJ1 : joinWith '\n' [a] = a := rfl
      rw [hJ1] at hfuel ⊢
      cases hpl : parseV1Line a with
      | none =>
        rw [hpl] at hpa
        simp only [Option.map_none'] at hpa
        have hvl : v1Line name s a = (a, false) := by
          unfold v1Line
          rw [hpl]
        by_cases hane : a = []
        · subst hane
          have hson : ∀ f0 : ℕ, v1ScanFuel name s f0 [] = ([], false) := by
            intro f0
            cases f0 with
            | zero => rfl
            | succ f1 => rfl
          cases fuel with
          | zero => simp [hvl, joinWith, hson]
          | succ f' => simp [hvl, joinWith, hson]
        · have hlen1 : 1 ≤ a.length := by
            cases a with
            | nil => exact absurd rfl hane
            | cons x xs => simp
          cases fuel with
          | zero => omega
          | succ f' =>
            have hdp : a.dropWhile (fun ch => ch ≠ '\n') = [] := by
              rw [List.dropWhile_eq_nil_iff]
              intro x hx
              exact decide_eq_true (fun he => hnla (by rw [← he]; exact hx))
            rw [v1ScanFuel_none_nil name s f' a hane hpa hdp]
            simp [hvl, joinWith]
      | some g =>
        obtain ⟨g1, g2, g3⟩ := g
        rw [hpl] at hpa
        simp only [Option.map_some'] at hpa
        obtain ⟨hrec, -, ⟨u, hg3⟩, -⟩ := parseV1At_inv _ _ _ _ _ hpa
        have hane : a ≠ [] := by
          intro h0
          rw [h0] at hrec
          have := congrArg List.length hrec
          rw [hg3] at this
          simp [List.length_append] at this
          omega
        have hlen1 : 1 ≤ a.length := by
          cases a with
          | nil => exact absurd rfl hane
          | cons x xs => simp
        cases fuel with
        | zero => omega
        | succ f' =>
          rw [v1ScanFuel_some_nil name s f' a hane g1 g2 g3 hpa]
          by_cases hname : stripBoth g2 = name
          · have hvl : v1Line name s a =
                (g1 ++ g2 ++ v1EditRemainder s g3, true) := by
              unfold v1Line
              simp only [hpl]
              rw [if_pos hname]
            simp [hvl, hname, joinWith]
          · have hvl : v1Line name s a = (a, false) := by
              unfold v1Line
              simp only [hpl]
              rw [if_neg hname]
            rw [List.append_nil] at hrec
            simp [hvl, hname, joinWith, ← hrec]
    | cons b tl' =>
      have hnla : '\n' ∉ a := hnl a (List.mem_cons_self a _)
      have hdl : (a :: b :: tl').dropLast = a :: (b :: tl').dropLast := rfl
      have hoka : v1OkLine a = true := by
        apply hok
        rw [hdl]
        exact List.mem_cons_self a _
      have hJ : joinWith '\n' (a :: b :: tl') =
          a ++ '\n' :: joinWith '\n' (b :: tl') :=
        joinWith_cons_cons '\n' a b tl'
      have hlenJ := congrArg List.length hJ
      rw [List.length_append] at hlenJ
      rw [hJ] at hfuel ⊢
      rw [hJ] at hlenJ
      cases fuel with
      | zero =>
        have := congrArg List.length (rfl : a ++ '\n' :: joinWith '\n'
          (b :: tl') = a ++ '\n' :: joinWith '\n' (b :: tl'))
        simp [List.length_append] at hfuel
      | succ f' =>
        have hfuel' : (joinWith '\n' (b :: tl')).length ≤ f' := by
          have h1 : (a ++ '\n' :: joinWith '\n' (b :: tl')).length =
              a.length + 1 + (joinWith '\n' (b :: tl')).length := by
            simp [List.length_append]
            omega
          omega
        have hih := ih f' (by simp)
          (fun L hL => hnl L (List.mem_cons_of_mem a hL))
          (fun L hL => hok L (by
            rw [hdl]
            exact List.mem_cons_of_mem a hL)) hfuel'
        unfold v1OkLine at hoka
        rw [Bool.or_eq_true] at hoka
        rcases hoka with hblank | hsafe
        · have hall : ∀ c ∈ a, isSpaceChar c = true := by
            intro c hc
            exact List.all_eq_true.mp hblank c hc
          rw [v1ScanFuel_blank name s a _ f' hall hnla hfuel', hih]
          have hvl : v1Line name s a = (a, false) := v1Line_blank name s a hall
          simp [hvl, joinWith_cons_cons]
        · have hpa := parseV1At_ext a ('\n' :: joinWith '\n' (b :: tl')) hnla
            (Or.inr ⟨_, rfl⟩) (Or.inr hsafe)
          have htne : a ++ '\n' :: joinWith '\n' (b :: tl') ≠ [] := by simp
          cases hpl : parseV1Line a with
          | none =>
            rw [hpl] at hpa
            simp only [Option.map_none'] at hpa
            have hane2 : ∀ c ∈ a, (fun ch => decide (ch ≠ '\n')) c = true := by
              intro c hc
              exact decide_eq_true (fun he => hnla (by rw [← he]; exact hc))
            have hdp : (a ++ '\n' :: joinWith '\n' (b :: tl')).dropWhile
                (fun ch => ch ≠ '\n') = '\n' :: joinWith '\n' (b :: tl') := by
              rw [dropWhile_append_all _ _ _ hane2,
                List.dropWhile_cons_of_neg (by decide)]
            have htp : (a ++ '\n' :: joinWith '\n' (b :: tl')).takeWhile
                (fun ch => ch ≠ '\n') = a := by
              rw [takeWhile_append_all _ _ _ hane2,
                List.takeWhile_cons_of_neg (by decide), List.append_nil]
            rw [v1ScanFuel_none_cons name s f' _ htne hpa '\n' _ hdp, htp, hih]
            have hvl : v1Line name s a = (a, false) := by
              unfold v1Line
              rw [hpl]
            simp [hvl, joinWith_cons_cons]
          | some g =>
            obtain ⟨g1, g2, g3⟩ := g
            rw [hpl] at hpa
            simp only [Option.map_some'] at hpa
            rw [v1ScanFuel_some_cons name s f' _ htne g1 g2 g3 '\n'
              (joinWith '\n' (b :: tl')) hpa, hih]
            by_cases hname : stripBoth g2 = name
            · have hvl : v1Line name s a =
                  (g1 ++ g2 ++ v1EditRemainder s g3, true) := by
                unfold v1Line
                simp only [hpl]
                rw [if_pos hname]
              simp [hvl, hname, joinWith_cons_cons]
            · have hvl : v1Line name s a = (a, false) := by
                unfold v1Line
                simp only [hpl]
                rw [if_neg hname]
              obtain ⟨w0, w1, ws2, t0, -, hreca, -, -, -, -, -, -, -⟩ :=
                parseV1Line_inv a g1 g2 g3 hpl
              simp [hvl, hname, joinWith_cons_cons, ← hreca]

lemma v1Scan_lines (name s content : List Char)
    (hok : ∀ L ∈ (splitOnChar '\n' content).dropLast, v1OkLine L = true) :
    v1Scan name s content =
      (joinWith '\n' ((splitOnChar '\n' content).map
        (fun l => (v1Line name s l).1)),
       (splitOnChar '\n' content).any (fun l => (v1Line name s l).2)) := by
  have hjs : joinWith '\n' (splitOnChar '\n' content) = content :=
    joinWith_splitOnChar '\n' content
  have hne : splitOnChar '\n' content ≠ [] :=
    fun h => splitOnChar_ne_nil '\n' content h
  have hnl : ∀ L ∈ splitOnChar '\n' content, '\n' ∉ L :=
    fun L hL hm => mem_splitOnChar_no_sep '\n' content L hL hm
  have hmain := v1ScanFuel_lines name s (splitOnChar '\n' content)
    content.length hne hnl hok (by rw [hjs])
  rw [hjs] at hmain
  unfold v1Scan
  exact hmain

lemma v1Scan_not_fired_id (name s t : List Char)
    (h : (v1Scan name s t).2 = false) : (v1Scan name s t).1 = t :=
  v1ScanFuel_not_fired_id name s t.length t h

lemma mem_of_mem_dropLast (l : List (List Char)) (x : List Char)
    (h : x ∈ l.dropLast) : x ∈ l := by
  induction l with
  | nil => simpa using h
  | cons a tl ih =>
    cases tl with
    | nil => simpa using h
    | cons b tl' =>
      rcases List.mem_cons.mp h with h | h
      · exact h ▸ List.mem_cons_self a _
      · exact List.mem_cons_of_mem a (ih h)

lemma update_config_idem (name s content : List Char)
    (hbrace : '\x7b' ∉ content) (hs : ∀ c ∈ s, fmtCharOK c) (hsne : s ≠ [])
    (hnc : ',' ∉ name) (hnn : '\n' ∉ name) (hnb : '\x7b' ∉ name)
    (hns : stripBoth name = name) (hne : name ≠ [])
    (hsafe : ∀ L ∈ splitOnChar '\n' content, v1OkLine L = true) :
    update_config name s (update_config name s content) =
      update_config name s content := by
  have hok1 : ∀ L ∈ (splitOnChar '\n' content).dropLast, v1OkLine L = true :=
    fun L hL => hsafe L (mem_of_mem_dropLast _ _ hL)
  have hbridge1 := v1Scan_lines name s content hok1
  rw [update_config_no_brace name s content hbrace]
  by_cases hflag : (v1Scan name s content).2 = true
  · rw [if_pos hflag]
    have hO : (v1Scan name s content).1 =
        joinWith '\n' ((splitOnChar '\n' content).map
          (fun l => (v1Line name s l).1)) := by
      rw [hbridge1]
    have hany : (splitOnChar '\n' content).any
        (fun l => (v1Line name s l).2) = true := by
      rw [hbridge1] at hflag
      exact hflag
    rw [hO]
    have helts : ∀ p ∈ (splitOnChar '\n' content).map
        (fun l => (v1Line name s l).1), '\n' ∉ p := by
      intro p hp hmem
      obtain ⟨l, hl, rfl⟩ := List.mem_map.mp hp
      rcases v1Line_chars name s l hs hsne '\n' hmem with h | h | h
      · exact mem_splitOnChar_no_sep '\n' content l hl h
      · exact absurd h (by decide)
      · exact ((fmtCharOK_props _ (hs _ h)).2.2.2.2) rfl
    have hPne : (splitOnChar '\n' content).map
        (fun l => (v1Line name s l).1) ≠ [] := by
      intro h0
      cases h2 : splitOnChar '\n' content with
      | nil => exact splitOnChar_ne_nil '\n' content h2
      | cons a as =>
        rw [h2] at h0
        simp at h0
    have hsplit2 : splitOnChar '\n'
        (joinWith '\n' ((splitOnChar '\n' content).map
          (fun l => (v1Line name s l).1))) =
        (splitOnChar '\n' content).map (fun l => (v1Line name s l).1) :=
      splitOnChar_joinWith '\n' _ helts hPne
    have hbrace2 : '\x7b' ∉ joinWith '\n'
        ((splitOnChar '\n' content).map (fun l => (v1Line name s l).1)) := by
      intro hmem
      rcases mem_joinWith '\n' _ '\x7b' hmem with h | ⟨p, hp, hc⟩
      · exact absurd h (by decide)
      · obtain ⟨l, hl, rfl⟩ := List.mem_map.mp hp
        rcases v1Line_chars name s l hs hsne '\x7b' hc with h | h | h
        · exact hbrace (mem_of_mem_splitOnChar '\n' content l '\x7b' hl h)
        · exact absurd h (by decide)
        · exact ((fmtCharOK_props _ (hs _ h)).2.2.2.1) rfl
    rw [update_config_no_brace name s _ hbrace2]
    have hok2 : ∀ L ∈ (splitOnChar '\n' (joinWith '\n'
        ((splitOnChar '\n' content).map
          (fun l => (v1Line name s l).1)))).dropLast, v1OkLine L = true := by
      intro L hL
      rw [hsplit2] at hL
      have hL2 := mem_of_mem_dropLast _ _ hL
      obtain ⟨l, hl, rfl⟩ := List.mem_map.mp hL2
      cases hfl : (v1Line name s l).2 with
      | true =>
        have href := v1Line_idem_fired name s l hs hsne hfl
        have hsome : ∃ g, parseV1Line ((v1Line name s l).1) = some g := by
          cases hp : parseV1Line ((v1Line name s l).1) with
          | none =>
            have h2 : (v1Line name s ((v1Line name s l).1)).2 = false := by
              rw [v1Line_eq, hp]
            rw [href] at h2
            simp at h2
          | some g => exact ⟨g, rfl⟩
        obtain ⟨g, hg⟩ := hsome
        unfold v1OkLine
        rw [v1SafeLine_of_parse _ g hg]
        simp
      | false =>
        rw [v1Line_not_fired name s l hfl]
        exact hsafe l hl
    have hbridge2 := v1Scan_lines name s (joinWith '\n'
      ((splitOnChar '\n' content).map (fun l => (v1Line name s l).1))) hok2
    rw [hsplit2] at hbridge2
    have hflag2 : (v1Scan name s (joinWith '\n'
        ((splitOnChar '\n' content).map
          (fun l => (v1Line name s l).1)))).2 = true := by
      rw [hbridge2]
      show (((splitOnChar '\n' content).map
        (fun l => (v1Line name s l).1)).any
          (fun l => (v1Line name s l).2)) = true
      rw [List.any_eq_true] at hany ⊢
      obtain ⟨l0, hl0, hfl0⟩ := hany
      refine ⟨(v1Line name s l0).1, List.mem_map.mpr ⟨l0, hl0, rfl⟩, ?_⟩
      show (v1Line name s ((v1Line name s l0).1)).2 = true
      rw [v1Line_idem_fired name s l0 hs hsne hfl0]
    rw [if_pos hflag2, hbridge2]
    show joinWith '\n' (((splitOnChar '\n' content).map
      (fun l => (v1Line name s l).1)).map (fun l => (v1Line name s l).1)) =
      joinWith '\n' ((splitOnChar '\n' content).map
        (fun l => (v1Line name s l).1))
    congr 1
    rw [List.map_map]
    apply List.map_congr_left
    intro l _
    show (v1Line name s ((v1Line name s l).1)).1 = (v1Line name s l).1
    exact v1Line_proj_idem name s l hs hsne
  · rw [if_neg hflag]
    have hflagf : (v1Scan name s content).2 = false := by
      cases h : (v1Scan name s content).2 with
      | false => rfl
      | true => exact absurd h hflag
    rw [v1Scan_not_fired_id name s content hflagf]
    have htail : content ++ '\n' :: "monitor = ".toList ++ name ++
        ", preferred, auto, ".toList ++ s ++ ['\n'] =
        content ++ '\n' :: (("monitor = ".toList ++ name ++
          ", preferred, auto, ".toList ++ s) ++ ['\n']) := by
      simp [List.append_assoc]
    rw [htail]
    have hLnl : '\n' ∉ "monitor = ".toList ++ name ++
        ", preferred, auto, ".toList ++ s := by
      intro hmem
      rcases List.mem_append.mp hmem with h | h
      · rcases List.mem_append.mp h with h | h
        · rcases List.mem_append.mp h with h | h
          · exact absurd h (by decide)
          · exact hnn h
        · exact absurd h (by decide)
      · exact ((fmtCharOK_props _ (hs _ h)).2.2.2.2) rfl
    have hbrace1 : '\x7b' ∉ content ++ '\n' ::
        (("monitor = ".toList ++ name ++ ", preferred, auto, ".toList ++ s) ++
          ['\n']) := by
      intro hmem
      rcases List.mem_append.mp hmem with h | h
      · exact hbrace h
      rcases List.mem_cons.mp h with h | h
      · exact absurd h (by decide)
      rcases List.mem_append.mp h with h | h
      · rcases List.mem_append.mp h with h | h
        · rcases List.mem_append.mp h with h | h
          · rcases List.mem_append.mp h with h | h
            · exact absurd h (by decide)
            · exact hnb h
          · exact absurd h (by decide)
        · exact ((fmtCharOK_props _ (hs _ h)).2.2.2.1) rfl
      · exact absurd h (by decide)
    have hsplitapp : splitOnChar '\n' (content ++ '\n' ::
        (("monitor = ".toList ++ name ++ ", preferred, auto, ".toList ++ s) ++
          ['\n'])) =
        splitOnChar '\n' content ++
          [("monitor = ".toList ++ name ++ ", preferred, auto, ".toList ++ s),
            []] := by
      rw [splitOnChar_append_sep]
      have h1 : ("monitor = ".toList ++ name ++
          ", preferred, auto, ".toList ++ s) ++ ['\n'] =
          ("monitor = ".toList ++ name ++
            ", preferred, auto, ".toList ++ s) ++ '\n' :: [] := rfl
      rw [h1, splitOnChar_append_sep, splitOnChar_of_not_mem '\n' _ hLnl]
      rfl
    rw [update_config_no_brace name s _ hbrace1]
    have happ := v1Line_appended name s hs hnc hns hne
    have hvp : (v1Pass name s (splitOnChar '\n' content)).2 = false := by
      rw [hbridge1] at hflagf
      exact hflagf
    have hentry_some : ∃ g, parseV1Line ("monitor = ".toList ++ name ++
        ", preferred, auto, ".toList ++ s) = some g := by
      cases hp : parseV1Line ("monitor = ".toList ++ name ++
          ", preferred, auto, ".toList ++ s) with
      | none =>
        have h2 : (v1Line name s ("monitor = ".toList ++ name ++
            ", preferred, auto, ".toList ++ s)).2 = false := by
          rw [v1Line_eq, hp]
        rw [happ] at h2
        simp at h2
      | some g => exact ⟨g, rfl⟩
    have hok3 : ∀ L ∈ (splitOnChar '\n' (content ++ '\n' ::
        (("monitor = ".toList ++ name ++ ", preferred, auto, ".toList ++ s) ++
          ['\n']))).dropLast, v1OkLine L = true := by
      intro L hL
      have hL2 := mem_of_mem_dropLast _ _ hL
      rw [hsplitapp] at hL2
      rcases List.mem_append.mp hL2 with h | h
      · exact hsafe L h
      · rcases List.mem_cons.mp h with h | h
        · subst h
          obtain ⟨g, hg⟩ := hentry_some
          unfold v1OkLine
          rw [v1SafeLine_of_parse _ g hg]
          simp
        · rcases List.mem_cons.mp h with h | h
          · subst h
            decide
          · simp at h
    have hbridge3 := v1Scan_lines name s (content ++ '\n' ::
      (("monitor = ".toList ++ name ++ ", preferred, auto, ".toList ++ s) ++
        ['\n'])) hok3
    rw [hsplitapp] at hbridge3
    have hflag3 : (v1Scan name s (content ++ '\n' ::
        (("monitor = ".toList ++ name ++ ", preferred, auto, ".toList ++ s) ++
          ['\n']))).2 = true := by
      rw [hbridge3]
      show ((splitOnChar '\n' content ++
        [("monitor = ".toList ++ name ++ ", preferred, auto, ".toList ++ s),
          []]).any (fun l => (v1Line name s l).2)) = true
      rw [List.any_eq_true]
      refine ⟨"monitor = ".toList ++ name ++ ", preferred, auto, ".toList ++ s,
        by simp, ?_⟩
      show (v1Line name s ("monitor = ".toList ++ name ++
        ", preferred, auto, ".toList ++ s)).2 = true
      rw [happ]
    rw [if_pos hflag3, hbridge3]
    show joinWith '\n' ((splitOnChar '\n' content ++
      [("monitor = ".toList ++ name ++ ", preferred, auto, ".toList ++ s),
        []]).map (fun l => (v1Line name s l).1)) =
      content ++ '\n' :: (("monitor = ".toList ++ name ++
        ", preferred, auto, ".toList ++ s) ++ ['\n'])
    have hmap2 : (splitOnChar '\n' content ++
        [("monitor = ".toList ++ name ++ ", preferred, auto, ".toList ++ s),
          []]).map (fun l => (v1Line name s l).1) =
        splitOnChar '\n' content ++
          [("monitor = ".toList ++ name ++ ", preferred, auto, ".toList ++ s),
            []] := by
      rw [List.map_append]
      have hLfst : (v1Line name s ("monitor = ".toList ++ name ++
          ", preferred, auto, ".toList ++ s)).1 =
          "monitor = ".toList ++ name ++ ", preferred, auto, ".toList ++ s := by
        rw [happ]
      have hNfst : (v1Line name s ([] : List Char)).1 = [] := rfl
      rw [List.map_cons, List.map_cons, List.map_nil, hLfst, hNfst]
      have h4 : (splitOnChar '\n' content).map (fun l => (v1Line name s l).1) =
          splitOnChar '\n' content := v1Pass_not_found_id name s _ hvp
      rw [h4]
    rw [hmap2, joinWith_append '\n' _ _ (splitOnChar_ne_nil '\n' content)
      (by simp), joinWith_splitOnChar, joinWith_cons_cons]
    rfl

end IdempotenceLemmas

/-- C4 counterexample: the patcher is NOT idempotent for every config
content, monitor name and scale.  Two refutations: (1) with the
(ill-formed but accepted) monitor name "A,B" the appended entry reads
back with group 2 = "A", which never matches "A,B" again, so a second
application appends a second entry; (2) with the well-formed name "A" but
a content whose single line `monitor =` ends mid-pattern, the appended
entry is swallowed by a match that starts on the first line and spans the
newline (the `\s*` after `=` crosses it), its group 2 reads
`monitor = A`, which never matches "A", and every application appends
again. -/
theorem C4_counterexample :
    (update_config_atomically "A,B".toList 2
        (update_config_atomically "A,B".toList 2 "".toList) ≠
      update_config_atomically "A,B".toList 2 "".toList) ∧
    (update_config_atomically "A".toList 2
        (update_config_atomically "A".toList 2 "monitor =".toList) ≠
      update_config_atomically "A".toList 2 "monitor =".toList) := by
  exact ⟨by decide, by decide⟩

/-- C4 (amended): the patcher IS idempotent on v1-style configs whose
lines are each blank or v1-safe, with a well-formed monitor name: for
content without a brace, every line of which is all-whitespace or
v1-safe (a match attempt at its start cannot end inside the line's
trailing whitespace — this excludes truncated lines like `monitor =`),
and a name that is nonempty, equal to its own strip and free of comma,
newline and brace, re-applying the same (name, scale) patch to the first
application's output returns it byte-identically — covering both the
rewrite case and the case where the first application appended a new
entry.  For other inputs idempotence can fail. -/
theorem C4_patch_idempotent (name content : List Char) (q : ℚ)
    (hbrace : '\x7b' ∉ content)
    (hnc : ',' ∉ name) (hnn : '\n' ∉ name) (hnb : '\x7b' ∉ name)
    (hns : stripBoth name = name) (hne : name ≠ [])
    (hsafe : ∀ L ∈ splitOnChar '\n' content, v1OkLine L = true) :
    update_config_atomically name q
        (update_config_atomically name q content) =
      update_config_atomically name q content :=
  update_config_idem name (fmtG q) content hbrace (fmtG_chars q)
    (fmtG_ne_nil q) hnc hnn hnb hns hne hsafe

/-- C4 amended witness: patching DP-1 to scale 2 twice, starting from a
file whose entry gets rewritten, equals patching once (and likewise the
append path is exercised inside the first application for a fresh name,
here via the rewrite of the just-appended entry on the second run). -/
theorem C4_patch_idempotent_witness :
    ('\x7b' ∉ "monitor = DP-1, 1920x1080, 0x0, 1\nmonitor = eDP-1, disable".toList ∧
      ',' ∉ "DP-1".toList ∧ '\n' ∉ "DP-1".toList ∧ '\x7b' ∉ "DP-1".toList ∧
      stripBoth "DP-1".toList = "DP-1".toList ∧ "DP-1".toList ≠ [] ∧
      (∀ L ∈ splitOnChar '\n'
        "monitor = DP-1, 1920x1080, 0x0, 1\nmonitor = eDP-1, disable".toList,
        v1OkLine L = true)) ∧
    update_config_atomically "DP-1".toList 2
        (update_config_atomically "DP-1".toList 2
          "monitor = DP-1, 1920x1080, 0x0, 1\nmonitor = eDP-1, disable".toList) =
      update_config_atomically "DP-1".toList 2
        "monitor = DP-1, 1920x1080, 0x0, 1\nmonitor = eDP-1, disable".toList :=
  ⟨⟨by decide, by decide, by decide, by decide, by decide, by decide,
    by decide⟩,
   C4_patch_idempotent "DP-1".toList
     "monitor = DP-1, 1920x1080, 0x0, 1\nmonitor = eDP-1, disable".toList
     2 (by decide) (by decide) (by decide) (by decide) (by decide)
     (by decide) (by decide)⟩
